import Mathlib

/-!
Verification development for the pnpm linking strategy
(`packages/plugin-pnp/sources/PnpmLinker.ts`).

The TypeScript installer is shallowly embedded: absolute filesystem paths
become lists of segments, the filesystem becomes a finite association list
from paths to objects (directory, file, symlink), and each installer method
becomes a pure function threading the filesystem state explicitly and
returning `Except` for fallible operations.  Filesystem writes are logged so
that idempotence properties can be stated as "the second run logs nothing".
-/

namespace PnpmSpec

/-! ## Paths -/

abbrev Seg := String

/-- An absolute path, as the list of its segments from the filesystem root. -/
abbrev Path := List Seg

/-- `leadsTo p q` holds when `q` is at or below `p` (`p` is a path prefix). -/
def leadsTo (p q : Path) : Bool := decide (q.take p.length = p)

/-- `s.startsWith(c)` for a single-character marker (`"."` / `"@"` in the
source): whether the first character of `s` is `c`. -/
def startsWithChar (s : Seg) (c : Char) : Bool :=
  match s.data with
  | [] => false
  | c' :: _ => decide (c' = c)

/-- Strip the longest common leading run of two paths
(the helper behind `ppath.relative`). -/
def dropCommon : Path → Path → Path × Path
  | a :: as, b :: bs => if a = b then dropCommon as bs else (a :: as, b :: bs)
  | as, bs => (as, bs)

/-- `ppath.relative src dst`: the relative path from directory `src` to `dst`,
made of `".."` segments followed by the non-shared suffix of `dst`. -/
def relSegs (src dst : Path) : List Seg :=
  let p := dropCommon src dst
  List.replicate p.1.length ".." ++ p.2

/-- Resolve a relative path against a base directory
(each `".."` pops one segment). -/
def resolveRel (base : Path) : List Seg → Path
  | [] => base
  | s :: rest => if s = ".." then resolveRel base.dropLast rest else resolveRel (base ++ [s]) rest

/-! ## Filesystem model -/

inductive FsObj where
  | dir : FsObj
  | file (content : String) : FsObj
  | symlink (target : List Seg) : FsObj
deriving DecidableEq, Repr

/-- The filesystem: a finite map from absolute paths to objects,
as an association list (first binding wins). -/
abbrev Fs := List (Path × FsObj)

def getObj (fs : Fs) (p : Path) : Option FsObj :=
  (fs.find? (fun e => decide (e.1 = p))).map (·.2)

def setObj (fs : Fs) (p : Path) (o : FsObj) : Fs :=
  (p, o) :: fs.filter (fun e => !(decide (e.1 = p)))

/-- Remove the object at `p` and everything below it (`xfs.removePromise`). -/
def removeTree (fs : Fs) (p : Path) : Fs :=
  fs.filter (fun e => !(leadsTo p e.1))

/-- Direct children of directory `p`: name and object of each entry that
lives exactly one level below `p`. -/
def childEnts (fs : Fs) (p : Path) : List (Seg × FsObj) :=
  fs.filterMap (fun e =>
    if e.1.length = p.length + 1 && leadsTo p e.1 then
      match e.1.getLast? with
      | some n => some (n, e.2)
      | none => none
    else none)

inductive FsErrorCode where
  | ENOENT | ENOTDIR | EEXIST | EINVAL
deriving DecidableEq, Repr

/-- `xfs.readdirPromise(p, {withFileTypes: true})`. -/
def readdirEnts (fs : Fs) (p : Path) : Except FsErrorCode (List (Seg × FsObj)) :=
  match getObj fs p with
  | some .dir => .ok (childEnts fs p)
  | some _ => .error .ENOTDIR
  | none => .error .ENOENT

/-- `xfs.readlinkPromise`. -/
def readlink (fs : Fs) (p : Path) : Except FsErrorCode (List Seg) :=
  match getObj fs p with
  | some (.symlink t) => .ok t
  | some _ => .error .EINVAL
  | none => .error .ENOENT

/-- Helper for `mkdirp`: create the missing directories along `segs`,
starting below the already-existing `base`.  Returns the list of directories
actually created. -/
def mkdirpGo (fs : Fs) (base : Path) : List Seg → Except FsErrorCode (Fs × List Path)
  | [] => .ok (fs, [])
  | s :: rest =>
    let q := base ++ [s]
    match getObj fs q with
    | some .dir => mkdirpGo fs q rest
    | some _ => .error .ENOTDIR
    | none =>
      match mkdirpGo (setObj fs q .dir) q rest with
      | .ok (fs', created) => .ok (fs', q :: created)
      | .error e => .error e

/-- `xfs.mkdirpPromise` / `xfs.mkdirPromise(p, {recursive: true})`. -/
def mkdirp (fs : Fs) (p : Path) : Except FsErrorCode (Fs × List Path) :=
  mkdirpGo fs [] p

/-- `xfs.symlinkPromise(target, p)`: fails if something already exists at `p`
or the parent directory is missing. -/
def symlinkCreate (fs : Fs) (target : List Seg) (p : Path) : Except FsErrorCode Fs :=
  match getObj fs p with
  | some _ => .error .EEXIST
  | none =>
    if p.dropLast = [] then .ok (setObj fs p (.symlink target))
    else
      match getObj fs p.dropLast with
      | some .dir => .ok (setObj fs p (.symlink target))
      | some _ => .error .ENOTDIR
      | none => .error .ENOENT

/-! ## Write log -/

inductive WriteOp where
  | mkdir (p : Path)
  | writeFile (p : Path)
  | makeLink (p : Path) (target : List Seg)
  | remove (p : Path)
deriving DecidableEq, Repr

inductive Phase where
  | store | reconcile
deriving DecidableEq, Repr

abbrev Log := List (Phase × WriteOp)

/-! ## Store population (copy) tasks

`installPackageHard` schedules `mkdirPromise(pkgPath, {recursive: true})`
followed by `copyPromise(pkgPath, prefixPath, {baseFs, overwrite: false})`.
The fetched package content is modelled as the list of its files (paths
relative to the package's true root, with their content); `copyPromise` with
`overwrite: false` writes exactly the files not already present at the
destination, creating parent directories as needed. -/

structure CopyTask where
  dst : Path
  files : List (Path × String)
deriving DecidableEq, Repr

/-- Copy one file of the fetched content into the destination, refusing to
overwrite an existing object. -/
def copyOne (fs : Fs) (dst : Path) (rel : Path) (c : String) :
    Except FsErrorCode (Fs × List WriteOp) :=
  match mkdirp fs (dst ++ rel.dropLast) with
  | .error e => .error e
  | .ok (fs₁, created) =>
    let p := dst ++ rel
    match getObj fs₁ p with
    | some _ => .ok (fs₁, created.map .mkdir)
    | none => .ok (setObj fs₁ p (.file c), created.map .mkdir ++ [.writeFile p])

def copyFiles (fs : Fs) (dst : Path) : List (Path × String) →
    Except FsErrorCode (Fs × List WriteOp)
  | [] => .ok (fs, [])
  | (rel, c) :: rest =>
    match copyOne fs dst rel c with
    | .error e => .error e
    | .ok (fs₁, w₁) =>
      match copyFiles fs₁ dst rest with
      | .error e => .error e
      | .ok (fs₂, w₂) => .ok (fs₂, w₁ ++ w₂)

def runCopyTask (fs : Fs) (t : CopyTask) : Except FsErrorCode (Fs × List WriteOp) :=
  match mkdirp fs t.dst with
  | .error e => .error e
  | .ok (fs₁, created) =>
    match copyFiles fs₁ t.dst t.files with
    | .error e => .error e
    | .ok (fs₂, w) => .ok (fs₂, created.map .mkdir ++ w)

def runTasks (fs : Fs) : List CopyTask → Except FsErrorCode (Fs × List WriteOp)
  | [] => .ok (fs, [])
  | t :: rest =>
    match runCopyTask fs t with
    | .error e => .error e
    | .ok (fs₁, w₁) =>
      match runTasks fs₁ rest with
      | .error e => .error e
      | .ok (fs₂, w₂) => .ok (fs₂, w₁ ++ w₂)

/-! ## Package identities (`@yarnpkg/core` values used by the linker) -/

structure Ident where
  scope : Option String
  name : String
deriving DecidableEq, Repr

/-- A resolved package instance.  A locator with `virtualHash = some h` is a
virtual locator: the peer-context-specific instantiation `h` of the concrete
locator obtained by erasing the hash.  The locator itself serves as its own
`locatorHash` map key (the hash is a stable injective digest of the locator). -/
structure Locator where
  ident : Ident
  reference : String
  virtualHash : Option String
deriving DecidableEq, Repr

/-- Modelled from the spec: `structUtils.isVirtualLocator` from
`@yarnpkg/core` (not under `src/`) — whether the locator is a virtual
(peer-context-discriminated) locator. -/
def isVirtualLocator (l : Locator) : Bool :=
  l.virtualHash.isSome

/-- Modelled from the spec: `structUtils.devirtualizeLocator` from
`@yarnpkg/core` — strip the peer-context discriminator, yielding the
underlying concrete locator. -/
def devirtualizeLocator (l : Locator) : Locator :=
  { l with virtualHash := none }

structure Descriptor where
  ident : Ident
  range : String
deriving DecidableEq, Repr

inductive LinkType where
  | SOFT | HARD
deriving DecidableEq, Repr

structure Package where
  locator : Locator
  linkType : LinkType
deriving DecidableEq, Repr

/-- A fetched package: `packageFs.getRealPath()`, the `prefixPath` locating
the true package root inside it, and the files of that root (paths relative
to the root). -/
structure FetchResult where
  realPath : Path
  prefixPath : Path
  contents : List (Path × String)
deriving DecidableEq, Repr

/-- The `opts.project` surface the linker touches: project root, the set of
first-party workspaces (by concrete locator), and the `nodeLinker`
configuration value. -/
structure Project where
  cwd : Path
  workspaceLocators : List Locator
  nodeLinker : String
deriving DecidableEq, Repr

/-- Modelled from the spec: `Project.tryWorkspaceByLocator` from
`@yarnpkg/core` (not under `src/`) — devirtualizes its argument, then
returns whether it identifies a first-party workspace (truthiness of the
returned workspace object). -/
def tryWorkspaceByLocator (proj : Project) (l : Locator) : Bool :=
  proj.workspaceLocators.any (fun w => decide (w = devirtualizeLocator l))

/-- Modelled from the spec: `structUtils.slugifyLocator` from
`@yarnpkg/core` — a deterministic slug derived from the locator, stable
across runs for the same locator. -/
def slugifyLocator (l : Locator) : Seg :=
  (match l.ident.scope with | some s => s ++ "-" | none => "") ++
    l.ident.name ++ "-" ++ l.reference ++
    (match l.virtualHash with | some h => "-" ++ h | none => "")

/-- `structUtils.stringifyIdent` (`@scope/name` or `name`), already split at
the path separator into the directory-entry segments it denotes. -/
def identSegs (i : Ident) : List Seg :=
  match i.scope with
  | some s => ["@" ++ s, i.name]
  | none => [i.name]

/-! ## Installer state -/

inductive LinkError where
  | unregistered (l : Locator)
  | fsError (e : FsErrorCode)
  | externalNotImplemented
deriving DecidableEq, Repr

/-- `PnpmInstaller`'s private fields: the run options, the `locations`
table, the `pendingCopies` task list (with a flag recording whether the
one-shot copy promises have already run), and the attached custom data. -/
structure InstallerState where
  opts : Project
  locations : List (Locator × Path)
  pendingCopies : List CopyTask
  copiesDone : Bool
  customData : String
deriving DecidableEq, Repr

/-- `makeInstaller`: a fresh installer bound to the run options. -/
def makeInstaller (proj : Project) : InstallerState :=
  { opts := proj, locations := [], pendingCopies := [], copiesDone := false, customData := "" }

def lookupLoc (m : List (Locator × Path)) (l : Locator) : Option Path :=
  (m.find? (fun e => decide (e.1 = l))).map (·.2)

def getCustomDataKey : String :=
  "PnpmInstaller-1"

def attachCustomData (st : InstallerState) (customData : String) : InstallerState :=
  { st with customData := customData }

structure InstallResult where
  packageLocation : Path
deriving DecidableEq, Repr

/-- `installPackageSoft`: register the package's existing resolved path;
no content copy. -/
def installPackageSoft (st : InstallerState) (pkg : Package) (fetch : FetchResult) :
    InstallerState × InstallResult :=
  let pkgPath := fetch.realPath ++ fetch.prefixPath
  ({ st with locations := (pkg.locator, pkgPath) :: st.locations }, ⟨pkgPath⟩)

/-- `installPackageHard`: register a slot under `<cwd>/node_modules/.store`
keyed by the locator's slug, and schedule its content population. -/
def installPackageHard (st : InstallerState) (pkg : Package) (fetch : FetchResult) :
    InstallerState × InstallResult :=
  let pkgKey := slugifyLocator pkg.locator
  let pkgPath := st.opts.cwd ++ ["node_modules", ".store", pkgKey]
  ({ st with
      locations := (pkg.locator, pkgPath) :: st.locations,
      pendingCopies := st.pendingCopies ++ [{ dst := pkgPath, files := fetch.contents }] },
    ⟨pkgPath⟩)

/-- `installPackage`: dispatch on the link type (the `LinkType` union is
closed, so the trailing assertion of the `switch` is unreachable). -/
def installPackage (st : InstallerState) (pkg : Package) (fetch : FetchResult) :
    InstallerState × InstallResult :=
  match pkg.linkType with
  | .SOFT => installPackageSoft st pkg fetch
  | .HARD => installPackageHard st pkg fetch

/-! ## attachInternalDependencies -/

/-- Line 161-163 of `PnpmLinker.ts`, exactly as written there:
`!structUtils.isVirtualLocator(locator) || !this.opts.project.tryWorkspaceByLocator(locator)`. -/
def isPnpmVirtualCompatible (st : InstallerState) (locator : Locator) : Bool :=
  !(isVirtualLocator locator) || !(tryWorkspaceByLocator st.opts locator)

/-- Lines 117-119: the locator whose registered location a dependency's
symlink points at. -/
def targetDependencyOf (st : InstallerState) (dep : Locator) : Locator :=
  if isPnpmVirtualCompatible st dep then dep else devirtualizeLocator dep

/-- `await Promise.all(this.pendingCopies)`: the copy promises are one-shot,
so their effects happen at the first await and nothing at later ones. -/
def awaitPendingCopies (st : InstallerState) (fs : Fs) :
    Except FsErrorCode (InstallerState × Fs × Log) :=
  if st.copiesDone then .ok (st, fs, [])
  else
    match runTasks fs st.pendingCopies with
    | .error e => .error e
    | .ok (fs', w) => .ok ({ st with copiesDone := true }, fs', w.map (fun op => (Phase.store, op)))

/-- A key of the `extraneous` map: the segments of one existing entry
(`name` for a plain entry, `@scope/child` split at the separator for a
scope child). -/
abbrev EntKey := List Seg

abbrev Extraneous := List (EntKey × FsObj)

def extGet (m : Extraneous) (k : EntKey) : Option FsObj :=
  (m.find? (fun e => decide (e.1 = k))).map (·.2)

def extDelete (m : Extraneous) (k : EntKey) : Extraneous :=
  m.filter (fun e => !(decide (e.1 = k)))

/-- Lines 98-109: walk the `readdir` listing; skip dotfile entries, expand
`@`-scoped entries one level through `sub`, record everything else.  If a
`sub` listing fails the walk stops, returning the error alongside the
entries collected so far (the `extraneous` map is declared outside the
`try`, so it survives a caught exception). -/
def expandEntries (sub : Seg → Except FsErrorCode (List (Seg × FsObj))) :
    List (Seg × FsObj) → Extraneous → Extraneous × Option FsErrorCode
  | [], acc => (acc, none)
  | (name, obj) :: rest, acc =>
    if startsWithChar name '.' then expandEntries sub rest acc
    else if startsWithChar name '@' then
      match sub name with
      | .error e => (acc, some e)
      | .ok subEnts =>
        expandEntries sub rest (acc ++ subEnts.map (fun se => ([name, se.1], se.2)))
    else expandEntries sub rest (acc ++ [([name], obj)])

/-- Lines 96-114: build the `extraneous` map from the dependency directory's
listing, treating `ENOENT` as an empty/partial set (`catch` swallows it)
and propagating every other error. -/
def buildExtraneous (listing : Except FsErrorCode (List (Seg × FsObj)))
    (sub : Seg → Except FsErrorCode (List (Seg × FsObj))) :
    Except FsErrorCode Extraneous :=
  match listing with
  | .error e => if e = .ENOENT then .ok [] else .error e
  | .ok entries =>
    match expandEntries sub entries [] with
    | (acc, none) => .ok acc
    | (acc, some e) => if e = .ENOENT then .ok acc else .error e

/-- Lines 141-142: create (or recreate) the entry as a symlink to the
desired relative target, creating parent directories as needed. -/
def createLink (depDstPath : Path) (depLinkPath : List Seg) (fs : Fs) (ext : Extraneous)
    (log : Log) : Except LinkError (Fs × Extraneous × Log) :=
  match mkdirp fs depDstPath.dropLast with
  | .error e => .error (.fsError e)
  | .ok (fs, created) =>
    let log := log ++ created.map (fun p => (Phase.reconcile, WriteOp.mkdir p))
    match symlinkCreate fs depLinkPath depDstPath with
    | .error e => .error (.fsError e)
    | .ok fs => .ok (fs, ext, log ++ [(Phase.reconcile, WriteOp.makeLink depDstPath depLinkPath)])

/-- Lines 116-143, one iteration: resolve the dependency's target locator,
look up its store path, and make the entry a symlink to the right relative
target — skipping entirely when the existing entry is already that symlink,
removing a stale entry otherwise. -/
def processDep (st : InstallerState) (nmPath : Path) (fs : Fs) (ext : Extraneous) (log : Log)
    (descriptor : Descriptor) (dependency : Locator) :
    Except LinkError (Fs × Extraneous × Log) :=
  let targetDependency := targetDependencyOf st dependency
  match lookupLoc st.locations targetDependency with
  | none => .error (.unregistered dependency)
  | some depSrcPath =>
    let name := identSegs descriptor.ident
    let depDstPath := nmPath ++ name
    let depLinkPath := relSegs depDstPath.dropLast depSrcPath
    let existing := extGet ext name
    let ext := extDelete ext name
    match existing with
    | some obj =>
      match obj with
      | .symlink _ =>
        match readlink fs depDstPath with
        | .error e => .error (.fsError e)
        | .ok t =>
          if t = depLinkPath then .ok (fs, ext, log)
          else createLink depDstPath depLinkPath (removeTree fs depDstPath) ext
            (log ++ [(Phase.reconcile, WriteOp.remove depDstPath)])
      | _ => createLink depDstPath depLinkPath (removeTree fs depDstPath) ext
          (log ++ [(Phase.reconcile, WriteOp.remove depDstPath)])
    | none => createLink depDstPath depLinkPath fs ext log

def foldDeps (st : InstallerState) (nmPath : Path) :
    List (Descriptor × Locator) → Fs → Extraneous → Log →
    Except LinkError (Fs × Extraneous × Log)
  | [], fs, ext, log => .ok (fs, ext, log)
  | (d, l) :: rest, fs, ext, log =>
    match processDep st nmPath fs ext log d l with
    | .error e => .error e
    | .ok (fs, ext, log) => foldDeps st nmPath rest fs ext log

/-- Lines 145-147: delete every remaining (extraneous) entry. -/
def removeExtraneous (nmPath : Path) : Extraneous → Fs → Log → Fs × Log
  | [], fs, log => (fs, log)
  | (k, _) :: rest, fs, log =>
    let p := nmPath ++ k
    let log := if (getObj fs p).isSome then log ++ [(Phase.reconcile, WriteOp.remove p)] else log
    removeExtraneous nmPath rest (removeTree fs p) log

/-- Lines 86-148 of `attachInternalDependencies`: everything after the
population barrier.  This part of the method reads but never mutates the
installer's fields, so it is embedded without the state: the
compatibility-skip, the dependent lookup, directory creation, enumeration,
the per-dependency loop and the extraneous cleanup. -/
def reconcileDependent (st : InstallerState) (fs : Fs) (locator : Locator)
    (dependencies : List (Descriptor × Locator)) : Except LinkError (Fs × Log) :=
  if !(isPnpmVirtualCompatible st locator) then .ok (fs, [])
  else
    match lookupLoc st.locations locator with
    | none => .error (.unregistered locator)
    | some pkgPath =>
      let nmPath := pkgPath ++ ["node_modules"]
      match mkdirp fs nmPath with
      | .error e => .error (.fsError e)
      | .ok (fs, created) =>
        let log₁ := created.map (fun p => (Phase.reconcile, WriteOp.mkdir p))
        match buildExtraneous (readdirEnts fs nmPath)
            (fun n => readdirEnts fs (nmPath ++ [n])) with
        | .error e => .error (.fsError e)
        | .ok ext =>
          match foldDeps st nmPath dependencies fs ext log₁ with
          | .error e => .error e
          | .ok (fs, ext, log) => .ok (removeExtraneous nmPath ext fs log)

/-- Lines 83-148: `attachInternalDependencies` — await all pending copy
tasks, then reconcile the dependent's dependency directory. -/
def attachInternalDependencies (st : InstallerState) (fs : Fs) (locator : Locator)
    (dependencies : List (Descriptor × Locator)) :
    Except LinkError (InstallerState × Fs × Log) :=
  match awaitPendingCopies st fs with
  | .error e => .error (.fsError e)
  | .ok (st, fs, log₀) =>
    match reconcileDependent st fs locator dependencies with
    | .error e => .error e
    | .ok (fs, log₁) => .ok (st, fs, log₀ ++ log₁)

/-- Lines 150-152: `attachExternalDependents` — unconditional failure. -/
def attachExternalDependents (st : InstallerState) (fs : Fs) (locator : Locator)
    (dependentPaths : List Path) : Except LinkError (InstallerState × Fs × Log) :=
  .error .externalNotImplemented

/-- Lines 154-159: `finalizeInstall` re-checks the active linking strategy. -/
def finalizeInstall (st : InstallerState) : Option Unit :=
  if st.opts.nodeLinker = "pnpm" then some () else none

/-- `findPackageLocation`: unconditionally reports not-found. -/
def findPackageLocation (st : InstallerState) (locator : Locator) : Option Path :=
  none

/-- `findPackageLocator`: unconditionally reports not-found. -/
def findPackageLocator (st : InstallerState) (location : Path) : Option Locator :=
  none

/-! ## Whole-run install sequences -/

def runInstallPackages (st : InstallerState) :
    List (Package × FetchResult) → InstallerState
  | [] => st
  | (pkg, fetch) :: rest => runInstallPackages (installPackage st pkg fetch).1 rest

def runAttaches (st : InstallerState) (fs : Fs) :
    List (Locator × List (Descriptor × Locator)) →
    Except LinkError (InstallerState × Fs × Log)
  | [] => .ok (st, fs, [])
  | (loc, deps) :: rest =>
    match attachInternalDependencies st fs loc deps with
    | .error e => .error e
    | .ok (st, fs, log) =>
      match runAttaches st fs rest with
      | .error e => .error e
      | .ok (st, fs, log') => .ok (st, fs, log ++ log')

/-- One full install pass: register every package, then reconcile every
dependent, over an initial filesystem. -/
def runInstall (proj : Project) (pkgs : List (Package × FetchResult))
    (attaches : List (Locator × List (Descriptor × Locator))) (fs : Fs) :
    Except LinkError (InstallerState × Fs × Log) :=
  runAttaches (runInstallPackages (makeInstaller proj) pkgs) fs attaches

/-! ## Auxiliary notions used by the verification -/

/-- The chain of directories `mkdirp` walks below `base`: for segments
`[s₁, …, sₙ]` the paths `base ++ [s₁]`, `base ++ [s₁, s₂]`, …. -/
def chainOf (base : Path) : List Seg → List Path
  | [] => []
  | s :: rest => (base ++ [s]) :: chainOf (base ++ [s]) rest

/-- `q` cannot be touched by reconciling the dependency directory `nmP`:
either it is not strictly below `nmP`, or it descends into `nmP` through a
dotfile entry (which reconciliation never enumerates or deletes). -/
def dotSafeUnder (nmP q : Path) : Bool :=
  !(leadsTo nmP q) || decide (q.length = nmP.length) ||
    (match q.get? nmP.length with
     | some s => startsWithChar s '.'
     | none => false)

/-- A package name segment that the directory walk treats as a plain,
non-scope, non-dotfile entry. -/
def validName (s : Seg) : Bool :=
  !(decide (s = "")) && !(startsWithChar s '.') && !(startsWithChar s '@')

/-- Idents whose directory entries behave regularly: name plain,
scope (when present) nonempty. -/
def validIdent (i : Ident) : Bool :=
  validName i.name &&
    (match i.scope with
     | none => true
     | some s => !(decide (s = "")))

/-- Absolute paths free of relative-navigation segments (used for the
"symlink resolves back to the store path" property). -/
def wfPath (p : Path) : Bool :=
  p.all (fun s => !(decide (s = "..")))

/-- A real filesystem invariant: every object's proper ancestors exist and
are directories (no orphaned paths). -/
def parentsClosed (fs : Fs) : Prop :=
  ∀ p o, getObj fs p = some o → ∀ q, q <+: p → ¬ q = p → ¬ q = [] →
    getObj fs q = some FsObj.dir

/-- Decidable check for `parentsClosed`. -/
def parentsClosedB (fs : Fs) : Bool :=
  fs.all (fun e =>
    (chainOf ([] : Path) e.1.dropLast).all (fun q => decide (getObj fs q = some FsObj.dir)))

/-- All the files of a copy task are present on disk ("the population task
has completed"). -/
def taskCompleted (t : CopyTask) (fs : Fs) : Prop :=
  ∀ f ∈ t.files, (getObj fs (t.dst ++ f.1)).isSome = true

/-- The set of paths a copy task can create objects at: the directory chain
of its destination and, per file, the file's directory chain and the file
path itself. -/
def taskTouches (t : CopyTask) (q : Path) : Prop :=
  q ∈ chainOf ([] : Path) t.dst ∨
    ∃ f ∈ t.files, q ∈ chainOf ([] : Path) (t.dst ++ f.1.dropLast) ∨ q = t.dst ++ f.1

/-- The desired entry keys of a dependent's reconciliation. -/
def desiredKeys (deps : List (Descriptor × Locator)) : List EntKey :=
  deps.map (fun d => identSegs d.1.ident)

/-- Erase the attached custom data (used to compare installer states up to
the customData field). -/
def eraseCustomData (st : InstallerState) : InstallerState :=
  { st with customData := "" }

/-- All of a copy task's directories and files are in place (what running
the task guarantees, and what makes a later run of it a no-op). -/
def taskReady (t : CopyTask) (fs : Fs) : Prop :=
  (∀ q ∈ chainOf ([] : Path) t.dst, getObj fs q = some FsObj.dir) ∧
  ∀ f ∈ t.files,
    (∀ q ∈ chainOf ([] : Path) (t.dst ++ f.1.dropLast), getObj fs q = some FsObj.dir) ∧
    (getObj fs (t.dst ++ f.1)).isSome = true

/-- A dependent's dependency directory is fully reconciled in `fs`: the
`node_modules` chain exists, every declared dependency is the desired
symlink (scope directories in place), and every enumerable entry is a
declared one.  This is what a successful reconciliation establishes and
what makes a repeated reconciliation write nothing. -/
def cleanFor (st : InstallerState) (fs : Fs) (pkgPath : Path)
    (deps : List (Descriptor × Locator)) : Prop :=
  (∀ q ∈ chainOf ([] : Path) (pkgPath ++ ["node_modules"]), getObj fs q = some FsObj.dir) ∧
  (∀ d ∈ deps, ∃ src, lookupLoc st.locations (targetDependencyOf st d.2) = some src ∧
    getObj fs (pkgPath ++ ["node_modules"] ++ identSegs d.1.ident) =
      some (.symlink (relSegs (pkgPath ++ ["node_modules"] ++ identSegs d.1.ident).dropLast src)) ∧
    (∀ hd c, identSegs d.1.ident = [hd, c] →
      getObj fs (pkgPath ++ ["node_modules"] ++ [hd]) = some FsObj.dir)) ∧
  (∀ n o, getObj fs (pkgPath ++ ["node_modules"] ++ [n]) = some o →
    startsWithChar n '.' = false →
    (startsWithChar n '@' = false → [n] ∈ desiredKeys deps) ∧
    (startsWithChar n '@' = true → o = FsObj.dir ∧
      ∀ c o', getObj fs (pkgPath ++ ["node_modules"] ++ [n, c]) = some o' →
        [n, c] ∈ desiredKeys deps))

/-- Two attach targets own unrelated dependency directories (whenever both
are registered). -/
def nmDisjoint (st : InstallerState)
    (a b : Locator × List (Descriptor × Locator)) : Prop :=
  ∀ pa pb, lookupLoc st.locations a.1 = some pa → lookupLoc st.locations b.1 = some pb →
    ¬ leadsTo (pa ++ ["node_modules"]) (pb ++ ["node_modules"]) = true ∧
    ¬ leadsTo (pb ++ ["node_modules"]) (pa ++ ["node_modules"]) = true

/-! ## Concrete fixtures used by witnesses and counterexamples -/

def cBase : Locator := ⟨⟨none, "lib"⟩, "npm:1.0.0", none⟩

def cVirtual : Locator := ⟨⟨none, "lib"⟩, "npm:1.0.0", some "p1"⟩

def cWsBase : Locator := ⟨⟨none, "ws"⟩, "workspace:.", none⟩

def cWsVirtual : Locator := ⟨⟨none, "ws"⟩, "workspace:.", some "p2"⟩

def cProject : Project := ⟨["root"], [cWsBase], "pnpm"⟩

/-- Installer state with both the virtual locator and its devirtualized
base registered at distinct paths. -/
def cState : InstallerState :=
  { opts := cProject,
    locations := [(cVirtual, ["root", "vdir"]), (cBase, ["root", "cdir"])],
    pendingCopies := [], copiesDone := true, customData := "" }

/-- Installer state with an empty location table. -/
def cStateEmpty : InstallerState :=
  { opts := cProject, locations := [], pendingCopies := [], copiesDone := true,
    customData := "" }

/-- A plain (non-virtual) workspace-style dependent used by witnesses. -/
def cLocApp : Locator := ⟨⟨none, "app"⟩, "workspace:app", none⟩

def cDescB : Descriptor := ⟨⟨none, "b"⟩, "2.0.0"⟩

def cLocB : Locator := ⟨⟨none, "b"⟩, "npm:2.0.0", none⟩

/-- Dependent registered, no pending copies; its dependency directory holds
one dot-named entry. -/
def cStateDot : InstallerState :=
  { opts := cProject, locations := [(cLocApp, ["root", "app"])],
    pendingCopies := [], copiesDone := true, customData := "" }

def cFsDot : Fs :=
  [(["root"], .dir), (["root", "app"], .dir),
   (["root", "app", "node_modules"], .dir),
   (["root", "app", "node_modules", ".bin"], .file "x")]

/-- Dependent and one dependency registered at disjoint directories. -/
def cStateRich : InstallerState :=
  { opts := cProject,
    locations := [(cLocApp, ["root", "app"]), (cLocB, ["root", "store", "b"])],
    pendingCopies := [], copiesDone := true, customData := "" }

def cFsRich : Fs :=
  [(["root"], .dir), (["root", "app"], .dir), (["root", "store"], .dir),
   (["root", "store", "b"], .dir)]

/-- One scheduled store-population task for `cLocB`'s slot. -/
def cTask : CopyTask := { dst := ["root", "store", "b"], files := [(["index.js"], "codeB")] }

/-- Installer mid-run: locations registered, the copy task still pending. -/
def cStateC4 : InstallerState :=
  { opts := cProject,
    locations := [(cLocApp, ["root", "app"]), (cLocB, ["root", "store", "b"])],
    pendingCopies := [cTask], copiesDone := false, customData := "" }

def cFsC4 : Fs := [(["root"], .dir), (["root", "app"], .dir)]

/-- A small but complete resolved plan: a soft workspace package `app`
depending on a hard package `b`. -/
def cPkgs : List (Package × FetchResult) :=
  [(⟨cLocApp, .SOFT⟩, ⟨["root", "app"], [], []⟩),
   (⟨cLocB, .HARD⟩, ⟨[], [], [(["index.js"], "codeB")]⟩)]

def cAttaches : List (Locator × List (Descriptor × Locator)) :=
  [(cLocApp, [(cDescB, cLocB)])]

def cFs0 : Fs := [(["root"], .dir), (["root", "app"], .dir)]

/-- The filesystem produced by attaching `app` over `cFsRich`. -/
def cFsRichOut : Fs :=
  [(["root", "app", "node_modules", "b"], .symlink ["..", "..", "store", "b"]),
   (["root", "app", "node_modules"], .dir),
   (["root"], .dir), (["root", "app"], .dir),
   (["root", "store"], .dir), (["root", "store", "b"], .dir)]

def cLogRich : Log :=
  [(Phase.reconcile, WriteOp.mkdir ["root", "app", "node_modules"]),
   (Phase.reconcile, WriteOp.makeLink ["root", "app", "node_modules", "b"]
     ["..", "..", "store", "b"])]

def cStC4Out : InstallerState := { cStateC4 with copiesDone := true }

def cFsC4Out : Fs :=
  [(["root", "app", "node_modules", "b"], .symlink ["..", "..", "store", "b"]),
   (["root", "app", "node_modules"], .dir),
   (["root", "store", "b", "index.js"], .file "codeB"),
   (["root", "store", "b"], .dir), (["root", "store"], .dir),
   (["root"], .dir), (["root", "app"], .dir)]

def cLogC4 : Log :=
  [(Phase.store, WriteOp.mkdir ["root", "store"]),
   (Phase.store, WriteOp.mkdir ["root", "store", "b"]),
   (Phase.store, WriteOp.writeFile ["root", "store", "b", "index.js"]),
   (Phase.reconcile, WriteOp.mkdir ["root", "app", "node_modules"]),
   (Phase.reconcile, WriteOp.makeLink ["root", "app", "node_modules", "b"]
     ["..", "..", "store", "b"])]

/-- The state after the first full install pass of `cPkgs`/`cAttaches`. -/
def cSt1 : InstallerState :=
  { runInstallPackages (makeInstaller cProject) cPkgs with copiesDone := true }

/-- The filesystem after the first full install pass. -/
def cFs1 : Fs :=
  [(["root", "app", "node_modules", "b"],
    .symlink ["..", "..", "node_modules", ".store", "b-npm:2.0.0"]),
   (["root", "app", "node_modules"], .dir),
   (["root", "node_modules", ".store", "b-npm:2.0.0", "index.js"], .file "codeB"),
   (["root", "node_modules", ".store", "b-npm:2.0.0"], .dir),
   (["root", "node_modules", ".store"], .dir),
   (["root", "node_modules"], .dir),
   (["root"], .dir), (["root", "app"], .dir)]

def cLog1 : Log :=
  [(Phase.store, WriteOp.mkdir ["root", "node_modules"]),
   (Phase.store, WriteOp.mkdir ["root", "node_modules", ".store"]),
   (Phase.store, WriteOp.mkdir ["root", "node_modules", ".store", "b-npm:2.0.0"]),
   (Phase.store, WriteOp.writeFile
     ["root", "node_modules", ".store", "b-npm:2.0.0", "index.js"]),
   (Phase.reconcile, WriteOp.mkdir ["root", "app", "node_modules"]),
   (Phase.reconcile, WriteOp.makeLink ["root", "app", "node_modules", "b"]
     ["..", "..", "node_modules", ".store", "b-npm:2.0.0"])]

/-! ## Basic lemmas: paths -/

theorem leadsTo_iff {p q : Path} : leadsTo p q = true ↔ p <+: q := by
  simp [leadsTo, List.prefix_iff_eq_take, eq_comm]

theorem leadsTo_refl (p : Path) : leadsTo p p = true := by
  simp [leadsTo_iff]

theorem leadsTo_append (p r : Path) : leadsTo p (p ++ r) = true := by
  simp [leadsTo_iff]

theorem leadsTo_false_iff {p q : Path} : leadsTo p q = false ↔ ¬ p <+: q := by
  rw [← leadsTo_iff]; cases leadsTo p q <;> simp

/-! ## Basic lemmas: the filesystem map -/

/-- The association list has no duplicate path keys. -/
def nodupKeys (fs : Fs) : Prop := (fs.map Prod.fst).Nodup

theorem getObj_cons_of_ne {e : Path × FsObj} {rest : Fs} {q : Path} (he : ¬ e.1 = q) :
    getObj (e :: rest) q = getObj rest q := by
  rw [getObj, List.find?_cons_of_neg _ (by simp [he])]
  rfl

theorem getObj_cons_self {e : Path × FsObj} {rest : Fs} {q : Path} (he : e.1 = q) :
    getObj (e :: rest) q = some e.2 := by
  rw [getObj, List.find?_cons_of_pos _ (by simp [he])]
  rfl

theorem getObj_eq_some_iff_mem {fs : Fs} (h : nodupKeys fs) {p : Path} {o : FsObj} :
    getObj fs p = some o ↔ (p, o) ∈ fs := by
  induction fs with
  | nil => simp [getObj]
  | cons e rest ih =>
    obtain ⟨q, o'⟩ := e
    have hnd : nodupKeys rest := (List.nodup_cons.mp h).2
    by_cases hq : q = p
    · subst hq
      rw [getObj, List.find?_cons_of_pos _ (by simp)]
      simp only [Option.map_some', Option.some_inj, List.mem_cons]
      constructor
      · rintro rfl; exact Or.inl rfl
      · rintro (h' | h')
        · exact congrArg Prod.snd h'.symm
        · exact absurd (List.mem_map_of_mem Prod.fst h') ((List.nodup_cons.mp h).1)
    · rw [getObj, List.find?_cons_of_neg _ (by simp [hq])]
      rw [← getObj, ih hnd]
      simp only [List.mem_cons]
      constructor
      · exact Or.inr
      · rintro (h' | h')
        · exact absurd (congrArg Prod.fst h').symm hq
        · exact h'

theorem getObj_filter_of_keep (fs : Fs) (keep : Path × FsObj → Bool) (q : Path)
    (h : ∀ o : FsObj, keep (q, o) = true) :
    getObj (fs.filter keep) q = getObj fs q := by
  induction fs with
  | nil => simp
  | cons e rest ih =>
    by_cases he : e.1 = q
    · obtain ⟨p, o⟩ := e
      subst he
      rw [List.filter_cons, if_pos (h o)]
      rw [getObj, List.find?_cons_of_pos _ (by simp), getObj, List.find?_cons_of_pos _ (by simp)]
    · rw [List.filter_cons]
      split
      · rw [getObj_cons_of_ne he, getObj_cons_of_ne he, ih]
      · rw [ih, getObj_cons_of_ne he]

theorem getObj_setObj (fs : Fs) (p : Path) (o : FsObj) (q : Path) :
    getObj (setObj fs p o) q = if q = p then some o else getObj fs q := by
  by_cases hq : q = p
  · subst hq
    rw [if_pos rfl, setObj, getObj, List.find?_cons_of_pos _ (by simp)]
    rfl
  · rw [if_neg hq, setObj, getObj, List.find?_cons_of_neg _ (by simp [Ne.symm hq]), ← getObj]
    exact getObj_filter_of_keep fs _ q (fun o' => by simp [hq])

theorem nodupKeys_setObj {fs : Fs} (h : nodupKeys fs) (p : Path) (o : FsObj) :
    nodupKeys (setObj fs p o) := by
  simp only [nodupKeys, setObj, List.map_cons, List.nodup_cons]
  refine ⟨?_, List.Nodup.sublist ((List.filter_sublist fs).map Prod.fst) h⟩
  intro hmem
  obtain ⟨e, he, hke⟩ := List.mem_map.mp hmem
  have := List.of_mem_filter he
  simp [hke] at this

theorem getObj_removeTree (fs : Fs) (p q : Path) :
    getObj (removeTree fs p) q = if leadsTo p q then none else getObj fs q := by
  by_cases hl : leadsTo p q = true
  · rw [if_pos hl]
    simp only [getObj, removeTree, Option.map_eq_none']
    rw [List.find?_eq_none]
    intro e he
    have hk := List.of_mem_filter he
    simp only [decide_eq_true_eq]
    intro hkq
    rw [hkq, hl] at hk
    simp at hk
  · rw [if_neg (by simp_all), removeTree]
    exact getObj_filter_of_keep fs _ q (fun o' => by simp_all)

theorem nodupKeys_removeTree {fs : Fs} (h : nodupKeys fs) (p : Path) :
    nodupKeys (removeTree fs p) :=
  List.Nodup.sublist ((List.filter_sublist fs).map Prod.fst) h

/-! ## Segment-marker lemmas -/

theorem startsWithChar_of_data_cons {s : Seg} {c : Char} {rest : List Char}
    (h : s.data = c :: rest) : ∀ c', startsWithChar s c' = decide (c = c') := by
  intro c'
  rw [startsWithChar, h]

theorem startsWithChar_scope_at (s : String) : startsWithChar ("@" ++ s) '@' = true := by
  have hd : ("@" ++ s).data = '@' :: s.data := by rw [String.data_append]; rfl
  rw [startsWithChar_of_data_cons hd]
  simp

theorem startsWithChar_scope_dot (s : String) : startsWithChar ("@" ++ s) '.' = false := by
  have hd : ("@" ++ s).data = '@' :: s.data := by rw [String.data_append]; rfl
  rw [startsWithChar_of_data_cons hd]
  simp

theorem startsWithChar_ne {s : Seg} {c₁ c₂ : Char} (h : ¬ c₁ = c₂)
    (h₁ : startsWithChar s c₁ = true) : startsWithChar s c₂ = false := by
  rcases hs : s.data with _ | ⟨hd, tl⟩
  · exact absurd h₁ (by rw [startsWithChar, hs]; simp)
  · have hhd : hd = c₁ := by
      rw [startsWithChar, hs] at h₁
      simpa using h₁
    rw [startsWithChar, hs]
    simp [hhd, h]

/-- The shape of a valid ident's directory-entry key. -/
theorem identSegs_shape {i : Ident} (h : validIdent i = true) :
    (∃ n, identSegs i = [n] ∧ startsWithChar n '.' = false ∧
      startsWithChar n '@' = false ∧ ¬ n = "") ∨
    (∃ s n, identSegs i = ["@" ++ s, n] ∧ startsWithChar ("@" ++ s) '@' = true ∧
      startsWithChar ("@" ++ s) '.' = false) := by
  rw [validIdent, validName] at h
  simp only [Bool.and_eq_true, Bool.not_eq_true'] at h
  obtain ⟨⟨⟨h1, h2⟩, h3⟩, _⟩ := h
  cases hs : i.scope with
  | none =>
    refine Or.inl ⟨i.name, by rw [identSegs, hs], h2, h3, by simpa using h1⟩
  | some s =>
    exact Or.inr ⟨s, i.name, by rw [identSegs, hs],
      startsWithChar_scope_at s, startsWithChar_scope_dot s⟩

/-! ## The mkdirp chain -/

theorem length_lt_of_mem_chainOf {base : Path} {segs : List Seg} {q : Path}
    (h : q ∈ chainOf base segs) : base.length < q.length := by
  induction segs generalizing base with
  | nil => simp [chainOf] at h
  | cons s rest ih =>
    simp only [chainOf, List.mem_cons] at h
    rcases h with h | h
    · simp [h]
    · have := ih h
      simp only [List.length_append, List.length_cons, List.length_nil] at this
      omega

theorem base_prefix_of_mem_chainOf {base : Path} {segs : List Seg} {q : Path}
    (h : q ∈ chainOf base segs) : base <+: q := by
  induction segs generalizing base with
  | nil => simp [chainOf] at h
  | cons s rest ih =>
    simp only [chainOf, List.mem_cons] at h
    rcases h with h | h
    · exact h ▸ List.prefix_append base [s]
    · exact List.IsPrefix.trans (List.prefix_append base [s]) (ih h)

theorem mem_chainOf_prefix {base : Path} {segs : List Seg} {q : Path}
    (h : q ∈ chainOf base segs) : q <+: base ++ segs := by
  induction segs generalizing base with
  | nil => simp [chainOf] at h
  | cons s rest ih =>
    simp only [chainOf, List.mem_cons] at h
    rcases h with h | h
    · subst h
      refine (List.prefix_append_right_inj base).mpr ?_
      exact ⟨rest, rfl⟩
    · have := ih h
      simpa [List.append_assoc] using this

theorem mem_chainOf_iff {base : Path} {segs : List Seg} {q : Path} :
    q ∈ chainOf base segs ↔ ∃ r, r <+: segs ∧ ¬ r = [] ∧ q = base ++ r := by
  induction segs generalizing base with
  | nil =>
    simp only [chainOf, List.mem_nil_iff, false_iff, not_exists]
    rintro r ⟨hr, hne, _⟩
    exact hne (List.prefix_nil.mp hr)
  | cons s rest ih =>
    simp only [chainOf, List.mem_cons]
    constructor
    · rintro (rfl | hq)
      · exact ⟨[s], ⟨rest, rfl⟩, by simp, rfl⟩
      · obtain ⟨r, hr, hne, rfl⟩ := ih.mp hq
        exact ⟨s :: r, by
          obtain ⟨t, rfl⟩ := hr
          exact ⟨t, rfl⟩, by simp, by simp⟩
    · rintro ⟨r, hr, hne, rfl⟩
      cases r with
      | nil => exact absurd rfl hne
      | cons a r' =>
        obtain ⟨t, ht⟩ := hr
        have ha : a = s := by
          have := congrArg (List.head? ·) ht
          simpa using this
        subst ha
        cases r' with
        | nil => exact Or.inl (by simp)
        | cons b r'' =>
          refine Or.inr (ih.mpr ⟨b :: r'', ?_, by simp, by simp⟩)
          have : rest = (b :: r'') ++ t := by
            have := congrArg List.tail ht
            simpa using this.symm
          exact ⟨t, this.symm⟩

theorem mem_chainOf_nil_iff {p q : Path} :
    q ∈ chainOf ([] : Path) p ↔ (q <+: p ∧ ¬ q = []) := by
  rw [mem_chainOf_iff]
  constructor
  · rintro ⟨r, hr, hne, rfl⟩
    simpa using ⟨hr, hne⟩
  · rintro ⟨hq, hne⟩
    exact ⟨q, hq, hne, by simp⟩

theorem prefix_dropLast_of_proper {q p : Path} (h : q <+: p) (hne : ¬ q = p) :
    q <+: p.dropLast := by
  obtain ⟨t, rfl⟩ := h
  cases t with
  | nil => exact absurd (by simp) hne
  | cons a t' =>
    rw [List.dropLast_append_of_ne_nil _ (by simp)]
    exact List.prefix_append q _

theorem prefix_of_prefix_dropLast {q p : Path} (h : q <+: p.dropLast) : q <+: p :=
  h.trans (List.dropLast_prefix p)

theorem parentsClosed_of_B {fs : Fs} (h : parentsClosedB fs = true) : parentsClosed fs := by
  intro p o hp q hq hqp hqn
  obtain ⟨e, he, hep⟩ : ∃ e, e ∈ fs ∧ e.1 = p := by
    rw [getObj] at hp
    cases hf : fs.find? (fun e => decide (e.1 = p)) with
    | none => rw [hf] at hp; simp at hp
    | some e =>
      refine ⟨e, List.mem_of_find?_eq_some hf, ?_⟩
      have := List.find?_some hf
      simpa using this
  have hall := (List.all_eq_true.mp h) e he
  have hq' : q ∈ chainOf ([] : Path) e.1.dropLast := by
    rw [mem_chainOf_nil_iff, hep]
    exact ⟨prefix_dropLast_of_proper hq hqp, hqn⟩
  have := (List.all_eq_true.mp hall) q hq'
  simpa using this

theorem parentsClosed_setObj {fs : Fs} (h : parentsClosed fs) {p : Path} {o : FsObj}
    (hpn : ¬ p = []) (habs : getObj fs p = none)
    (hchain : ∀ q, q <+: p → ¬ q = p → ¬ q = [] → getObj fs q = some FsObj.dir) :
    parentsClosed (setObj fs p o) := by
  have hnotbelow : ∀ x (ox : FsObj), getObj fs x = some ox → ¬ (p <+: x ∧ ¬ p = x) := by
    rintro x ox hx ⟨hpx, hpe⟩
    have hd := h x ox hx p hpx hpe hpn
    rw [habs] at hd
    simp at hd
  intro x ox hx q hq hqx hqn
  rw [getObj_setObj] at hx ⊢
  by_cases hqp : q = p
  · rw [if_pos hqp]
    by_cases hxp : x = p
    · exact absurd (hqp.trans hxp.symm) hqx
    · rw [if_neg hxp] at hx
      have hbad : p <+: x ∧ ¬ p = x := ⟨hqp ▸ hq, fun he => hxp he.symm⟩
      exact absurd hbad (hnotbelow x ox hx)
  · rw [if_neg hqp]
    by_cases hxp : x = p
    · exact hchain q (hxp ▸ hq) hqp hqn
    · rw [if_neg hxp] at hx
      exact h x ox hx q hq hqx hqn

theorem parentsClosed_removeTree {fs : Fs} (h : parentsClosed fs) (p : Path) :
    parentsClosed (removeTree fs p) := by
  intro x ox hx q hq hqx hqn
  rw [getObj_removeTree] at hx ⊢
  by_cases hlx : leadsTo p x = true
  · rw [if_pos hlx] at hx
    simp at hx
  · rw [if_neg hlx] at hx
    have hlq : ¬ leadsTo p q = true := by
      intro hlq
      exact hlx (leadsTo_iff.mpr ((leadsTo_iff.mp hlq).trans hq))
    rw [if_neg hlq]
    exact h x ox hx q hq hqx hqn

theorem mkdirpGo_spec {segs : List Seg} {fs : Fs} {base : Path} {fs' : Fs}
    {created : List Path} (h : mkdirpGo fs base segs = .ok (fs', created)) :
    created ⊆ chainOf base segs ∧
    (∀ q ∈ created, getObj fs q = none) ∧
    (∀ q, q ∉ created → getObj fs' q = getObj fs q) ∧
    (∀ q ∈ chainOf base segs, getObj fs' q = some .dir) := by
  induction segs generalizing fs base fs' created with
  | nil =>
    simp only [mkdirpGo, Except.ok.injEq, Prod.mk.injEq] at h
    obtain ⟨rfl, rfl⟩ := h
    exact ⟨by simp, by simp, fun q _ => rfl, by simp [chainOf]⟩
  | cons s rest ih =>
    rw [mkdirpGo] at h
    cases hq : getObj fs (base ++ [s]) with
    | some o =>
      cases o with
      | dir =>
        rw [hq] at h
        obtain ⟨h1, h2, h3, h4⟩ := ih h
        refine ⟨fun q hqm => List.mem_cons_of_mem _ (h1 hqm), h2, h3, ?_⟩
        intro q hqc
        simp only [chainOf, List.mem_cons] at hqc
        rcases hqc with heq | hqc
        · have hnc : ¬ q ∈ created := by
            intro hc
            have hlt := length_lt_of_mem_chainOf (h1 hc)
            rw [heq] at hlt
            simp at hlt
          rw [h3 q hnc, heq]
          exact hq
        · exact h4 q hqc
      | file c => rw [hq] at h; exact absurd h (by simp)
      | symlink t => rw [hq] at h; exact absurd h (by simp)
    | none =>
      rw [hq] at h
      cases hrec : mkdirpGo (setObj fs (base ++ [s]) .dir) (base ++ [s]) rest with
      | error e => rw [hrec] at h; exact absurd h (by simp)
      | ok r =>
        rw [hrec] at h
        obtain ⟨fs₂, created'⟩ := r
        simp only [Except.ok.injEq, Prod.mk.injEq] at h
        obtain ⟨rfl, rfl⟩ := h
        obtain ⟨h1, h2, h3, h4⟩ := ih hrec
        have hlen : ∀ q ∈ created', ¬ q = base ++ [s] := by
          intro q hqm heq
          have := length_lt_of_mem_chainOf (h1 hqm)
          rw [heq] at this
          omega
        refine ⟨?_, ?_, ?_, ?_⟩
        · intro q hqm
          simp only [List.mem_cons] at hqm
          rcases hqm with rfl | hqm
          · simp [chainOf]
          · exact List.mem_cons_of_mem _ (h1 hqm)
        · intro q hqm
          simp only [List.mem_cons] at hqm
          rcases hqm with rfl | hqm
          · exact hq
          · have := h2 q hqm
            rw [getObj_setObj, if_neg (hlen q hqm)] at this
            exact this
        · intro q hqm
          simp only [List.mem_cons, not_or] at hqm
          rw [h3 q hqm.2, getObj_setObj, if_neg hqm.1]
        · intro q hqc
          simp only [chainOf, List.mem_cons] at hqc
          rcases hqc with heq | hqc
          · have hnc : ¬ q ∈ created' := fun hc => (hlen q hc) heq
            rw [h3 q hnc, getObj_setObj, if_pos heq]
          · exact h4 q hqc

theorem mkdirpGo_ok {segs : List Seg} {fs : Fs} {base : Path}
    (h : ∀ q ∈ chainOf base segs, getObj fs q = none ∨ getObj fs q = some .dir) :
    ∃ r, mkdirpGo fs base segs = .ok r := by
  induction segs generalizing fs base with
  | nil => exact ⟨(fs, []), rfl⟩
  | cons s rest ih =>
    rcases h (base ++ [s]) (by simp [chainOf]) with hq | hq
    · have hrest : ∀ q ∈ chainOf (base ++ [s]) rest,
          getObj (setObj fs (base ++ [s]) .dir) q = none ∨
            getObj (setObj fs (base ++ [s]) .dir) q = some .dir := by
        intro q hqc
        have hne : ¬ q = base ++ [s] := fun heq => by
          have := length_lt_of_mem_chainOf hqc
          rw [heq] at this
          omega
        rw [getObj_setObj, if_neg hne]
        exact h q (List.mem_cons_of_mem _ hqc)
      obtain ⟨r, hr⟩ := ih hrest
      exact ⟨(r.1, (base ++ [s]) :: r.2), by rw [mkdirpGo, hq, hr]⟩
    · obtain ⟨r, hr⟩ := ih (fun q hqc => h q (List.mem_cons_of_mem _ hqc))
      exact ⟨r, by rw [mkdirpGo, hq, hr]⟩

theorem mkdirpGo_noop {segs : List Seg} {fs : Fs} {base : Path}
    (h : ∀ q ∈ chainOf base segs, getObj fs q = some .dir) :
    mkdirpGo fs base segs = .ok (fs, []) := by
  induction segs generalizing base with
  | nil => rfl
  | cons s rest ih =>
    rw [mkdirpGo, h (base ++ [s]) (by simp [chainOf])]
    exact ih (fun q hqc => h q (List.mem_cons_of_mem _ hqc))

theorem nodupKeys_mkdirpGo {segs : List Seg} {fs : Fs} {base : Path} {fs' : Fs}
    {created : List Path} (hnd : nodupKeys fs)
    (h : mkdirpGo fs base segs = .ok (fs', created)) : nodupKeys fs' := by
  induction segs generalizing fs base fs' created with
  | nil =>
    simp only [mkdirpGo, Except.ok.injEq, Prod.mk.injEq] at h
    exact h.1 ▸ hnd
  | cons s rest ih =>
    rw [mkdirpGo] at h
    cases hq : getObj fs (base ++ [s]) with
    | some o =>
      cases o with
      | dir => rw [hq] at h; exact ih hnd h
      | file c => rw [hq] at h; exact absurd h (by simp)
      | symlink t => rw [hq] at h; exact absurd h (by simp)
    | none =>
      rw [hq] at h
      cases hrec : mkdirpGo (setObj fs (base ++ [s]) .dir) (base ++ [s]) rest with
      | error e => rw [hrec] at h; exact absurd h (by simp)
      | ok r =>
        rw [hrec] at h
        simp only [Except.ok.injEq, Prod.mk.injEq] at h
        exact h.1 ▸ ih (nodupKeys_setObj hnd _ _) hrec

/-! ## symlink / readlink lemmas -/

theorem symlinkCreate_ok_inv {fs : Fs} {target : List Seg} {p : Path} {fs' : Fs}
    (h : symlinkCreate fs target p = .ok fs') :
    getObj fs p = none ∧ fs' = setObj fs p (.symlink target) := by
  rw [symlinkCreate] at h
  cases hq : getObj fs p with
  | some o => rw [hq] at h; simp at h
  | none =>
    rw [hq] at h
    refine ⟨rfl, ?_⟩
    by_cases hb : p.dropLast = []
    · rw [if_pos hb] at h
      simpa using h.symm
    · rw [if_neg hb] at h
      cases hp : getObj fs p.dropLast with
      | none => rw [hp] at h; simp at h
      | some o =>
        rw [hp] at h
        cases o with
        | dir => simpa using h.symm
        | file c => simp at h
        | symlink t => simp at h

theorem symlinkCreate_ok_of {fs : Fs} {target : List Seg} {p : Path}
    (habs : getObj fs p = none) (hpar : getObj fs p.dropLast = some .dir) :
    symlinkCreate fs target p = .ok (setObj fs p (.symlink target)) := by
  rw [symlinkCreate, habs]
  by_cases hb : p.dropLast = []
  · rw [if_pos hb]
  · rw [if_neg hb, hpar]

theorem readlink_ok_iff {fs : Fs} {p : Path} {t : List Seg} :
    readlink fs p = .ok t ↔ getObj fs p = some (.symlink t) := by
  rw [readlink]
  cases hq : getObj fs p with
  | none => simp
  | some o =>
    cases o with
    | dir => simp
    | file c => simp
    | symlink t' => simp [eq_comm]


/-! ## parentsClosed preservation and copy-task lemmas -/

theorem identSegs_ne_nil (i : Ident) : ¬ identSegs i = [] := by
  rw [identSegs]
  cases i.scope <;> simp

theorem identSegs_len (i : Ident) :
    (∃ n, identSegs i = [n]) ∨ (∃ a b, identSegs i = [a, b]) := by
  rw [identSegs]
  cases i.scope with
  | none => exact Or.inl ⟨i.name, rfl⟩
  | some s => exact Or.inr ⟨"@" ++ s, i.name, rfl⟩

theorem parentsClosed_mkdirpGo {segs : List Seg} {fs : Fs} {base : Path} {fs' : Fs}
    {created : List Path} (h : parentsClosed fs)
    (hbase : ∀ q, q <+: base → ¬ q = [] → getObj fs q = some FsObj.dir)
    (hok : mkdirpGo fs base segs = .ok (fs', created)) : parentsClosed fs' := by
  induction segs generalizing fs base fs' created with
  | nil =>
    simp only [mkdirpGo, Except.ok.injEq, Prod.mk.injEq] at hok
    exact hok.1 ▸ h
  | cons s rest ih =>
    rw [mkdirpGo] at hok
    cases hq : getObj fs (base ++ [s]) with
    | some o =>
      cases o with
      | dir =>
        rw [hq] at hok
        refine ih h ?_ hok
        intro q hpre hne
        rcases List.prefix_concat_iff.mp hpre with rfl | hpre'
        · exact hq
        · exact hbase q hpre' hne
      | file c => rw [hq] at hok; exact absurd hok (by simp)
      | symlink t => rw [hq] at hok; exact absurd hok (by simp)
    | none =>
      rw [hq] at hok
      cases hrec : mkdirpGo (setObj fs (base ++ [s]) .dir) (base ++ [s]) rest with
      | error e => rw [hrec] at hok; exact absurd hok (by simp)
      | ok r =>
        rw [hrec] at hok
        obtain ⟨fs₂, created₂⟩ := r
        simp only [Except.ok.injEq, Prod.mk.injEq] at hok
        obtain ⟨rfl, rfl⟩ := hok
        have hcl : parentsClosed (setObj fs (base ++ [s]) FsObj.dir) := by
          refine parentsClosed_setObj h (by simp) hq ?_
          intro q hpre hne hqn
          rcases List.prefix_concat_iff.mp hpre with heq | hpre'
          · exact absurd heq hne
          · exact hbase q hpre' hqn
        refine ih hcl ?_ hrec
        intro q hpre hne
        rw [getObj_setObj]
        rcases List.prefix_concat_iff.mp hpre with heq | hpre'
        · rw [if_pos heq]
        · have hne2 : ¬ q = base ++ [s] := by
            intro heqq
            have hl1 := hpre'.length_le
            rw [heqq] at hl1
            simp at hl1
          rw [if_neg hne2]
          exact hbase q hpre' hne

theorem symlinkCreate_parent {fs : Fs} {target : List Seg} {p : Path} {fs' : Fs}
    (h : symlinkCreate fs target p = .ok fs') :
    p.dropLast = [] ∨ getObj fs p.dropLast = some FsObj.dir := by
  rw [symlinkCreate] at h
  cases hq : getObj fs p with
  | some o => rw [hq] at h; simp at h
  | none =>
    rw [hq] at h
    by_cases hb : p.dropLast = []
    · exact Or.inl hb
    · rw [if_neg hb] at h
      cases hp : getObj fs p.dropLast with
      | none => rw [hp] at h; simp at h
      | some o =>
        rw [hp] at h
        cases o with
        | dir => exact Or.inr rfl
        | file c => simp at h
        | symlink t => simp at h

theorem parentsClosed_symlinkCreate {fs : Fs} {target : List Seg} {p : Path} {fs' : Fs}
    (h : parentsClosed fs) (hpn : ¬ p = [])
    (hok : symlinkCreate fs target p = .ok fs') : parentsClosed fs' := by
  obtain ⟨habs, rfl⟩ := symlinkCreate_ok_inv hok
  refine parentsClosed_setObj h hpn habs ?_
  intro q hpre hne hqn
  rcases symlinkCreate_parent hok with hb | hb
  · exact absurd (List.prefix_nil.mp ((prefix_dropLast_of_proper hpre hne).trans (hb ▸ List.prefix_refl _))) hqn
  · have hq' : q <+: p.dropLast := prefix_dropLast_of_proper hpre hne
    by_cases hqe : q = p.dropLast
    · exact hqe ▸ hb
    · exact h p.dropLast _ hb q hq' hqe hqn

theorem getObj_some_of_mkdirpGo {segs : List Seg} {fs : Fs} {base : Path} {fs' : Fs}
    {created : List Path} (hok : mkdirpGo fs base segs = .ok (fs', created))
    {q : Path} {o : FsObj} (hq : getObj fs q = some o) : getObj fs' q = some o := by
  obtain ⟨h1, h2, h3, h4⟩ := mkdirpGo_spec hok
  have : ¬ q ∈ created := by
    intro hmem
    rw [h2 q hmem] at hq
    simp at hq
  rw [h3 q this, hq]

/-- `copyOne` preserves present objects, creates objects only along the
target file's directory chain or at the file itself, guarantees the file
object exists afterwards, and preserves key-uniqueness and closure. -/
theorem copyOne_spec {fs : Fs} {dst rel : Path} {c : String} {fs' : Fs} {w : List WriteOp}
    (hok : copyOne fs dst rel c = .ok (fs', w)) :
    (∀ q o, getObj fs q = some o → getObj fs' q = some o) ∧
    (∀ q, getObj fs q = none → ¬ q ∈ chainOf ([] : Path) (dst ++ rel.dropLast) →
      ¬ q = dst ++ rel → getObj fs' q = none) ∧
    (getObj fs' (dst ++ rel)).isSome = true ∧
    (nodupKeys fs → nodupKeys fs') ∧
    (¬ rel = [] → parentsClosed fs → parentsClosed fs') := by
  rw [copyOne] at hok
  cases hmk : mkdirp fs (dst ++ rel.dropLast) with
  | error e => rw [hmk] at hok; exact absurd hok (by simp)
  | ok r =>
    rw [hmk] at hok
    obtain ⟨fs₁, created⟩ := r
    dsimp only at hok
    rw [mkdirp] at hmk
    obtain ⟨hc1, hc2, hc3, hc4⟩ := mkdirpGo_spec hmk
    cases hget : getObj fs₁ (dst ++ rel) with
    | some o =>
      rw [hget] at hok
      simp only [Except.ok.injEq, Prod.mk.injEq] at hok
      obtain ⟨rfl, rfl⟩ := hok
      refine ⟨fun q o hq => getObj_some_of_mkdirpGo hmk hq, ?_, ?_, ?_, ?_⟩
      · intro q hq hnc _
        have : ¬ q ∈ created := fun hm => hnc (hc1 hm)
        rw [hc3 q this, hq]
      · rw [hget]; rfl
      · exact fun hnd => nodupKeys_mkdirpGo hnd hmk
      · exact fun _ hcl => parentsClosed_mkdirpGo hcl (by simp) hmk
    | none =>
      rw [hget] at hok
      simp only [Except.ok.injEq, Prod.mk.injEq] at hok
      obtain ⟨rfl, rfl⟩ := hok
      have hpresent : ∀ q o, getObj fs q = some o →
          getObj (setObj fs₁ (dst ++ rel) (.file c)) q = some o := by
        intro q o hq
        have h1 := getObj_some_of_mkdirpGo hmk hq
        rw [getObj_setObj, if_neg ?_]
        · exact h1
        · intro heq
          rw [heq] at h1
          rw [hget] at h1
          simp at h1
      refine ⟨hpresent, ?_, ?_, ?_, ?_⟩
      · intro q hq hnc hne
        have : ¬ q ∈ created := fun hm => hnc (hc1 hm)
        rw [getObj_setObj, if_neg hne, hc3 q this, hq]
      · rw [getObj_setObj, if_pos rfl]; rfl
      · exact fun hnd => nodupKeys_setObj (nodupKeys_mkdirpGo hnd hmk) _ _
      · intro hrel hcl
        have hcl₁ : parentsClosed fs₁ := parentsClosed_mkdirpGo hcl (by simp) hmk
        refine parentsClosed_setObj hcl₁ ?_ hget ?_
        · intro heq
          have : rel = [] := by
            cases hdst : dst ++ rel with
            | nil => exact (List.append_eq_nil.mp hdst).2
            | cons a t => rw [hdst] at heq; simp at heq
          exact hrel this
        · intro q hpre hne hqn
          have hq' : q <+: dst ++ rel.dropLast := by
            have := prefix_dropLast_of_proper hpre hne
            rwa [List.dropLast_append_of_ne_nil _ hrel] at this
          exact hc4 q (mem_chainOf_nil_iff.mpr ⟨hq', hqn⟩)

/-- When the whole chain already exists and the file object is present,
`copyOne` writes nothing at all. -/
theorem copyOne_noop {fs : Fs} {dst rel : Path} {c : String}
    (hchain : ∀ q ∈ chainOf ([] : Path) (dst ++ rel.dropLast), getObj fs q = some FsObj.dir)
    (hfile : (getObj fs (dst ++ rel)).isSome = true) :
    copyOne fs dst rel c = .ok (fs, []) := by
  rw [copyOne, mkdirp, mkdirpGo_noop hchain]
  cases hget : getObj fs (dst ++ rel) with
  | none => rw [hget] at hfile; simp at hfile
  | some o =>
    dsimp only
    rw [hget]
    rfl

theorem copyFiles_spec {fs : Fs} {dst : Path} {files : List (Path × String)}
    {fs' : Fs} {w : List WriteOp} (hok : copyFiles fs dst files = .ok (fs', w)) :
    (∀ q o, getObj fs q = some o → getObj fs' q = some o) ∧
    (∀ q, getObj fs q = none →
      (∀ f ∈ files, ¬ q ∈ chainOf ([] : Path) (dst ++ f.1.dropLast) ∧ ¬ q = dst ++ f.1) →
      getObj fs' q = none) ∧
    (∀ f ∈ files, (getObj fs' (dst ++ f.1)).isSome = true) ∧
    (nodupKeys fs → nodupKeys fs') ∧
    ((∀ f ∈ files, ¬ f.1 = []) → parentsClosed fs → parentsClosed fs') := by
  induction files generalizing fs w with
  | nil =>
    simp only [copyFiles, Except.ok.injEq, Prod.mk.injEq] at hok
    obtain ⟨rfl, rfl⟩ := hok
    exact ⟨fun q o hq => hq, fun q hq _ => hq, by simp, fun h => h, fun _ h => h⟩
  | cons f rest ih =>
    obtain ⟨rel, c⟩ := f
    rw [copyFiles] at hok
    cases h1 : copyOne fs dst rel c with
    | error e => rw [h1] at hok; exact absurd hok (by simp)
    | ok r1 =>
      rw [h1] at hok
      obtain ⟨fs₁, w₁⟩ := r1
      dsimp only at hok
      cases h2 : copyFiles fs₁ dst rest with
      | error e => rw [h2] at hok; exact absurd hok (by simp)
      | ok r2 =>
        rw [h2] at hok
        obtain ⟨fs₂, w₂⟩ := r2
        simp only [Except.ok.injEq, Prod.mk.injEq] at hok
        obtain ⟨rfl, rfl⟩ := hok
        obtain ⟨c1, c2, c3, c4, c5⟩ := copyOne_spec h1
        obtain ⟨d1, d2, d3, d4, d5⟩ := ih h2
        refine ⟨fun q o hq => d1 q o (c1 q o hq), ?_, ?_, fun h => d4 (c4 h), ?_⟩
        · intro q hq hf
          have h₁ := c2 q hq (hf (rel, c) (by simp)).1 (hf (rel, c) (by simp)).2
          exact d2 q h₁ (fun g hg => hf g (List.mem_cons_of_mem _ hg))
        · intro g hg
          rcases List.mem_cons.mp hg with heq | hg'
          · subst heq
            show (getObj fs₂ (dst ++ rel)).isSome = true
            cases hso : getObj fs₂ (dst ++ rel) with
            | some o => simp
            | none =>
              cases hs1 : getObj fs₁ (dst ++ rel) with
              | none => rw [hs1] at c3; simp at c3
              | some o =>
                rw [d1 _ _ hs1] at hso
                simp at hso
          · exact d3 g hg'
        · intro hne hcl
          exact d5 (fun g hg => hne g (List.mem_cons_of_mem _ hg))
            (c5 (hne (rel, c) (by simp)) hcl)

theorem copyFiles_noop {fs : Fs} {dst : Path} {files : List (Path × String)}
    (h : ∀ f ∈ files,
      (∀ q ∈ chainOf ([] : Path) (dst ++ f.1.dropLast), getObj fs q = some FsObj.dir) ∧
      (getObj fs (dst ++ f.1)).isSome = true) :
    copyFiles fs dst files = .ok (fs, []) := by
  induction files with
  | nil => rfl
  | cons f rest ih =>
    obtain ⟨rel, c⟩ := f
    rw [copyFiles, copyOne_noop (h (rel, c) (by simp)).1 (h (rel, c) (by simp)).2]
    dsimp only
    rw [ih (fun g hg => h g (List.mem_cons_of_mem _ hg))]
    rfl

theorem runCopyTask_spec {fs : Fs} {t : CopyTask} {fs' : Fs} {w : List WriteOp}
    (hok : runCopyTask fs t = .ok (fs', w)) :
    (∀ q o, getObj fs q = some o → getObj fs' q = some o) ∧
    (∀ q, getObj fs q = none → ¬ taskTouches t q → getObj fs' q = none) ∧
    taskCompleted t fs' ∧
    (nodupKeys fs → nodupKeys fs') ∧
    ((∀ f ∈ t.files, ¬ f.1 = []) → parentsClosed fs → parentsClosed fs') := by
  rw [runCopyTask] at hok
  cases h1 : mkdirp fs t.dst with
  | error e => rw [h1] at hok; exact absurd hok (by simp)
  | ok r1 =>
    rw [h1] at hok
    obtain ⟨fs₁, created⟩ := r1
    dsimp only at hok
    cases h2 : copyFiles fs₁ t.dst t.files with
    | error e => rw [h2] at hok; exact absurd hok (by simp)
    | ok r2 =>
      rw [h2] at hok
      obtain ⟨fs₂, w₂⟩ := r2
      simp only [Except.ok.injEq, Prod.mk.injEq] at hok
      obtain ⟨rfl, rfl⟩ := hok
      rw [mkdirp] at h1
      obtain ⟨m1, m2, m3, m4⟩ := mkdirpGo_spec h1
      obtain ⟨d1, d2, d3, d4, d5⟩ := copyFiles_spec h2
      refine ⟨?_, ?_, ?_, ?_, ?_⟩
      · intro q o hq
        exact d1 q o (getObj_some_of_mkdirpGo h1 hq)
      · intro q hq ht
        have h₁ : getObj fs₁ q = none := by
          have : ¬ q ∈ created := fun hm => ht (Or.inl (m1 hm))
          rw [m3 q this, hq]
        refine d2 q h₁ ?_
        intro g hg
        exact ⟨fun hc => ht (Or.inr ⟨g, hg, Or.inl hc⟩),
          fun he => ht (Or.inr ⟨g, hg, Or.inr he⟩)⟩
      · intro g hg
        exact d3 g hg
      · exact fun h => d4 (nodupKeys_mkdirpGo h h1)
      · exact fun hne hcl => d5 hne (parentsClosed_mkdirpGo hcl (by simp) h1)

theorem runCopyTask_noop {fs : Fs} {t : CopyTask}
    (hd : ∀ q ∈ chainOf ([] : Path) t.dst, getObj fs q = some FsObj.dir)
    (h : ∀ f ∈ t.files,
      (∀ q ∈ chainOf ([] : Path) (t.dst ++ f.1.dropLast), getObj fs q = some FsObj.dir) ∧
      (getObj fs (t.dst ++ f.1)).isSome = true) :
    runCopyTask fs t = .ok (fs, []) := by
  rw [runCopyTask, mkdirp, mkdirpGo_noop hd]
  dsimp only
  rw [copyFiles_noop h]
  rfl

theorem runTasks_spec {fs : Fs} {tasks : List CopyTask} {fs' : Fs} {w : List WriteOp}
    (hok : runTasks fs tasks = .ok (fs', w)) :
    (∀ q o, getObj fs q = some o → getObj fs' q = some o) ∧
    (∀ q, getObj fs q = none → (∀ t ∈ tasks, ¬ taskTouches t q) → getObj fs' q = none) ∧
    (∀ t ∈ tasks, taskCompleted t fs') ∧
    (nodupKeys fs → nodupKeys fs') ∧
    ((∀ t ∈ tasks, ∀ f ∈ t.files, ¬ f.1 = []) → parentsClosed fs → parentsClosed fs') := by
  induction tasks generalizing fs w with
  | nil =>
    simp only [runTasks, Except.ok.injEq, Prod.mk.injEq] at hok
    obtain ⟨rfl, rfl⟩ := hok
    exact ⟨fun q o hq => hq, fun q hq _ => hq, by simp, fun h => h, fun _ h => h⟩
  | cons t rest ih =>
    rw [runTasks] at hok
    cases h1 : runCopyTask fs t with
    | error e => rw [h1] at hok; exact absurd hok (by simp)
    | ok r1 =>
      rw [h1] at hok
      obtain ⟨fs₁, w₁⟩ := r1
      dsimp only at hok
      cases h2 : runTasks fs₁ rest with
      | error e => rw [h2] at hok; exact absurd hok (by simp)
      | ok r2 =>
        rw [h2] at hok
        obtain ⟨fs₂, w₂⟩ := r2
        simp only [Except.ok.injEq, Prod.mk.injEq] at hok
        obtain ⟨rfl, rfl⟩ := hok
        obtain ⟨c1, c2, c3, c4, c5⟩ := runCopyTask_spec h1
        obtain ⟨d1, d2, d3, d4, d5⟩ := ih h2
        refine ⟨fun q o hq => d1 q o (c1 q o hq), ?_, ?_, fun h => d4 (c4 h), ?_⟩
        · intro q hq hf
          exact d2 q (c2 q hq (hf t (by simp))) (fun g hg => hf g (List.mem_cons_of_mem _ hg))
        · intro g hg
          rcases List.mem_cons.mp hg with heq | hg'
          · subst heq
            intro f hf
            cases hso : getObj fs₂ (g.dst ++ f.1) with
            | some o => simp
            | none =>
              cases hs1 : getObj fs₁ (g.dst ++ f.1) with
              | none =>
                have := c3 f hf
                rw [hs1] at this
                simp at this
              | some o =>
                rw [d1 _ _ hs1] at hso
                simp at hso
          · exact d3 g hg'
        · intro hne hcl
          exact d5 (fun g hg => hne g (List.mem_cons_of_mem _ hg)) (c5 (hne t (by simp)) hcl)

theorem runTasks_noop {fs : Fs} {tasks : List CopyTask}
    (h : ∀ t ∈ tasks,
      (∀ q ∈ chainOf ([] : Path) t.dst, getObj fs q = some FsObj.dir) ∧
      ∀ f ∈ t.files,
        (∀ q ∈ chainOf ([] : Path) (t.dst ++ f.1.dropLast), getObj fs q = some FsObj.dir) ∧
        (getObj fs (t.dst ++ f.1)).isSome = true) :
    runTasks fs tasks = .ok (fs, []) := by
  induction tasks with
  | nil => rfl
  | cons t rest ih =>
    rw [runTasks, runCopyTask_noop (h t (by simp)).1 (h t (by simp)).2]
    dsimp only
    rw [ih (fun g hg => h g (List.mem_cons_of_mem _ hg))]
    rfl

/-! ## Enumeration (`buildExtraneous`) lemmas -/

theorem expandEntries_cons_dot {sub : Seg → Except FsErrorCode (List (Seg × FsObj))}
    {name : Seg} {obj : FsObj} {rest : List (Seg × FsObj)} {acc : Extraneous}
    (h : startsWithChar name '.' = true) :
    expandEntries sub ((name, obj) :: rest) acc = expandEntries sub rest acc := by
  rw [expandEntries, if_pos h]

theorem expandEntries_cons_scope_err {sub : Seg → Except FsErrorCode (List (Seg × FsObj))}
    {name : Seg} {obj : FsObj} {rest : List (Seg × FsObj)} {acc : Extraneous}
    {e : FsErrorCode} (hdot : startsWithChar name '.' = false)
    (hat : startsWithChar name '@' = true) (hsub : sub name = .error e) :
    expandEntries sub ((name, obj) :: rest) acc = (acc, some e) := by
  rw [expandEntries, if_neg (by simp [hdot]), if_pos hat, hsub]

theorem expandEntries_cons_scope_ok {sub : Seg → Except FsErrorCode (List (Seg × FsObj))}
    {name : Seg} {obj : FsObj} {rest : List (Seg × FsObj)} {acc : Extraneous}
    {children : List (Seg × FsObj)} (hdot : startsWithChar name '.' = false)
    (hat : startsWithChar name '@' = true) (hsub : sub name = .ok children) :
    expandEntries sub ((name, obj) :: rest) acc =
      expandEntries sub rest (acc ++ children.map (fun se => ([name, se.1], se.2))) := by
  rw [expandEntries, if_neg (by simp [hdot]), if_pos hat, hsub]

theorem expandEntries_cons_plain {sub : Seg → Except FsErrorCode (List (Seg × FsObj))}
    {name : Seg} {obj : FsObj} {rest : List (Seg × FsObj)} {acc : Extraneous}
    (hdot : startsWithChar name '.' = false) (hat : startsWithChar name '@' = false) :
    expandEntries sub ((name, obj) :: rest) acc =
      expandEntries sub rest (acc ++ [([name], obj)]) := by
  rw [expandEntries, if_neg (by simp [hdot]), if_neg (by simp [hat])]

theorem expandEntries_acc (sub : Seg → Except FsErrorCode (List (Seg × FsObj)))
    (entries : List (Seg × FsObj)) (acc : Extraneous) :
    expandEntries sub entries acc =
      (acc ++ (expandEntries sub entries []).1, (expandEntries sub entries []).2) := by
  induction entries generalizing acc with
  | nil => simp [expandEntries]
  | cons e rest ih =>
    obtain ⟨name, obj⟩ := e
    cases hdot : startsWithChar name '.' with
    | true => rw [expandEntries_cons_dot hdot, expandEntries_cons_dot hdot, ih]
    | false =>
      cases hat : startsWithChar name '@' with
      | true =>
        cases hsub : sub name with
        | error er =>
          rw [expandEntries_cons_scope_err hdot hat hsub,
            expandEntries_cons_scope_err hdot hat hsub]
          simp
        | ok children =>
          rw [expandEntries_cons_scope_ok hdot hat hsub,
            expandEntries_cons_scope_ok hdot hat hsub,
            ih (acc ++ List.map (fun se => ([name, se.1], se.2)) children),
            ih ([] ++ List.map (fun se => ([name, se.1], se.2)) children)]
          simp
      | false =>
        rw [expandEntries_cons_plain hdot hat, expandEntries_cons_plain hdot hat,
          ih (acc ++ [([name], obj)]), ih ([] ++ [([name], obj)])]
        simp

theorem expandEntries_error_source {sub : Seg → Except FsErrorCode (List (Seg × FsObj))}
    {entries : List (Seg × FsObj)} {acc acc' : Extraneous} {e : FsErrorCode}
    (h : expandEntries sub entries acc = (acc', some e)) : ∃ n, sub n = .error e := by
  induction entries generalizing acc with
  | nil => simp [expandEntries] at h
  | cons ent rest ih =>
    obtain ⟨name, obj⟩ := ent
    cases hdot : startsWithChar name '.' with
    | true =>
      rw [expandEntries_cons_dot hdot] at h
      exact ih h
    | false =>
      cases hat : startsWithChar name '@' with
      | true =>
        cases hsub : sub name with
        | error e' =>
          rw [expandEntries_cons_scope_err hdot hat hsub] at h
          have he : e' = e := by
            have := (Prod.mk.injEq _ _ _ _ ▸ h).2
            simpa using this
          exact ⟨name, by rw [hsub, he]⟩
        | ok children =>
          rw [expandEntries_cons_scope_ok hdot hat hsub] at h
          exact ih h
      | false =>
        rw [expandEntries_cons_plain hdot hat] at h
        exact ih h

/-- Every key recorded by the walk has a non-dotfile head segment (dotfile
entries are skipped before either recording branch runs). -/
theorem expandEntries_keys_not_dot {sub : Seg → Except FsErrorCode (List (Seg × FsObj))}
    {entries : List (Seg × FsObj)} {acc : Extraneous}
    (hacc : ∀ k o, (k, o) ∈ acc → ∃ hd tl, k = hd :: tl ∧ startsWithChar hd '.' = false) :
    ∀ k o, (k, o) ∈ (expandEntries sub entries acc).1 →
      ∃ hd tl, k = hd :: tl ∧ startsWithChar hd '.' = false := by
  induction entries generalizing acc with
  | nil => simpa [expandEntries] using hacc
  | cons ent rest ih =>
    obtain ⟨name, obj⟩ := ent
    cases hdot : startsWithChar name '.' with
    | true =>
      rw [expandEntries_cons_dot hdot]
      exact ih hacc
    | false =>
      cases hat : startsWithChar name '@' with
      | true =>
        cases hsub : sub name with
        | error e =>
          rw [expandEntries_cons_scope_err hdot hat hsub]
          exact hacc
        | ok children =>
          rw [expandEntries_cons_scope_ok hdot hat hsub]
          refine ih ?_
          intro k o hk
          rcases List.mem_append.mp hk with hk | hk
          · exact hacc k o hk
          · obtain ⟨se, _, hse⟩ := List.mem_map.mp hk
            have hk1 : k = [name, se.1] := ((Prod.mk.injEq _ _ _ _).mp hse).1.symm
            exact ⟨name, [se.1], hk1, hdot⟩
      | false =>
        rw [expandEntries_cons_plain hdot hat]
        refine ih ?_
        intro k o hk
        rcases List.mem_append.mp hk with hk | hk
        · exact hacc k o hk
        · simp only [List.mem_singleton, Prod.mk.injEq] at hk
          exact ⟨name, [], hk.1, hdot⟩

/-- When the walk completes without an interrupting error, each child of a
scope entry is recorded individually under its two-segment key. -/
theorem expandEntries_scope_children {sub : Seg → Except FsErrorCode (List (Seg × FsObj))}
    {entries : List (Seg × FsObj)} {ext : Extraneous} {name : Seg} {obj : FsObj}
    {children : List (Seg × FsObj)}
    (h : expandEntries sub entries [] = (ext, none))
    (hmem : (name, obj) ∈ entries) (hdot : startsWithChar name '.' = false)
    (hat : startsWithChar name '@' = true) (hsub : sub name = .ok children) :
    ∀ c co, (c, co) ∈ children → ([name, c], co) ∈ ext := by
  induction entries generalizing ext with
  | nil => simp at hmem
  | cons ent rest ih =>
    obtain ⟨name', obj'⟩ := ent
    rcases List.mem_cons.mp hmem with hfst | hrest
    · obtain ⟨rfl, rfl⟩ : name' = name ∧ obj' = obj := by
        have := (Prod.mk.injEq _ _ _ _).mp hfst
        exact ⟨this.1.symm, this.2.symm⟩
      rw [expandEntries_cons_scope_ok hdot hat hsub, expandEntries_acc] at h
      simp only [List.nil_append] at h
      have h1 := ((Prod.mk.injEq _ _ _ _).mp h).1
      intro c co hc
      rw [← h1]
      exact List.mem_append.mpr (Or.inl (List.mem_map.mpr ⟨(c, co), hc, rfl⟩))
    · cases hdot' : startsWithChar name' '.' with
      | true =>
        rw [expandEntries_cons_dot hdot'] at h
        exact ih h hrest
      | false =>
        cases hat' : startsWithChar name' '@' with
        | true =>
          cases hsub' : sub name' with
          | error e =>
            rw [expandEntries_cons_scope_err hdot' hat' hsub'] at h
            exact absurd ((Prod.mk.injEq _ _ _ _).mp h).2 (by simp)
          | ok children' =>
            rw [expandEntries_cons_scope_ok hdot' hat' hsub', expandEntries_acc] at h
            have h1 := ((Prod.mk.injEq _ _ _ _).mp h).1
            have h2 := ((Prod.mk.injEq _ _ _ _).mp h).2
            intro c co hc
            have hin := @ih (expandEntries sub rest []).1
              (by rw [← h2]) hrest c co hc
            rw [← h1]
            exact List.mem_append.mpr (Or.inr hin)
        | false =>
          rw [expandEntries_cons_plain hdot' hat', expandEntries_acc] at h
          have h1 := ((Prod.mk.injEq _ _ _ _).mp h).1
          have h2 := ((Prod.mk.injEq _ _ _ _).mp h).2
          intro c co hc
          have hin := @ih (expandEntries sub rest []).1
            (by rw [← h2]) hrest c co hc
          rw [← h1]
          exact List.mem_append.mpr (Or.inr hin)

/-- A `@`-named entry never yields a one-segment key: scope entries are
always expanded, never recorded as one opaque unit. -/
theorem expandEntries_no_scope_key {sub : Seg → Except FsErrorCode (List (Seg × FsObj))}
    {entries : List (Seg × FsObj)} {acc : Extraneous} {name : Seg}
    (hat : startsWithChar name '@' = true)
    (hacc : ∀ o : FsObj, ¬ ([name], o) ∈ acc) :
    ∀ o : FsObj, ¬ ([name], o) ∈ (expandEntries sub entries acc).1 := by
  induction entries generalizing acc with
  | nil => simpa [expandEntries] using hacc
  | cons ent rest ih =>
    obtain ⟨name', obj'⟩ := ent
    cases hdot' : startsWithChar name' '.' with
    | true =>
      rw [expandEntries_cons_dot hdot']
      exact ih hacc
    | false =>
      cases hat' : startsWithChar name' '@' with
      | true =>
        cases hsub' : sub name' with
        | error e =>
          rw [expandEntries_cons_scope_err hdot' hat' hsub']
          exact hacc
        | ok children' =>
          rw [expandEntries_cons_scope_ok hdot' hat' hsub']
          refine ih ?_
          intro o hmem
          rcases List.mem_append.mp hmem with hmem | hmem
          · exact hacc o hmem
          · obtain ⟨se, _, hse⟩ := List.mem_map.mp hmem
            have : ([name', se.1] : EntKey) = [name] := ((Prod.mk.injEq _ _ _ _).mp hse).1
            simp at this
      | false =>
        rw [expandEntries_cons_plain hdot' hat']
        refine ih ?_
        intro o hmem
        rcases List.mem_append.mp hmem with hmem | hmem
        · exact hacc o hmem
        · simp only [List.mem_singleton, Prod.mk.injEq] at hmem
          have hne : name = name' := by simpa using hmem.1
          rw [← hne] at hat'
          simp [hat] at hat'

theorem buildExtraneous_ok_inv {listing : Except FsErrorCode (List (Seg × FsObj))}
    {sub : Seg → Except FsErrorCode (List (Seg × FsObj))} {ext : Extraneous}
    (h : buildExtraneous listing sub = .ok ext) :
    (listing = .error .ENOENT ∧ ext = []) ∨
    (∃ entries, listing = .ok entries ∧
      (expandEntries sub entries [] = (ext, none) ∨
       expandEntries sub entries [] = (ext, some .ENOENT))) := by
  cases listing with
  | error e =>
    rw [buildExtraneous] at h
    by_cases he : e = FsErrorCode.ENOENT
    · subst he
      rw [if_pos rfl] at h
      simp only [Except.ok.injEq] at h
      exact Or.inl ⟨rfl, h.symm⟩
    · rw [if_neg he] at h
      simp at h
  | ok entries =>
    rw [buildExtraneous] at h
    refine Or.inr ⟨entries, rfl, ?_⟩
    cases hx : expandEntries sub entries [] with
    | mk acc err =>
      rw [hx] at h
      cases err with
      | none =>
        simp only [Except.ok.injEq] at h
        exact Or.inl (by rw [h])
      | some e =>
        dsimp only at h
        by_cases he : e = FsErrorCode.ENOENT
        · subst he
          rw [if_pos rfl] at h
          simp only [Except.ok.injEq] at h
          exact Or.inr (by rw [h])
        · rw [if_neg he] at h
          simp at h

/-- Keys recorded by a successful enumeration all have non-dot heads. -/
theorem buildExtraneous_keys_not_dot {listing : Except FsErrorCode (List (Seg × FsObj))}
    {sub : Seg → Except FsErrorCode (List (Seg × FsObj))} {ext : Extraneous}
    (h : buildExtraneous listing sub = .ok ext) :
    ∀ k o, (k, o) ∈ ext → ∃ hd tl, k = hd :: tl ∧ startsWithChar hd '.' = false := by
  rcases buildExtraneous_ok_inv h with ⟨_, rfl⟩ | ⟨entries, _, hx | hx⟩
  · simp
  · intro k o hk
    have hmem : (k, o) ∈ (expandEntries sub entries []).1 := by rw [hx]; exact hk
    exact expandEntries_keys_not_dot (by simp) k o hmem
  · intro k o hk
    have hmem : (k, o) ∈ (expandEntries sub entries []).1 := by rw [hx]; exact hk
    exact expandEntries_keys_not_dot (by simp) k o hmem

/-! ## childEnts / readdir lemmas -/

theorem eq_append_singleton_of_len_prefix {p q : Path} (hlen : q.length = p.length + 1)
    (hpre : p <+: q) : ∃ n, q = p ++ [n] := by
  obtain ⟨r, rfl⟩ := hpre
  have hr : r.length = 1 := by
    rw [List.length_append] at hlen
    omega
  cases r with
  | nil => simp at hr
  | cons a t =>
    cases t with
    | nil => exact ⟨a, rfl⟩
    | cons b t' => simp at hr

theorem mem_childEnts_iff {fs : Fs} (hnd : nodupKeys fs) {p : Path} {n : Seg} {o : FsObj} :
    (n, o) ∈ childEnts fs p ↔ getObj fs (p ++ [n]) = some o := by
  rw [childEnts, List.mem_filterMap, getObj_eq_some_iff_mem hnd]
  constructor
  · rintro ⟨e, he, hfe⟩
    by_cases hc : (decide (e.1.length = p.length + 1) && leadsTo p e.1) = true
    · rw [if_pos hc] at hfe
      simp only [Bool.and_eq_true, decide_eq_true_eq] at hc
      obtain ⟨m, hm⟩ := eq_append_singleton_of_len_prefix hc.1 (leadsTo_iff.mp hc.2)
      rw [hm, List.getLast?_concat] at hfe
      simp only [Option.some_inj, Prod.mk.injEq] at hfe
      obtain ⟨rfl, rfl⟩ := hfe
      rw [← hm]
      exact he
    · rw [if_neg hc] at hfe
      simp at hfe
  · intro hmem
    refine ⟨(p ++ [n], o), hmem, ?_⟩
    rw [if_pos (by simp [leadsTo_append])]
    rw [List.getLast?_concat]

theorem readdirEnts_ok_iff {fs : Fs} {p : Path} {entries : List (Seg × FsObj)} :
    readdirEnts fs p = .ok entries ↔ getObj fs p = some .dir ∧ entries = childEnts fs p := by
  rw [readdirEnts]
  cases h : getObj fs p with
  | none => simp
  | some o =>
    cases o with
    | dir => simp [eq_comm]
    | file c => simp
    | symlink t => simp

theorem readdirEnts_error_enoent {fs : Fs} {p : Path}
    (h : readdirEnts fs p = .error .ENOENT) : getObj fs p = none := by
  rw [readdirEnts] at h
  cases hq : getObj fs p with
  | none => rfl
  | some o =>
    rw [hq] at h
    cases o <;> simp at h

/-! ## Enumeration entries against the filesystem -/

theorem expandEntries_error_mem {sub : Seg → Except FsErrorCode (List (Seg × FsObj))}
    {entries : List (Seg × FsObj)} {acc acc' : Extraneous} {e : FsErrorCode}
    (h : expandEntries sub entries acc = (acc', some e)) :
    ∃ n obj, (n, obj) ∈ entries ∧ startsWithChar n '@' = true ∧ sub n = .error e := by
  induction entries generalizing acc with
  | nil => simp [expandEntries] at h
  | cons ent rest ih =>
    obtain ⟨name, obj⟩ := ent
    cases hdot : startsWithChar name '.' with
    | true =>
      rw [expandEntries_cons_dot hdot] at h
      obtain ⟨n, obj', hmem, hat, hsub⟩ := ih h
      exact ⟨n, obj', List.mem_cons_of_mem _ hmem, hat, hsub⟩
    | false =>
      cases hat : startsWithChar name '@' with
      | true =>
        cases hsub : sub name with
        | error e' =>
          rw [expandEntries_cons_scope_err hdot hat hsub] at h
          have he : e' = e := by
            have := ((Prod.mk.injEq _ _ _ _).mp h).2
            simpa using this
          exact ⟨name, obj, List.mem_cons_self _ _, hat, by rw [hsub, he]⟩
        | ok children =>
          rw [expandEntries_cons_scope_ok hdot hat hsub] at h
          obtain ⟨n, obj', hmem, hat', hsub'⟩ := ih h
          exact ⟨n, obj', List.mem_cons_of_mem _ hmem, hat', hsub'⟩
      | false =>
        rw [expandEntries_cons_plain hdot hat] at h
        obtain ⟨n, obj', hmem, hat', hsub'⟩ := ih h
        exact ⟨n, obj', List.mem_cons_of_mem _ hmem, hat', hsub'⟩

theorem expandEntries_entry_source {sub : Seg → Except FsErrorCode (List (Seg × FsObj))}
    {entries : List (Seg × FsObj)} {acc : Extraneous} :
    ∀ k o, (k, o) ∈ (expandEntries sub entries acc).1 →
      (k, o) ∈ acc ∨
      (∃ hd, k = [hd] ∧ startsWithChar hd '.' = false ∧ startsWithChar hd '@' = false ∧
        (hd, o) ∈ entries) ∨
      (∃ hd c children, k = [hd, c] ∧ startsWithChar hd '@' = true ∧
        startsWithChar hd '.' = false ∧ sub hd = .ok children ∧ (c, o) ∈ children) := by
  induction entries generalizing acc with
  | nil =>
    intro k o hk
    rw [expandEntries] at hk
    exact Or.inl hk
  | cons ent rest ih =>
    obtain ⟨name, obj⟩ := ent
    intro k o hk
    cases hdot : startsWithChar name '.' with
    | true =>
      rw [expandEntries_cons_dot hdot] at hk
      rcases ih k o hk with h | ⟨hd, hk', h1, h2, hmem⟩ | ⟨hd, c, children, hk', h1, h2, hsub, hmem⟩
      · exact Or.inl h
      · exact Or.inr (Or.inl ⟨hd, hk', h1, h2, List.mem_cons_of_mem _ hmem⟩)
      · exact Or.inr (Or.inr ⟨hd, c, children, hk', h1, h2, hsub, hmem⟩)
    | false =>
      cases hat : startsWithChar name '@' with
      | true =>
        cases hsub : sub name with
        | error e =>
          rw [expandEntries_cons_scope_err hdot hat hsub] at hk
          exact Or.inl hk
        | ok children =>
          rw [expandEntries_cons_scope_ok hdot hat hsub] at hk
          rcases ih k o hk with h | ⟨hd, hk', h1, h2, hmem⟩ |
              ⟨hd, c, children', hk', h1, h2, hsub', hmem⟩
          · rcases List.mem_append.mp h with h | h
            · exact Or.inl h
            · obtain ⟨se, hse, hseq⟩ := List.mem_map.mp h
              have h1 := ((Prod.mk.injEq _ _ _ _).mp hseq).1.symm
              have h2 := ((Prod.mk.injEq _ _ _ _).mp hseq).2.symm
              refine Or.inr (Or.inr ⟨name, se.1, children, h1, hat, hdot, hsub, ?_⟩)
              rw [h2]
              exact hse
          · exact Or.inr (Or.inl ⟨hd, hk', h1, h2, List.mem_cons_of_mem _ hmem⟩)
          · exact Or.inr (Or.inr ⟨hd, c, children', hk', h1, h2, hsub', hmem⟩)
      | false =>
        rw [expandEntries_cons_plain hdot hat] at hk
        rcases ih k o hk with h | ⟨hd, hk', h1, h2, hmem⟩ |
            ⟨hd, c, children', hk', h1, h2, hsub', hmem⟩
        · rcases List.mem_append.mp h with h | h
          · exact Or.inl h
          · simp only [List.mem_singleton, Prod.mk.injEq] at h
            exact Or.inr (Or.inl ⟨name, h.1, hdot, hat, by rw [h.2]; exact List.mem_cons_self _ _⟩)
        · exact Or.inr (Or.inl ⟨hd, hk', h1, h2, List.mem_cons_of_mem _ hmem⟩)
        · exact Or.inr (Or.inr ⟨hd, c, children', hk', h1, h2, hsub', hmem⟩)

theorem expandEntries_complete {sub : Seg → Except FsErrorCode (List (Seg × FsObj))}
    {entries : List (Seg × FsObj)} {ext : Extraneous}
    (h : expandEntries sub entries [] = (ext, none)) :
    ∀ n o, (n, o) ∈ entries → startsWithChar n '.' = false →
      (startsWithChar n '@' = false → ([n], o) ∈ ext) ∧
      (startsWithChar n '@' = true →
        ∃ children, sub n = .ok children ∧
          ∀ c o', (c, o') ∈ children → ([n, c], o') ∈ ext) := by
  induction entries generalizing ext with
  | nil => simp
  | cons ent rest ih =>
    obtain ⟨name', obj'⟩ := ent
    intro n o hmem hdot
    rcases List.mem_cons.mp hmem with hfst | hrest
    · have he1 : n = name' := ((Prod.mk.injEq _ _ _ _).mp hfst).1
      have he2 : o = obj' := ((Prod.mk.injEq _ _ _ _).mp hfst).2
      rw [he1] at hdot
      rw [he1, he2]
      constructor
      · intro hat
        rw [expandEntries_cons_plain hdot hat, expandEntries_acc] at h
        have h1 := ((Prod.mk.injEq _ _ _ _).mp h).1
        rw [← h1]
        simp
      · intro hat
        cases hsub : sub name' with
        | error e =>
          rw [expandEntries_cons_scope_err hdot hat hsub] at h
          exact absurd ((Prod.mk.injEq _ _ _ _).mp h).2 (by simp)
        | ok children =>
          refine ⟨children, rfl, ?_⟩
          rw [expandEntries_cons_scope_ok hdot hat hsub, expandEntries_acc] at h
          simp only [List.nil_append] at h
          have h1 := ((Prod.mk.injEq _ _ _ _).mp h).1
          intro c co hc
          rw [← h1]
          exact List.mem_append.mpr (Or.inl (List.mem_map.mpr ⟨(c, co), hc, rfl⟩))
    · cases hdot' : startsWithChar name' '.' with
      | true =>
        rw [expandEntries_cons_dot hdot'] at h
        exact ih h n o hrest hdot
      | false =>
        cases hat' : startsWithChar name' '@' with
        | true =>
          cases hsub' : sub name' with
          | error e =>
            rw [expandEntries_cons_scope_err hdot' hat' hsub'] at h
            exact absurd ((Prod.mk.injEq _ _ _ _).mp h).2 (by simp)
          | ok children' =>
            rw [expandEntries_cons_scope_ok hdot' hat' hsub', expandEntries_acc] at h
            have h1 := ((Prod.mk.injEq _ _ _ _).mp h).1
            have h2 := ((Prod.mk.injEq _ _ _ _).mp h).2
            have hrec := @ih (expandEntries sub rest []).1 (by rw [← h2]) n o hrest hdot
            constructor
            · intro hat
              have := hrec.1 hat
              rw [← h1]
              exact List.mem_append.mpr (Or.inr this)
            · intro hat
              obtain ⟨children, hsub, hmem'⟩ := hrec.2 hat
              refine ⟨children, hsub, ?_⟩
              intro c co hc
              rw [← h1]
              exact List.mem_append.mpr (Or.inr (hmem' c co hc))
        | false =>
          rw [expandEntries_cons_plain hdot' hat', expandEntries_acc] at h
          have h1 := ((Prod.mk.injEq _ _ _ _).mp h).1
          have h2 := ((Prod.mk.injEq _ _ _ _).mp h).2
          have hrec := @ih (expandEntries sub rest []).1 (by rw [← h2]) n o hrest hdot
          constructor
          · intro hat
            have := hrec.1 hat
            rw [← h1]
            exact List.mem_append.mpr (Or.inr this)
          · intro hat
            obtain ⟨children, hsub, hmem'⟩ := hrec.2 hat
            refine ⟨children, hsub, ?_⟩
            intro c co hc
            rw [← h1]
            exact List.mem_append.mpr (Or.inr (hmem' c co hc))

/-- Facts about every recorded entry of a filesystem-backed enumeration:
the object really is at that path, and the key is either a plain
(non-dot, non-scope) name or a scope child below an existing scope
directory. -/
theorem buildExtraneous_fs_facts {fs : Fs} {nm : Path} {ext : Extraneous}
    (hnd : nodupKeys fs)
    (h : buildExtraneous (readdirEnts fs nm) (fun n => readdirEnts fs (nm ++ [n])) = .ok ext) :
    ∀ k o, (k, o) ∈ ext →
      getObj fs (nm ++ k) = some o ∧
      ((∃ hd, k = [hd] ∧ startsWithChar hd '.' = false ∧ startsWithChar hd '@' = false) ∨
       (∃ hd c, k = [hd, c] ∧ startsWithChar hd '@' = true ∧ startsWithChar hd '.' = false ∧
         getObj fs (nm ++ [hd]) = some .dir)) := by
  intro k o hk
  rcases buildExtraneous_ok_inv h with ⟨hlist, rfl⟩ | ⟨entries, hlist, hx⟩
  · simp at hk
  · obtain ⟨hnm, hents⟩ := readdirEnts_ok_iff.mp hlist
    have hmem : (k, o) ∈ (expandEntries (fun n => readdirEnts fs (nm ++ [n])) entries []).1 := by
      rcases hx with hx | hx <;> rw [hx] <;> exact hk
    rcases expandEntries_entry_source k o hmem with hsrc |
        ⟨hd, hk', h1, h2, hmem'⟩ | ⟨hd, c, children, hk', h1, h2, hsub, hcm⟩
    · simp at hsrc
    · refine ⟨?_, Or.inl ⟨hd, hk', h1, h2⟩⟩
      rw [hk']
      rw [hents] at hmem'
      exact (mem_childEnts_iff hnd).mp hmem'
    · obtain ⟨hdir, hch⟩ := readdirEnts_ok_iff.mp hsub
      refine ⟨?_, Or.inr ⟨hd, c, hk', h1, h2, hdir⟩⟩
      rw [hk']
      rw [hch] at hcm
      have := (mem_childEnts_iff hnd).mp hcm
      simpa [List.append_assoc] using this

/-- Completeness of a successful filesystem-backed enumeration: every
non-dot child of the directory is recorded (plain children directly, scope
children one level down), and scope children are only enumerated below
actual directories. -/
theorem buildExtraneous_fs_complete {fs : Fs} {nm : Path} {ext : Extraneous}
    (hnd : nodupKeys fs) (hdir : getObj fs nm = some .dir)
    (h : buildExtraneous (readdirEnts fs nm) (fun n => readdirEnts fs (nm ++ [n])) = .ok ext) :
    ∀ n o, getObj fs (nm ++ [n]) = some o → startsWithChar n '.' = false →
      (startsWithChar n '@' = false → ([n], o) ∈ ext) ∧
      (startsWithChar n '@' = true → o = .dir ∧
        ∀ c o', getObj fs (nm ++ [n, c]) = some o' → ([n, c], o') ∈ ext) := by
  intro n o hno hdot
  have hlist : readdirEnts fs nm = .ok (childEnts fs nm) := readdirEnts_ok_iff.mpr ⟨hdir, rfl⟩
  rcases buildExtraneous_ok_inv h with ⟨hl, _⟩ | ⟨entries, hl, hx⟩
  · rw [hlist] at hl
    simp at hl
  · rw [hlist] at hl
    have hent : childEnts fs nm = entries := by
      simpa using hl
    rcases hx with hx | hx
    · have hmem : (n, o) ∈ entries := by
        rw [← hent]
        exact (mem_childEnts_iff hnd).mpr hno
      have hc := expandEntries_complete hx n o hmem hdot
      refine ⟨hc.1, ?_⟩
      intro hat
      obtain ⟨children, hsub, hcm⟩ := hc.2 hat
      obtain ⟨hsdir, hsch⟩ := readdirEnts_ok_iff.mp hsub
      have ho : o = FsObj.dir := by
        rw [hno] at hsdir
        simpa using hsdir
      refine ⟨ho, ?_⟩
      intro c o' hco
      apply hcm
      rw [hsch]
      refine (mem_childEnts_iff hnd).mpr ?_
      rw [List.append_assoc]
      exact hco
    · obtain ⟨n', obj', hmem', hat', hsub'⟩ := expandEntries_error_mem hx
      have hnone : getObj fs (nm ++ [n']) = none := readdirEnts_error_enoent hsub'
      rw [← hent] at hmem'
      have := (mem_childEnts_iff hnd).mp hmem'
      rw [hnone] at this
      exact absurd this (by simp)

/-! ## Reconcile step lemmas -/

theorem extGet_mem {m : Extraneous} {k : EntKey} {o : FsObj} (h : extGet m k = some o) :
    (k, o) ∈ m := by
  rw [extGet] at h
  cases hf : m.find? (fun e => decide (e.1 = k)) with
  | none => rw [hf] at h; simp at h
  | some e =>
    rw [hf] at h
    have hmem := List.mem_of_find?_eq_some hf
    have hk := List.find?_some hf
    simp only [decide_eq_true_eq] at hk
    simp only [Option.map_some', Option.some_inj] at h
    rw [← hk, ← h]
    exact hmem

theorem mem_extDelete {m : Extraneous} {k k' : EntKey} {o : FsObj}
    (h : (k', o) ∈ extDelete m k) : (k', o) ∈ m ∧ ¬ k' = k := by
  have h1 := List.mem_of_mem_filter h
  have h2 := List.of_mem_filter h
  simp only [Bool.not_eq_true', decide_eq_false_iff_not] at h2
  exact ⟨h1, h2⟩

theorem createLink_spec {dst : Path} {rel : List Seg} {fs : Fs} {ext : Extraneous}
    {log : Log} {fs' : Fs} {ext' : Extraneous} {log' : Log}
    (hok : createLink dst rel fs ext log = .ok (fs', ext', log')) :
    ext' = ext ∧
    getObj fs dst = none ∧
    getObj fs' dst = some (.symlink rel) ∧
    (∀ q, ¬ q = dst →
      (getObj fs' q = getObj fs q ∨
       (getObj fs q = none ∧ getObj fs' q = some FsObj.dir ∧
         q ∈ chainOf ([] : Path) dst.dropLast))) ∧
    (∀ q ∈ chainOf ([] : Path) dst.dropLast, getObj fs' q = some FsObj.dir) ∧
    (nodupKeys fs → nodupKeys fs') ∧
    (¬ dst = [] → parentsClosed fs → parentsClosed fs') := by
  rw [createLink] at hok
  cases hmk : mkdirp fs dst.dropLast with
  | error e => rw [hmk] at hok; exact absurd hok (by simp)
  | ok r =>
    rw [hmk] at hok
    obtain ⟨fs₁, created⟩ := r
    dsimp only at hok
    cases hsl : symlinkCreate fs₁ rel dst with
    | error e => rw [hsl] at hok; exact absurd hok (by simp)
    | ok fs₂ =>
      rw [hsl] at hok
      simp only [Except.ok.injEq, Prod.mk.injEq] at hok
      obtain ⟨rfl, rfl, rfl⟩ := hok
      rw [mkdirp] at hmk
      obtain ⟨m1, m2, m3, m4⟩ := mkdirpGo_spec hmk
      obtain ⟨habs, rfl⟩ := symlinkCreate_ok_inv hsl
      have hdnotin : ¬ dst ∈ chainOf ([] : Path) dst.dropLast := by
        intro hmem
        have h1 := (mem_chainOf_nil_iff.mp hmem).1.length_le
        have h2 : dst.dropLast.length < dst.length ∨ dst = [] := by
          cases dst with
          | nil => exact Or.inr rfl
          | cons a t => exact Or.inl (by simp)
        rcases h2 with h2 | rfl
        · omega
        · simp [chainOf] at hmem
      have habs0 : getObj fs dst = none := by
        by_cases hc : dst ∈ created
        · exact m2 dst hc
        · rw [← m3 dst hc]
          exact habs
      refine ⟨rfl, habs0, ?_, ?_, ?_, ?_, ?_⟩
      · rw [getObj_setObj, if_pos rfl]
      · intro q hq
        rw [getObj_setObj, if_neg hq]
        by_cases hc : q ∈ created
        · exact Or.inr ⟨m2 q hc, m4 q (m1 hc), m1 hc⟩
        · exact Or.inl (m3 q hc)
      · intro q hq
        have hne : ¬ q = dst := by
          intro heq
          rw [heq] at hq
          exact hdnotin hq
        rw [getObj_setObj, if_neg hne]
        exact m4 q hq
      · exact fun h => nodupKeys_setObj (nodupKeys_mkdirpGo h hmk) _ _
      · intro hdn hcl
        exact parentsClosed_symlinkCreate (parentsClosed_mkdirpGo hcl (by simp) hmk) hdn hsl

theorem createLink_frame_spec {nm : Path} {key rel : List Seg}
    {fs fsMid : Fs} {ext : Extraneous} {log : Log} {fs' : Fs} {ext' : Extraneous} {log' : Log}
    (hknil : ¬ key = [])
    (hcases : (∃ n, key = [n]) ∨ (∃ a b, key = [a, b]))
    (hchain : ∀ q ∈ chainOf ([] : Path) nm, getObj fs q = some FsObj.dir)
    (hmid : ∀ q, ¬ leadsTo (nm ++ key) q = true → getObj fsMid q = getObj fs q)
    (hok : createLink (nm ++ key) rel fsMid ext log = .ok (fs', ext', log')) :
    ext' = ext ∧
    getObj fs' (nm ++ key) = some (.symlink rel) ∧
    (∀ q, ¬ leadsTo (nm ++ key) q = true → ¬ q = nm ++ key.take 1 →
      getObj fs' q = getObj fsMid q) ∧
    (nodupKeys fsMid → nodupKeys fs') ∧
    (parentsClosed fsMid → parentsClosed fs') ∧
    (∀ hd c, key = [hd, c] → getObj fs' (nm ++ [hd]) = some FsObj.dir) := by
  obtain ⟨c1, c2, c3, c4, c5, c6, c7⟩ := createLink_spec hok
  have hdrop : (nm ++ key).dropLast = nm ++ key.dropLast :=
    List.dropLast_append_of_ne_nil _ hknil
  refine ⟨c1, c3, ?_, c6, fun h => c7 (by simp [hknil]) h, ?_⟩
  · intro q hnl hnt
    have hqd : ¬ q = nm ++ key := by
      intro heq
      rw [heq] at hnl
      exact hnl (leadsTo_refl _)
    rcases c4 q hqd with heq | ⟨hnone, hdir, hmem⟩
    · exact heq
    · exfalso
      rw [hdrop] at hmem
      obtain ⟨hpre, hqn⟩ := mem_chainOf_nil_iff.mp hmem
      have hqnm : q <+: nm := by
        rcases hcases with ⟨n, hk⟩ | ⟨a, b, hk⟩
        · subst hk
          simpa using hpre
        · subst hk
          rcases List.prefix_concat_iff.mp (by simpa using hpre) with heq2 | h2
          · exact absurd heq2 (by simpa using hnt)
          · exact h2
      have hdir2 := hchain q (mem_chainOf_nil_iff.mpr ⟨hqnm, hqn⟩)
      have hnl2 : ¬ leadsTo (nm ++ key) q = true := by
        intro hl
        have h1 := (leadsTo_iff.mp hl).length_le
        have h2 := hqnm.length_le
        rw [List.length_append] at h1
        have h3 : 1 ≤ key.length := by
          cases key with
          | nil => exact absurd rfl hknil
          | cons u v => simp
        omega
      rw [hmid q hnl2, hdir2] at hnone
      simp at hnone
  · intro hd c hkey
    subst hkey
    refine c5 _ ?_
    rw [List.dropLast_append_of_ne_nil _ (by simp), mem_chainOf_nil_iff]
    refine ⟨?_, by simp⟩
    show nm ++ [hd] <+: nm ++ [hd, c].dropLast
    simp

theorem processDep_spec {st : InstallerState} {nm : Path} {fs : Fs} {ext : Extraneous}
    {log : Log} {d : Descriptor} {l : Locator} {fs' : Fs} {ext' : Extraneous} {log' : Log}
    (hok : processDep st nm fs ext log d l = .ok (fs', ext', log'))
    (hchain : ∀ q ∈ chainOf ([] : Path) nm, getObj fs q = some FsObj.dir)
    (hext : ∀ k o, (k, o) ∈ ext → getObj fs (nm ++ k) = some o)
    (hscopedir : ∀ hd c o, identSegs d.ident = [hd, c] → ((identSegs d.ident, o) ∈ ext) →
      getObj fs (nm ++ [hd]) = some FsObj.dir) :
    ∃ src, lookupLoc st.locations (targetDependencyOf st l) = some src ∧
      ext' = extDelete ext (identSegs d.ident) ∧
      getObj fs' (nm ++ identSegs d.ident) =
        some (.symlink (relSegs (nm ++ identSegs d.ident).dropLast src)) ∧
      (∀ q, ¬ leadsTo (nm ++ identSegs d.ident) q = true →
        ¬ q = nm ++ (identSegs d.ident).take 1 → getObj fs' q = getObj fs q) ∧
      (nodupKeys fs → nodupKeys fs') ∧
      (parentsClosed fs → parentsClosed fs') ∧
      (∀ hd c, identSegs d.ident = [hd, c] → getObj fs' (nm ++ [hd]) = some FsObj.dir) := by
  rw [processDep] at hok
  cases hsrc : lookupLoc st.locations (targetDependencyOf st l) with
  | none => rw [hsrc] at hok; exact absurd hok (by simp)
  | some src =>
    rw [hsrc] at hok
    dsimp only at hok
    refine ⟨src, rfl, ?_⟩
    have hcases := identSegs_len d.ident
    cases hex : extGet ext (identSegs d.ident) with
    | none =>
      rw [hex] at hok
      obtain ⟨e1, e2, e3, e4, e5, e6⟩ :=
        createLink_frame_spec (identSegs_ne_nil _) hcases hchain (fun q _ => rfl) hok
      exact ⟨e1, e2, e3, e4, e5, e6⟩
    | some obj =>
      rw [hex] at hok
      have hmemext := extGet_mem hex
      have hmid : ∀ q, ¬ leadsTo (nm ++ identSegs d.ident) q = true →
          getObj (removeTree fs (nm ++ identSegs d.ident)) q = getObj fs q := by
        intro q hq
        rw [getObj_removeTree, if_neg hq]
      cases obj with
      | dir =>
        obtain ⟨e1, e2, e3', e4, e5, e6⟩ := createLink_frame_spec (identSegs_ne_nil _)
          hcases hchain hmid hok
        exact ⟨e1, e2,
          fun q h1 h2 => (e3' q h1 h2).trans (hmid q h1),
          fun h => e4 (nodupKeys_removeTree h _),
          fun h => e5 (parentsClosed_removeTree h _), e6⟩
      | file c =>
        obtain ⟨e1, e2, e3', e4, e5, e6⟩ := createLink_frame_spec (identSegs_ne_nil _)
          hcases hchain hmid hok
        exact ⟨e1, e2,
          fun q h1 h2 => (e3' q h1 h2).trans (hmid q h1),
          fun h => e4 (nodupKeys_removeTree h _),
          fun h => e5 (parentsClosed_removeTree h _), e6⟩
      | symlink t0 =>
        cases hrl : readlink fs (nm ++ identSegs d.ident) with
        | error e => rw [hrl] at hok; exact absurd hok (by simp)
        | ok t =>
          rw [hrl] at hok
          dsimp only at hok
          by_cases ht : t = relSegs (nm ++ identSegs d.ident).dropLast src
          · rw [if_pos ht] at hok
            simp only [Except.ok.injEq, Prod.mk.injEq] at hok
            obtain ⟨rfl, rfl, rfl⟩ := hok
            refine ⟨rfl, ?_, fun q _ _ => rfl, fun h => h, fun h => h, ?_⟩
            · rw [← ht]
              exact readlink_ok_iff.mp hrl
            · intro hd c hkey
              have := hscopedir hd c (.symlink t0) hkey hmemext
              exact this
          · rw [if_neg ht] at hok
            obtain ⟨e1, e2, e3', e4, e5, e6⟩ := createLink_frame_spec (identSegs_ne_nil _)
              hcases hchain hmid hok
            exact ⟨e1, e2,
              fun q h1 h2 => (e3' q h1 h2).trans (hmid q h1),
              fun h => e4 (nodupKeys_removeTree h _),
              fun h => e5 (parentsClosed_removeTree h _), e6⟩

/-! ## Key-shape and path-disjointness helpers for the dependency loop -/

theorem leadsTo_append_iff (nm a b : Path) :
    leadsTo (nm ++ a) (nm ++ b) = true ↔ a <+: b := by
  rw [leadsTo_iff]
  exact List.prefix_append_right_inj nm

/-- A path at or above `nm` satisfies both frame conditions of a dependency
entry below `nm`. -/
theorem frame_conds_of_prefix {nm key q : Path} (hknil : ¬ key = []) (hq : q <+: nm) :
    ¬ leadsTo (nm ++ key) q = true ∧ ¬ q = nm ++ key.take 1 := by
  have hql := hq.length_le
  have hkl : 0 < key.length := List.length_pos.mpr hknil
  constructor
  · intro hl
    have h1 := (leadsTo_iff.mp hl).length_le
    rw [List.length_append] at h1
    omega
  · intro heq
    have h2 : q.length = nm.length + (key.take 1).length := by
      rw [heq, List.length_append]
    rw [List.length_take] at h2
    omega

theorem prefix_singleton_eq {l : Path} {n : Seg} (h : l <+: [n]) (hnil : ¬ l = []) :
    l = [n] := by
  refine h.eq_of_length ?_
  have h1 := h.length_le
  have h2 : 0 < l.length := List.length_pos.mpr hnil
  simp only [List.length_cons, List.length_nil] at h1 ⊢
  omega

theorem prefix_pair_cases {l : Path} {a b : Seg} (h : l <+: [a, b]) (hnil : ¬ l = []) :
    l = [a] ∨ l = [a, b] := by
  obtain ⟨t, ht⟩ := h
  cases l with
  | nil => exact absurd rfl hnil
  | cons x xs =>
    simp only [List.cons_append, List.cons.injEq] at ht
    obtain ⟨rfl, ht⟩ := ht
    cases xs with
    | nil => exact Or.inl rfl
    | cons y ys =>
      simp only [List.cons_append, List.cons.injEq] at ht
      obtain ⟨rfl, ht⟩ := ht
      obtain ⟨rfl, rfl⟩ := List.append_eq_nil.mp ht
      exact Or.inr rfl

theorem filter_filter_and {α : Type} (p q : α → Bool) (l : List α) :
    (l.filter p).filter q = l.filter (fun a => p a && q a) := by
  induction l with
  | nil => rfl
  | cons a t ih =>
    by_cases hp : p a
    · by_cases hq : q a <;> simp [List.filter_cons, hp, hq, ih]
    · simp [List.filter_cons, hp, ih]

theorem extDelete_filter (m : Extraneous) (k : EntKey) (ks : List EntKey) :
    (extDelete m k).filter (fun e => !(decide (e.1 ∈ ks))) =
      m.filter (fun e => !(decide (e.1 ∈ k :: ks))) := by
  rw [extDelete, filter_filter_and]
  refine List.filter_congr ?_
  intro e _
  by_cases h1 : e.1 = k <;> by_cases h2 : e.1 ∈ ks <;>
    simp [List.mem_cons, h1, h2]

/-- Full characterization of the per-dependency loop (lines 116-143): every
declared dependency ends as a symlink to its registered store path, the
extraneous map loses exactly the desired keys, and nothing outside the
dependency cones (and their scope directories) changes. -/
theorem foldDeps_spec {st : InstallerState} {nm : Path} {deps : List (Descriptor × Locator)}
    {fs : Fs} {ext : Extraneous} {log : Log} {fs' : Fs} {ext' : Extraneous} {log' : Log}
    (hok : foldDeps st nm deps fs ext log = .ok (fs', ext', log'))
    (hnd : nodupKeys fs)
    (hcl : parentsClosed fs)
    (hchain : ∀ q ∈ chainOf ([] : Path) nm, getObj fs q = some FsObj.dir)
    (hvalid : ∀ d ∈ deps, validIdent d.1.ident = true)
    (hnodup : (desiredKeys deps).Nodup)
    (hext : ∀ k o, (k, o) ∈ ext → getObj fs (nm ++ k) = some o)
    (hsh : ∀ k o, (k, o) ∈ ext →
      (∃ n, k = [n] ∧ startsWithChar n '.' = false ∧ startsWithChar n '@' = false) ∨
      (∃ n c, k = [n, c] ∧ startsWithChar n '@' = true ∧ startsWithChar n '.' = false ∧
        getObj fs (nm ++ [n]) = some FsObj.dir)) :
    nodupKeys fs' ∧ parentsClosed fs' ∧
    (∀ q ∈ chainOf ([] : Path) nm, getObj fs' q = some FsObj.dir) ∧
    (∀ d ∈ deps, ∃ src, lookupLoc st.locations (targetDependencyOf st d.2) = some src ∧
      getObj fs' (nm ++ identSegs d.1.ident) =
        some (.symlink (relSegs (nm ++ identSegs d.1.ident).dropLast src)) ∧
      (∀ hd c, identSegs d.1.ident = [hd, c] → getObj fs' (nm ++ [hd]) = some FsObj.dir)) ∧
    ext' = ext.filter (fun e => !(decide (e.1 ∈ desiredKeys deps))) ∧
    (∀ q, (∀ d ∈ deps, ¬ leadsTo (nm ++ identSegs d.1.ident) q = true ∧
        ¬ q = nm ++ (identSegs d.1.ident).take 1) →
      getObj fs' q = getObj fs q) ∧
    (∀ q, (∀ d ∈ deps, ¬ leadsTo (nm ++ identSegs d.1.ident) q = true) →
      getObj fs' q = getObj fs q ∨ getObj fs' q = some FsObj.dir) := by
  induction deps generalizing fs ext log with
  | nil =>
    rw [foldDeps] at hok
    simp only [Except.ok.injEq, Prod.mk.injEq] at hok
    obtain ⟨rfl, rfl, rfl⟩ := hok
    refine ⟨hnd, hcl, hchain, by simp, ?_, fun q _ => rfl, fun q _ => Or.inl rfl⟩
    have hall : ∀ e ∈ ext,
        (!(decide (e.1 ∈ desiredKeys ([] : List (Descriptor × Locator))))) = true := by
      intro e _
      simp [desiredKeys]
    exact (List.filter_eq_self.mpr hall).symm
  | cons dl rest ih =>
    obtain ⟨d, l⟩ := dl
    rw [foldDeps] at hok
    cases hpd : processDep st nm fs ext log d l with
    | error e => rw [hpd] at hok; exact absurd hok (by simp)
    | ok r =>
      rw [hpd] at hok
      obtain ⟨fs₁, ext₁, log₁⟩ := r
      dsimp only at hok
      have hvd : validIdent d.ident = true := hvalid (d, l) (List.mem_cons_self _ _)
      have hshape := identSegs_shape hvd
      have hknil : ¬ identSegs d.ident = [] := identSegs_ne_nil _
      have hnodup' := hnodup
      rw [show desiredKeys ((d, l) :: rest) = identSegs d.ident :: desiredKeys rest
        from rfl] at hnodup'
      have hknotin : ¬ identSegs d.ident ∈ desiredKeys rest := (List.nodup_cons.mp hnodup').1
      have hnodupR : (desiredKeys rest).Nodup := (List.nodup_cons.mp hnodup').2
      have hvalidR : ∀ e ∈ rest, validIdent e.1.ident = true :=
        fun e he => hvalid e (List.mem_cons_of_mem _ he)
      have hscopedir : ∀ hd c o, identSegs d.ident = [hd, c] →
          ((identSegs d.ident, o) ∈ ext) → getObj fs (nm ++ [hd]) = some FsObj.dir := by
        intro hd c o hkey hmem
        rcases hsh _ _ hmem with ⟨n, hn, _, _⟩ | ⟨n, c', hn, _, _, hdir⟩
        · rw [hkey] at hn
          simp at hn
        · rw [hkey] at hn
          simp only [List.cons.injEq, and_true] at hn
          obtain ⟨rfl, -⟩ := hn
          exact hdir
      obtain ⟨src, hsrc, hextEq, hsym, hframe, hndp, hclp, hscope⟩ :=
        processDep_spec hpd hchain hext hscopedir
      have hchain₁ : ∀ q ∈ chainOf ([] : Path) nm, getObj fs₁ q = some FsObj.dir := by
        intro q hq
        obtain ⟨hpre, hqn⟩ := mem_chainOf_nil_iff.mp hq
        obtain ⟨hc1, hc2⟩ := frame_conds_of_prefix hknil hpre
        rw [hframe q hc1 hc2]
        exact hchain q hq
      have hext₁ : ∀ k o, (k, o) ∈ ext₁ → getObj fs₁ (nm ++ k) = some o := by
        intro k o hm
        rw [hextEq] at hm
        obtain ⟨hmem, hne⟩ := mem_extDelete hm
        have hobj := hext k o hmem
        have hc1 : ¬ leadsTo (nm ++ identSegs d.ident) (nm ++ k) = true := by
          intro hl
          have hpre : identSegs d.ident <+: k := (leadsTo_append_iff nm _ _).mp hl
          rcases hsh k o hmem with ⟨n, hkn, _, hna⟩ | ⟨n, c, hkn, hna, _, _⟩
          · subst hkn
            exact hne (prefix_singleton_eq hpre hknil).symm
          · subst hkn
            rcases prefix_pair_cases hpre hknil with hk1 | hk2
            · rcases hshape with ⟨m, hm', _, hma, _⟩ | ⟨s, m, hm', _, _⟩
              · rw [hm'] at hk1
                have hmn : m = n := by simpa using hk1
                rw [hmn, hna] at hma
                exact absurd hma (by simp)
              · rw [hm'] at hk1
                simp at hk1
            · exact hne hk2.symm
        have hc2 : ¬ nm ++ k = nm ++ (identSegs d.ident).take 1 := by
          intro heq
          have hk := List.append_cancel_left heq
          rcases hshape with ⟨m, hm', _, _, _⟩ | ⟨s, m, hm', _, _⟩
          · rw [hm'] at hk
            have hk' : k = [m] := by simpa using hk
            refine hne ?_
            rw [hm', hk']
          · rw [hm'] at hk
            have hk' : k = ["@" ++ s] := by simpa using hk
            rcases hsh k o hmem with ⟨n, hn, _, hna⟩ | ⟨n, c, hn, _, _, _⟩
            · rw [hk'] at hn
              simp only [List.cons.injEq, and_true] at hn
              rw [← hn, startsWithChar_scope_at] at hna
              exact absurd hna (by simp)
            · rw [hk'] at hn
              simp at hn
        rw [hframe (nm ++ k) hc1 hc2]
        exact hobj
      have hsh₁ : ∀ k o, (k, o) ∈ ext₁ →
          (∃ n, k = [n] ∧ startsWithChar n '.' = false ∧ startsWithChar n '@' = false) ∨
          (∃ n c, k = [n, c] ∧ startsWithChar n '@' = true ∧ startsWithChar n '.' = false ∧
            getObj fs₁ (nm ++ [n]) = some FsObj.dir) := by
        intro k o hm
        rw [hextEq] at hm
        obtain ⟨hmem, hne⟩ := mem_extDelete hm
        rcases hsh k o hmem with ⟨n, hkn, hd1, hd2⟩ | ⟨n, c, hkn, ha, hd1, hdir⟩
        · exact Or.inl ⟨n, hkn, hd1, hd2⟩
        · refine Or.inr ⟨n, c, hkn, ha, hd1, ?_⟩
          by_cases hsc : (identSegs d.ident).take 1 = [n]
          · rcases hshape with ⟨m, hm', _, hma, _⟩ | ⟨s, m, hm', _, _⟩
            · rw [hm'] at hsc
              have hmn : m = n := by simpa using hsc
              rw [hmn, ha] at hma
              exact absurd hma (by simp)
            · have hdir₁ := hscope ("@" ++ s) m hm'
              rw [hm'] at hsc
              have hn : "@" ++ s = n := by simpa using hsc
              rw [hn] at hdir₁
              exact hdir₁
          · have hc1 : ¬ leadsTo (nm ++ identSegs d.ident) (nm ++ [n]) = true := by
              intro hl
              have hpre : identSegs d.ident <+: [n] := (leadsTo_append_iff nm _ _).mp hl
              have hk1 := prefix_singleton_eq hpre hknil
              rcases hshape with ⟨m, hm', _, hma, _⟩ | ⟨s, m, hm', _, _⟩
              · rw [hm'] at hk1
                have hmn : m = n := by simpa using hk1
                rw [hmn, ha] at hma
                exact absurd hma (by simp)
              · rw [hm'] at hk1
                simp at hk1
            have hc2 : ¬ nm ++ [n] = nm ++ (identSegs d.ident).take 1 := by
              intro heq
              exact hsc (List.append_cancel_left heq).symm
            rw [hframe (nm ++ [n]) hc1 hc2]
            exact hdir
      obtain ⟨i1, i2, i3, i4, i5, i6, i7⟩ :=
        ih hok (hndp hnd) (hclp hcl) hchain₁ hvalidR hnodupR hext₁ hsh₁
      refine ⟨i1, i2, i3, ?_, ?_, ?_, ?_⟩
      · intro d' hd'
        rcases List.mem_cons.mp hd' with rfl | hd''
        · show ∃ src', lookupLoc st.locations (targetDependencyOf st l) = some src' ∧
            getObj fs' (nm ++ identSegs d.ident) =
              some (FsObj.symlink (relSegs (nm ++ identSegs d.ident).dropLast src')) ∧
            (∀ hd c, identSegs d.ident = [hd, c] → getObj fs' (nm ++ [hd]) = some FsObj.dir)
          refine ⟨src, hsrc, ?_, ?_⟩
          · have hcond : ∀ e ∈ rest,
                ¬ leadsTo (nm ++ identSegs e.1.ident) (nm ++ identSegs d.ident) = true ∧
                ¬ nm ++ identSegs d.ident = nm ++ (identSegs e.1.ident).take 1 := by
              intro e he
              have hshapeE := identSegs_shape (hvalidR e he)
              have hkin : identSegs e.1.ident ∈ desiredKeys rest := by
                rw [desiredKeys]
                exact List.mem_map.mpr ⟨e, he, rfl⟩
              constructor
              · intro hl
                have hpre : identSegs e.1.ident <+: identSegs d.ident :=
                  (leadsTo_append_iff nm _ _).mp hl
                rcases hshape with ⟨m, hm', _, hma, _⟩ | ⟨s, m, hm', _, _⟩
                · rw [hm'] at hpre
                  have heq := prefix_singleton_eq hpre (identSegs_ne_nil _)
                  apply hknotin
                  rw [hm', ← heq]
                  exact hkin
                · rw [hm'] at hpre
                  rcases prefix_pair_cases hpre (identSegs_ne_nil _) with h1 | h1
                  · rcases hshapeE with ⟨m2, hm2, _, hma2, _⟩ | ⟨s2, m2, hm2, _, _⟩
                    · rw [hm2] at h1
                      have hm2s : m2 = "@" ++ s := by simpa using h1
                      rw [hm2s, startsWithChar_scope_at] at hma2
                      exact absurd hma2 (by simp)
                    · rw [hm2] at h1
                      simp at h1
                  · apply hknotin
                    rw [hm', ← h1]
                    exact hkin
              · intro heq
                have hk := List.append_cancel_left heq
                rcases hshapeE with ⟨m2, hm2, _, _, _⟩ | ⟨s2, m2, hm2, _, _⟩
                · rw [hm2] at hk
                  have hk' : identSegs d.ident = [m2] := by simpa using hk
                  apply hknotin
                  rw [hk', ← hm2]
                  exact hkin
                · rw [hm2] at hk
                  have hk' : identSegs d.ident = ["@" ++ s2] := by simpa using hk
                  rcases hshape with ⟨m, hm', _, hma, _⟩ | ⟨s, m, hm', _, _⟩
                  · rw [hm'] at hk'
                    simp only [List.cons.injEq, and_true] at hk'
                    rw [hk', startsWithChar_scope_at] at hma
                    exact absurd hma (by simp)
                  · rw [hm'] at hk'
                    simp at hk'
            have hkeep := i6 (nm ++ identSegs d.ident) hcond
            rw [hkeep]
            exact hsym
          · intro hd c hkey
            have hdir₁ := hscope hd c hkey
            rcases hshape with ⟨m, hm', _, _, _⟩ | ⟨s, m, hm', _, _⟩
            · rw [hm'] at hkey
              simp at hkey
            · rw [hm'] at hkey
              simp only [List.cons.injEq, and_true] at hkey
              obtain ⟨hhd, -⟩ := hkey
              have hcond2 : ∀ e ∈ rest,
                  ¬ leadsTo (nm ++ identSegs e.1.ident) (nm ++ [hd]) = true := by
                intro e he hl
                have hpre : identSegs e.1.ident <+: [hd] := (leadsTo_append_iff nm _ _).mp hl
                have h1 := prefix_singleton_eq hpre (identSegs_ne_nil _)
                rcases identSegs_shape (hvalidR e he) with
                    ⟨m2, hm2, _, hma2, _⟩ | ⟨s2, m2, hm2, _, _⟩
                · rw [hm2] at h1
                  have h2 : m2 = hd := by simpa using h1
                  rw [h2, ← hhd, startsWithChar_scope_at] at hma2
                  exact absurd hma2 (by simp)
                · rw [hm2] at h1
                  simp at h1
              rcases i7 (nm ++ [hd]) hcond2 with he | he
              · rw [he]
                exact hdir₁
              · exact he
        · exact i4 d' hd''
      · rw [i5, hextEq, extDelete_filter]
        rfl
      · intro q hq
        have hqh := hq (d, l) (List.mem_cons_self _ _)
        have hqr : ∀ e ∈ rest, ¬ leadsTo (nm ++ identSegs e.1.ident) q = true ∧
            ¬ q = nm ++ (identSegs e.1.ident).take 1 :=
          fun e he => hq e (List.mem_cons_of_mem _ he)
        rw [i6 q hqr]
        exact hframe q hqh.1 hqh.2
      · intro q hq
        have hqh := hq (d, l) (List.mem_cons_self _ _)
        have hqr : ∀ e ∈ rest, ¬ leadsTo (nm ++ identSegs e.1.ident) q = true :=
          fun e he => hq e (List.mem_cons_of_mem _ he)
        by_cases hqt : q = nm ++ (identSegs d.ident).take 1
        · rcases hshape with ⟨m, hm', _, _, _⟩ | ⟨s, m, hm', _, _⟩
          · exfalso
            apply hqh
            show leadsTo (nm ++ identSegs d.ident) q = true
            rw [hqt, hm']
            exact leadsTo_refl _
          · have hdir₁ : getObj fs₁ q = some FsObj.dir := by
              rw [hqt, hm']
              exact hscope ("@" ++ s) m hm'
            rcases i7 q hqr with he | he
            · exact Or.inr (he.trans hdir₁)
            · exact Or.inr he
        · have h1 : getObj fs₁ q = getObj fs q := hframe q hqh hqt
          rcases i7 q hqr with he | he
          · exact Or.inl (he.trans h1)
          · exact Or.inr he

/-! ## Extraneous-removal (lines 145-147) lemmas -/

theorem removeExtraneous_frame (nm : Path) (ext : Extraneous) (fs : Fs) (log : Log) (q : Path)
    (h : ∀ e ∈ ext, ¬ leadsTo (nm ++ e.1) q = true) :
    getObj (removeExtraneous nm ext fs log).1 q = getObj fs q := by
  induction ext generalizing fs log with
  | nil => rfl
  | cons e rest ih =>
    obtain ⟨k, o⟩ := e
    rw [removeExtraneous]
    rw [ih _ _ (fun e' he' => h e' (List.mem_cons_of_mem _ he'))]
    rw [getObj_removeTree, if_neg (h (k, o) (List.mem_cons_self _ _))]

theorem removeExtraneous_none (nm : Path) (ext : Extraneous) (fs : Fs) (log : Log) (q : Path)
    (h : getObj fs q = none) :
    getObj (removeExtraneous nm ext fs log).1 q = none := by
  induction ext generalizing fs log with
  | nil => exact h
  | cons e rest ih =>
    obtain ⟨k, o⟩ := e
    rw [removeExtraneous]
    refine ih _ _ ?_
    rw [getObj_removeTree]
    by_cases hl : leadsTo (nm ++ k) q = true
    · rw [if_pos hl]
    · rw [if_neg hl]
      exact h

/-- Every path below a remaining extraneous key is gone afterwards. -/
theorem removeExtraneous_kill (nm : Path) (ext : Extraneous) (fs : Fs) (log : Log) (q : Path)
    (h : ∃ e ∈ ext, leadsTo (nm ++ e.1) q = true) :
    getObj (removeExtraneous nm ext fs log).1 q = none := by
  induction ext generalizing fs log with
  | nil =>
    obtain ⟨e', he', -⟩ := h
    exact absurd he' (List.not_mem_nil _)
  | cons e rest ih =>
    obtain ⟨k, o⟩ := e
    rw [removeExtraneous]
    obtain ⟨e', he', hl⟩ := h
    rcases List.mem_cons.mp he' with rfl | hr
    · refine removeExtraneous_none _ _ _ _ _ ?_
      rw [getObj_removeTree, if_pos hl]
    · exact ih _ _ ⟨e', hr, hl⟩

theorem removeExtraneous_nodup {nm : Path} {ext : Extraneous} {fs : Fs} {log : Log}
    (h : nodupKeys fs) : nodupKeys (removeExtraneous nm ext fs log).1 := by
  induction ext generalizing fs log with
  | nil => exact h
  | cons e rest ih =>
    obtain ⟨k, o⟩ := e
    rw [removeExtraneous]
    exact ih (nodupKeys_removeTree h _)

theorem removeExtraneous_closed {nm : Path} {ext : Extraneous} {fs : Fs} {log : Log}
    (h : parentsClosed fs) : parentsClosed (removeExtraneous nm ext fs log).1 := by
  induction ext generalizing fs log with
  | nil => exact h
  | cons e rest ih =>
    obtain ⟨k, o⟩ := e
    rw [removeExtraneous]
    exact ih (parentsClosed_removeTree h _)

/-- The cleanup only appends reconcile-phase removals of extraneous paths to
the log. -/
theorem removeExtraneous_log (nm : Path) (ext : Extraneous) (fs : Fs) (log : Log) :
    ∃ tail, (removeExtraneous nm ext fs log).2 = log ++ tail ∧
      ∀ x ∈ tail, x.1 = Phase.reconcile ∧ ∃ e ∈ ext, x.2 = WriteOp.remove (nm ++ e.1) := by
  induction ext generalizing fs log with
  | nil =>
    exact ⟨[], (List.append_nil log).symm, fun x hx => absurd hx (List.not_mem_nil _)⟩
  | cons e rest ih =>
    obtain ⟨k, o⟩ := e
    rw [removeExtraneous]
    by_cases hp : (getObj fs (nm ++ k)).isSome = true
    · rw [if_pos hp]
      obtain ⟨tail, htail, hprop⟩ := ih (removeTree fs (nm ++ k))
        (log ++ [(Phase.reconcile, WriteOp.remove (nm ++ k))])
      refine ⟨(Phase.reconcile, WriteOp.remove (nm ++ k)) :: tail, ?_, ?_⟩
      · rw [htail, List.append_assoc]
        rfl
      · intro x hx
        rcases List.mem_cons.mp hx with rfl | hx'
        · exact ⟨rfl, (k, o), List.mem_cons_self _ _, rfl⟩
        · obtain ⟨h1, e', he', h2⟩ := hprop x hx'
          exact ⟨h1, e', List.mem_cons_of_mem _ he', h2⟩
    · rw [if_neg hp]
      obtain ⟨tail, htail, hprop⟩ := ih (removeTree fs (nm ++ k)) log
      refine ⟨tail, htail, ?_⟩
      intro x hx
      obtain ⟨h1, e', he', h2⟩ := hprop x hx
      exact ⟨h1, e', List.mem_cons_of_mem _ he', h2⟩

/-! ## Relative-path resolution round trip -/

theorem dropCommon_spec (a b : Path) :
    ∃ c, a = c ++ (dropCommon a b).1 ∧ b = c ++ (dropCommon a b).2 := by
  induction a generalizing b with
  | nil => exact ⟨[], rfl, rfl⟩
  | cons x xs ih =>
    cases b with
    | nil => exact ⟨[], rfl, rfl⟩
    | cons y ys =>
      by_cases hxy : x = y
      · subst hxy
        have hd : dropCommon (x :: xs) (x :: ys) = dropCommon xs ys := by
          rw [dropCommon, if_pos rfl]
        obtain ⟨c, h1, h2⟩ := ih ys
        refine ⟨x :: c, ?_, ?_⟩
        · rw [hd, List.cons_append, ← h1]
        · rw [hd, List.cons_append, ← h2]
      · have hd : dropCommon (x :: xs) (y :: ys) = (x :: xs, y :: ys) := by
          rw [dropCommon, if_neg hxy]
        refine ⟨[], ?_, ?_⟩
        · rw [hd]
          rfl
        · rw [hd]
          rfl

theorem resolveRel_ups (n : Nat) (base : Path) (rest : List Seg) :
    resolveRel base (List.replicate n ".." ++ rest) =
      resolveRel (base.take (base.length - n)) rest := by
  induction n generalizing base with
  | zero => simp
  | succ m ih =>
    rw [List.replicate_succ, List.cons_append, resolveRel, if_pos rfl, ih]
    congr 1
    rw [List.length_dropLast, List.dropLast_eq_take, List.take_take]
    congr 1
    omega

theorem resolveRel_concat (base : Path) (rest : List Seg)
    (h : ∀ s ∈ rest, ¬ s = "..") :
    resolveRel base rest = base ++ rest := by
  induction rest generalizing base with
  | nil => simp [resolveRel]
  | cons s t ih =>
    rw [resolveRel, if_neg (h s (List.mem_cons_self _ _)),
      ih _ (fun s' hs' => h s' (List.mem_cons_of_mem _ hs'))]
    simp

/-- The relative target written for a symlink resolves back to the absolute
source path (when the source path has no `".."` segments). -/
theorem resolveRel_relSegs (src dst : Path) (h : wfPath dst = true) :
    resolveRel src (relSegs src dst) = dst := by
  obtain ⟨c, h1, h2⟩ := dropCommon_spec src dst
  rw [relSegs, resolveRel_ups]
  have hlen : src.length - (dropCommon src dst).1.length = c.length := by
    have := congrArg List.length h1
    rw [List.length_append] at this
    omega
  rw [hlen]
  have htake : src.take c.length = c := by
    rw [h1]
    exact List.take_left c _
  rw [htake, resolveRel_concat]
  · exact h2.symm
  · intro s hs
    have hmem : s ∈ dst := by
      rw [h2]
      exact List.mem_append_right _ hs
    have hall := List.all_eq_true.mp h s hmem
    simpa using hall

theorem prefix_key_cases {a b : EntKey}
    (hb : (∃ n, b = [n]) ∨ (∃ n c, b = [n, c]))
    (hpre : a <+: b) (hanil : ¬ a = []) :
    a = b ∨ (∃ n c, a = [n] ∧ b = [n, c]) := by
  rcases hb with ⟨n, rfl⟩ | ⟨n, c, rfl⟩
  · exact Or.inl (prefix_singleton_eq hpre hanil)
  · rcases prefix_pair_cases hpre hanil with h | h
    · exact Or.inr ⟨n, c, h, rfl⟩
    · exact Or.inl h

theorem length_lt_of_get? {l : List Seg} {n : Nat} {s : Seg} (h : l.get? n = some s) :
    n < l.length := by
  obtain ⟨hlt, -⟩ := List.get?_eq_some.mp h
  exact hlt

/-- A path that enters `nm` through a dot-named entry satisfies the frame
conditions of every entry key whose head is not dot-named. -/
theorem dot_path_conds {nm : Path} {hd : Seg} {tl : List Seg} {q : Path} {s : Seg}
    (hhd : startsWithChar hd '.' = false)
    (hq : q.get? nm.length = some s) (hs : startsWithChar s '.' = true) :
    ¬ leadsTo (nm ++ hd :: tl) q = true ∧ ¬ q = nm ++ (hd :: tl).take 1 := by
  have hne : ¬ hd = s := by
    intro heq
    rw [heq, hs] at hhd
    exact absurd hhd (by simp)
  constructor
  · intro hl
    obtain ⟨t, ht⟩ := leadsTo_iff.mp hl
    rw [← ht, List.append_assoc, List.get?_append_right (le_refl _)] at hq
    simp only [Nat.sub_self, List.get?, Option.some_inj] at hq
    exact hne hq
  · intro heq
    rw [heq, List.get?_append_right (le_refl _)] at hq
    simp only [Nat.sub_self, List.take, List.get?, Option.some_inj] at hq
    exact hne hq

/-- Full characterization of a compatible dependent's reconciliation
(lines 86-148): the dependent must be registered; afterwards the dependency
directory holds a symlink for every declared dependency, every surviving
(non-dot) entry is a declared one, nothing outside the dependency directory
changes except newly created parent directories, and dot-named subtrees are
untouched. -/
theorem reconcileDependent_spec {st : InstallerState} {fs : Fs} {loc : Locator}
    {deps : List (Descriptor × Locator)} {fs' : Fs} {log' : Log}
    (hok : reconcileDependent st fs loc deps = .ok (fs', log'))
    (hcompat : isPnpmVirtualCompatible st loc = true)
    (hnd : nodupKeys fs) (hcl : parentsClosed fs)
    (hvalid : ∀ d ∈ deps, validIdent d.1.ident = true)
    (hnodup : (desiredKeys deps).Nodup) :
    ∃ pkgPath, lookupLoc st.locations loc = some pkgPath ∧
      (nodupKeys fs' ∧ parentsClosed fs' ∧
       (∀ q ∈ chainOf ([] : Path) (pkgPath ++ ["node_modules"]),
         getObj fs' q = some FsObj.dir) ∧
       (∀ d ∈ deps, ∃ src, lookupLoc st.locations (targetDependencyOf st d.2) = some src ∧
         getObj fs' (pkgPath ++ ["node_modules"] ++ identSegs d.1.ident) =
           some (.symlink
             (relSegs (pkgPath ++ ["node_modules"] ++ identSegs d.1.ident).dropLast src)) ∧
         (∀ hd c, identSegs d.1.ident = [hd, c] →
           getObj fs' (pkgPath ++ ["node_modules"] ++ [hd]) = some FsObj.dir)) ∧
       (∀ n o, getObj fs' (pkgPath ++ ["node_modules"] ++ [n]) = some o →
         startsWithChar n '.' = false →
         (startsWithChar n '@' = false → [n] ∈ desiredKeys deps) ∧
         (startsWithChar n '@' = true → o = FsObj.dir ∧
           ∀ c o', getObj fs' (pkgPath ++ ["node_modules"] ++ [n, c]) = some o' →
             [n, c] ∈ desiredKeys deps)) ∧
       (∀ q, ¬ leadsTo (pkgPath ++ ["node_modules"]) q = true →
         (getObj fs' q = getObj fs q ∨
          (q ∈ chainOf ([] : Path) (pkgPath ++ ["node_modules"]) ∧ getObj fs q = none ∧
            getObj fs' q = some FsObj.dir))) ∧
       (∀ q s, q.get? (pkgPath ++ ["node_modules"]).length = some s →
         startsWithChar s '.' = true → getObj fs' q = getObj fs q)) := by
  rw [reconcileDependent, hcompat] at hok
  rw [if_neg (by simp)] at hok
  cases hlook : lookupLoc st.locations loc with
  | none => rw [hlook] at hok; exact absurd hok (by simp)
  | some pkgPath =>
    rw [hlook] at hok
    dsimp only at hok
    refine ⟨pkgPath, rfl, ?_⟩
    set nm := pkgPath ++ ["node_modules"] with hnmdef
    cases hmk : mkdirp fs nm with
    | error e => rw [hmk] at hok; exact absurd hok (by simp)
    | ok r =>
      rw [hmk] at hok
      obtain ⟨fs₀, created⟩ := r
      dsimp only at hok
      cases hbe : buildExtraneous (readdirEnts fs₀ nm)
          (fun n => readdirEnts fs₀ (nm ++ [n])) with
      | error e => rw [hbe] at hok; exact absurd hok (by simp)
      | ok ext =>
        rw [hbe] at hok
        dsimp only at hok
        cases hfd : foldDeps st nm deps fs₀ ext
            (created.map (fun p => (Phase.reconcile, WriteOp.mkdir p))) with
        | error e => rw [hfd] at hok; exact absurd hok (by simp)
        | ok r₂ =>
          rw [hfd] at hok
          obtain ⟨fs₂, ext₂, log₂⟩ := r₂
          dsimp only at hok
          simp only [Except.ok.injEq] at hok
          rw [Prod.ext_iff] at hok
          obtain ⟨hfs, hlg⟩ := hok
          subst hfs
          rw [mkdirp] at hmk
          obtain ⟨m1, m2, m3, m4⟩ := mkdirpGo_spec hmk
          have hnd₀ : nodupKeys fs₀ := nodupKeys_mkdirpGo hnd hmk
          have hcl₀ : parentsClosed fs₀ := parentsClosed_mkdirpGo hcl (by simp) hmk
          have hfacts := buildExtraneous_fs_facts hnd₀ hbe
          have hnmdir : getObj fs₀ nm = some FsObj.dir :=
            m4 nm (mem_chainOf_nil_iff.mpr ⟨List.prefix_refl _, by simp [hnmdef]⟩)
          obtain ⟨f1, f2, f3, f4, f5, f6, f7⟩ := foldDeps_spec hfd hnd₀ hcl₀ m4 hvalid hnodup
            (fun k o hk => (hfacts k o hk).1)
            (fun k o hk => (hfacts k o hk).2)
          have hmem₂ : ∀ e ∈ ext₂, e ∈ ext ∧ ¬ e.1 ∈ desiredKeys deps := by
            intro e he
            rw [f5] at he
            have h1 := List.mem_of_mem_filter he
            have h2 := List.of_mem_filter he
            simp only [Bool.not_eq_true', decide_eq_false_iff_not] at h2
            exact ⟨h1, h2⟩
          have hshape₂ : ∀ e ∈ ext₂,
              (∃ n, e.1 = [n] ∧ startsWithChar n '.' = false ∧
                startsWithChar n '@' = false) ∨
              (∃ n c, e.1 = [n, c] ∧ startsWithChar n '@' = true ∧
                startsWithChar n '.' = false ∧
                getObj fs₀ (nm ++ [n]) = some FsObj.dir) := by
            intro e he
            exact (hfacts e.1 e.2 (hmem₂ e he).1).2
          have henil : ∀ e ∈ ext₂, ¬ e.1 = [] := by
            intro e he
            rcases hshape₂ e he with ⟨n, hk, -, -⟩ | ⟨n, c, hk, -, -, -⟩ <;> simp [hk]
          have hmain : ∀ (k : EntKey),
              ((∃ n, k = [n] ∧ startsWithChar n '@' = false) ∨
               (∃ n c, k = [n, c] ∧ startsWithChar n '@' = true)) →
              ¬ k ∈ desiredKeys deps →
              ∀ d ∈ deps, ¬ leadsTo (nm ++ identSegs d.1.ident) (nm ++ k) = true ∧
                ¬ nm ++ k = nm ++ (identSegs d.1.ident).take 1 := by
            intro k hksh hknot d hd
            have hkin : identSegs d.1.ident ∈ desiredKeys deps :=
              List.mem_map.mpr ⟨d, hd, rfl⟩
            have hdnil := identSegs_ne_nil d.1.ident
            constructor
            · intro hl
              have hpre : identSegs d.1.ident <+: k := (leadsTo_append_iff _ _ _).mp hl
              have hkshape : (∃ n, k = [n]) ∨ (∃ n c, k = [n, c]) := by
                rcases hksh with ⟨n, hk, -⟩ | ⟨n, c, hk, -⟩
                exacts [Or.inl ⟨n, hk⟩, Or.inr ⟨n, c, hk⟩]
              rcases prefix_key_cases hkshape hpre hdnil with heq | ⟨n, c, hd1, hk1⟩
              · exact hknot (heq ▸ hkin)
              · rcases hksh with ⟨n', hk', -⟩ | ⟨n', c', hk', hat'⟩
                · rw [hk1] at hk'
                  simp at hk'
                · rw [hk1] at hk'
                  simp only [List.cons.injEq, and_true] at hk'
                  obtain ⟨rfl, -⟩ := hk'
                  rcases identSegs_shape (hvalid d hd) with
                      ⟨m, hm', _, hma, _⟩ | ⟨s, m, hm', _, _⟩
                  · rw [hm'] at hd1
                    simp only [List.cons.injEq, and_true] at hd1
                    rw [hd1, hat'] at hma
                    exact absurd hma (by simp)
                  · rw [hm'] at hd1
                    simp at hd1
            · intro heq
              have hk := List.append_cancel_left heq
              rcases identSegs_shape (hvalid d hd) with
                  ⟨m, hm', _, hma, _⟩ | ⟨s, m, hm', _, _⟩
              · rw [hm'] at hk
                have hk' : k = [m] := by simpa using hk
                apply hknot
                rw [hk', ← hm']
                exact hkin
              · rw [hm'] at hk
                have hk' : k = ["@" ++ s] := by simpa using hk
                rcases hksh with ⟨n, hkn, hat⟩ | ⟨n, c, hkn, -⟩
                · rw [hkn] at hk'
                  simp only [List.cons.injEq, and_true] at hk'
                  rw [hk', startsWithChar_scope_at] at hat
                  exact absurd hat (by simp)
                · rw [hkn] at hk'
                  simp at hk'
          have hcover₂ : ∀ e ∈ ext₂, ∀ d ∈ deps,
              ¬ leadsTo (nm ++ e.1) (nm ++ identSegs d.1.ident) = true ∧
              (∀ hd c, identSegs d.1.ident = [hd, c] →
                ¬ leadsTo (nm ++ e.1) (nm ++ [hd]) = true) := by
            intro e he d hd
            obtain ⟨-, hnotdes⟩ := hmem₂ e he
            have hkin : identSegs d.1.ident ∈ desiredKeys deps :=
              List.mem_map.mpr ⟨d, hd, rfl⟩
            have hen := henil e he
            constructor
            · intro hl
              have hpre : e.1 <+: identSegs d.1.ident := (leadsTo_append_iff _ _ _).mp hl
              have hdshape : (∃ n, identSegs d.1.ident = [n]) ∨
                  (∃ n c, identSegs d.1.ident = [n, c]) := by
                rcases identSegs_shape (hvalid d hd) with ⟨m, hm', _⟩ | ⟨s, m, hm', _⟩
                exacts [Or.inl ⟨m, hm'⟩, Or.inr ⟨"@" ++ s, m, hm'⟩]
              rcases prefix_key_cases hdshape hpre hen with heq | ⟨n, c, he1, hd1⟩
              · exact hnotdes (by rw [heq]; exact hkin)
              · rcases hshape₂ e he with ⟨n', hk', -, hat'⟩ | ⟨n', c', hk', -, -, -⟩
                · rw [he1] at hk'
                  simp only [List.cons.injEq, and_true] at hk'
                  rcases identSegs_shape (hvalid d hd) with
                      ⟨m, hm', _, _, _⟩ | ⟨s, m, hm', _, _⟩
                  · rw [hm'] at hd1
                    simp at hd1
                  · rw [hm'] at hd1
                    simp only [List.cons.injEq, and_true] at hd1
                    obtain ⟨h1, -⟩ := hd1
                    rw [← hk', ← h1, startsWithChar_scope_at] at hat'
                    exact absurd hat' (by simp)
                · rw [he1] at hk'
                  simp at hk'
            · intro hd' c' hkey hl
              have hpre : e.1 <+: [hd'] := (leadsTo_append_iff _ _ _).mp hl
              have he1 : e.1 = [hd'] := prefix_singleton_eq hpre hen
              rcases identSegs_shape (hvalid d hd) with
                  ⟨m, hm', _, _, _⟩ | ⟨s, m, hm', _, _⟩
              · rw [hm'] at hkey
                simp at hkey
              · rw [hm'] at hkey
                simp only [List.cons.injEq, and_true] at hkey
                obtain ⟨h1, -⟩ := hkey
                rcases hshape₂ e he with ⟨n', hk', -, hat'⟩ | ⟨n', c', hk', -, -, -⟩
                · rw [he1] at hk'
                  simp only [List.cons.injEq, and_true] at hk'
                  rw [← hk', ← h1, startsWithChar_scope_at] at hat'
                  exact absurd hat' (by simp)
                · rw [he1] at hk'
                  simp at hk'
          refine ⟨removeExtraneous_nodup f1, removeExtraneous_closed f2, ?_, ?_, ?_, ?_, ?_⟩
          · intro q hq
            obtain ⟨hpre, -⟩ := mem_chainOf_nil_iff.mp hq
            have hfr := removeExtraneous_frame nm ext₂ fs₂ log₂ q (by
              intro e he hl
              have h1 := (leadsTo_iff.mp hl).length_le
              have h2 := hpre.length_le
              have h3 : 0 < e.1.length := by
                rcases hshape₂ e he with ⟨n, hk, -, -⟩ | ⟨n, c, hk, -, -, -⟩ <;> simp [hk]
              rw [List.length_append] at h1
              omega)
            rw [hfr]
            exact f3 q hq
          · intro d hd
            obtain ⟨src, hsrc, hsym, hscope⟩ := f4 d hd
            refine ⟨src, hsrc, ?_, ?_⟩
            · rw [removeExtraneous_frame nm ext₂ fs₂ log₂ _
                (fun e he => (hcover₂ e he d hd).1)]
              exact hsym
            · intro hd' c hkey
              rw [removeExtraneous_frame nm ext₂ fs₂ log₂ _
                (fun e he => (hcover₂ e he d hd).2 hd' c hkey)]
              exact hscope hd' c hkey
          · intro n o hno hdot
            have hchild : startsWithChar n '@' = true →
                ∀ c o', getObj (removeExtraneous nm ext₂ fs₂ log₂).1 (nm ++ [n, c]) = some o' →
                [n, c] ∈ desiredKeys deps := by
              intro hat c o' hco
              by_contra hnotin2
              by_cases hcov2 : ∃ e ∈ ext₂, leadsTo (nm ++ e.1) (nm ++ [n, c]) = true
              · have hk := removeExtraneous_kill nm ext₂ fs₂ log₂ _ hcov2
                rw [hk] at hco
                exact absurd hco (by simp)
              · have hfr := removeExtraneous_frame nm ext₂ fs₂ log₂ _
                  (fun e he hl => hcov2 ⟨e, he, hl⟩)
                rw [hfr, f6 _ (hmain [n, c] (Or.inr ⟨n, c, rfl, hat⟩) hnotin2)] at hco
                have hpdir : getObj fs₀ (nm ++ [n]) = some FsObj.dir := by
                  refine hcl₀ _ _ hco (nm ++ [n]) ⟨[c], by simp⟩ ?_ (by simp [hnmdef])
                  intro h
                  have := List.append_cancel_left h
                  simp at this
                have hcomp := buildExtraneous_fs_complete hnd₀ hnmdir hbe n FsObj.dir
                  hpdir hdot
                have hmemext : ([n, c], o') ∈ ext := (hcomp.2 hat).2 c o' hco
                refine hcov2 ⟨([n, c], o'), ?_, leadsTo_refl _⟩
                rw [f5]
                refine List.mem_filter.mpr ⟨hmemext, ?_⟩
                simpa using hnotin2
            constructor
            · intro hat
              by_contra hnotin
              by_cases hcov : ∃ e ∈ ext₂, leadsTo (nm ++ e.1) (nm ++ [n]) = true
              · have hk := removeExtraneous_kill nm ext₂ fs₂ log₂ _ hcov
                rw [hk] at hno
                exact absurd hno (by simp)
              · have hfr := removeExtraneous_frame nm ext₂ fs₂ log₂ _
                  (fun e he hl => hcov ⟨e, he, hl⟩)
                rw [hfr, f6 _ (hmain [n] (Or.inl ⟨n, rfl, hat⟩) hnotin)] at hno
                have hcomp := buildExtraneous_fs_complete hnd₀ hnmdir hbe n o hno hdot
                have hmemext : ([n], o) ∈ ext := hcomp.1 hat
                refine hcov ⟨([n], o), ?_, leadsTo_refl _⟩
                rw [f5]
                refine List.mem_filter.mpr ⟨hmemext, ?_⟩
                simpa using hnotin
            · intro hat
              refine ⟨?_, hchild hat⟩
              by_cases hcov : ∃ e ∈ ext₂, leadsTo (nm ++ e.1) (nm ++ [n]) = true
              · have hk := removeExtraneous_kill nm ext₂ fs₂ log₂ _ hcov
                rw [hk] at hno
                exact absurd hno (by simp)
              · have hfr := removeExtraneous_frame nm ext₂ fs₂ log₂ _
                  (fun e he hl => hcov ⟨e, he, hl⟩)
                rw [hfr] at hno
                have hcond7 : ∀ d ∈ deps,
                    ¬ leadsTo (nm ++ identSegs d.1.ident) (nm ++ [n]) = true := by
                  intro d hd hl
                  have hpre : identSegs d.1.ident <+: [n] :=
                    (leadsTo_append_iff _ _ _).mp hl
                  have h1 := prefix_singleton_eq hpre (identSegs_ne_nil _)
                  rcases identSegs_shape (hvalid d hd) with
                      ⟨m, hm', _, hma, _⟩ | ⟨s, m, hm', _, _⟩
                  · rw [hm'] at h1
                    simp only [List.cons.injEq, and_true] at h1
                    rw [h1, hat] at hma
                    exact absurd hma (by simp)
                  · rw [hm'] at h1
                    simp at h1
                rcases f7 (nm ++ [n]) hcond7 with he | he
                · rw [he] at hno
                  have hcomp := buildExtraneous_fs_complete hnd₀ hnmdir hbe n o hno hdot
                  exact ((hcomp.2 hat).1)
                · exact Option.some_inj.mp (hno.symm.trans he)
          · intro q hnl
            have hre : ∀ e ∈ ext₂, ¬ leadsTo (nm ++ e.1) q = true := by
              intro e he hl
              apply hnl
              exact leadsTo_iff.mpr
                (List.IsPrefix.trans (List.prefix_append _ _) (leadsTo_iff.mp hl))
            have hcond : ∀ d ∈ deps, ¬ leadsTo (nm ++ identSegs d.1.ident) q = true ∧
                ¬ q = nm ++ (identSegs d.1.ident).take 1 := by
              intro d hd
              constructor
              · intro hl
                apply hnl
                exact leadsTo_iff.mpr
                  (List.IsPrefix.trans (List.prefix_append _ _) (leadsTo_iff.mp hl))
              · intro heq
                apply hnl
                rw [heq]
                exact leadsTo_iff.mpr (List.prefix_append _ _)
            rw [removeExtraneous_frame nm ext₂ fs₂ log₂ q hre, f6 q hcond]
            by_cases hc : q ∈ created
            · exact Or.inr ⟨m1 hc, m2 q hc, m4 q (m1 hc)⟩
            · exact Or.inl (m3 q hc)
          · intro q s hq hs
            have hlt := length_lt_of_get? hq
            have hre : ∀ e ∈ ext₂, ¬ leadsTo (nm ++ e.1) q = true := by
              intro e he
              rcases hshape₂ e he with ⟨n, hk, hdot', -⟩ | ⟨n, c, hk, -, hdot', -⟩
              · rw [hk]
                exact (dot_path_conds hdot' hq hs).1
              · rw [hk]
                exact (dot_path_conds hdot' hq hs).1
            have hcond : ∀ d ∈ deps, ¬ leadsTo (nm ++ identSegs d.1.ident) q = true ∧
                ¬ q = nm ++ (identSegs d.1.ident).take 1 := by
              intro d hd
              rcases identSegs_shape (hvalid d hd) with
                  ⟨m, hm', hmd, -, -⟩ | ⟨s2, m, hm', -, hsd⟩
              · rw [hm']
                exact dot_path_conds hmd hq hs
              · rw [hm']
                exact dot_path_conds hsd hq hs
            have hnc : ¬ q ∈ created := by
              intro hc
              have := (mem_chainOf_nil_iff.mp (m1 hc)).1.length_le
              omega
            rw [removeExtraneous_frame nm ext₂ fs₂ log₂ q hre, f6 q hcond, m3 q hnc]

/-! ## Barrier and lookup support lemmas -/

theorem awaitPendingCopies_inv {st : InstallerState} {fs : Fs} {st₁ : InstallerState}
    {fs₁ : Fs} {lg : Log} (h : awaitPendingCopies st fs = .ok (st₁, fs₁, lg)) :
    st₁.locations = st.locations ∧ st₁.opts = st.opts ∧ st₁.copiesDone = true ∧
    (nodupKeys fs → nodupKeys fs₁) ∧
    ((∀ t ∈ st.pendingCopies, ∀ f ∈ t.files, ¬ f.1 = []) →
      parentsClosed fs → parentsClosed fs₁) := by
  rw [awaitPendingCopies] at h
  by_cases hflag : st.copiesDone = true
  · rw [if_pos hflag] at h
    simp only [Except.ok.injEq, Prod.mk.injEq] at h
    obtain ⟨rfl, rfl, rfl⟩ := h
    exact ⟨rfl, rfl, hflag, fun h => h, fun _ h => h⟩
  · rw [if_neg hflag] at h
    cases hrt : runTasks fs st.pendingCopies with
    | error e => rw [hrt] at h; exact absurd h (by simp)
    | ok r =>
      rw [hrt] at h
      obtain ⟨fs₂, w⟩ := r
      dsimp only at h
      simp only [Except.ok.injEq, Prod.mk.injEq] at h
      obtain ⟨rfl, rfl, rfl⟩ := h
      obtain ⟨c1, c2, c3, c4, c5⟩ := runTasks_spec hrt
      exact ⟨rfl, rfl, rfl, c4, fun hf hcl => c5 hf hcl⟩

theorem lookupLoc_mem {m : List (Locator × Path)} {l : Locator} {p : Path}
    (h : lookupLoc m l = some p) : ∃ l', (l', p) ∈ m := by
  rw [lookupLoc] at h
  cases hf : m.find? (fun e => decide (e.1 = l)) with
  | none => rw [hf] at h; simp at h
  | some e =>
    rw [hf] at h
    simp only [Option.map_some', Option.some_inj] at h
    have hmem := List.mem_of_find?_eq_some hf
    exact ⟨e.1, by rw [← h]; exact hmem⟩

theorem extGet_some_of_mem {m : Extraneous} {k : EntKey} {o : FsObj}
    (h : (k, o) ∈ m) : ∃ o', extGet m k = some o' ∧ (k, o') ∈ m := by
  induction m with
  | nil => simp at h
  | cons e rest ih =>
    rcases List.mem_cons.mp h with heq | hmem
    · refine ⟨o, ?_, h⟩
      rw [extGet, ← heq, List.find?_cons_of_pos _ (by simp)]
      rfl
    · by_cases hek : e.1 = k
      · refine ⟨e.2, ?_, ?_⟩
        · rw [extGet, List.find?_cons_of_pos _ (by simpa using hek)]
          rfl
        · rw [← hek]
          exact List.mem_cons_self _ _
      · obtain ⟨o', ho', hm'⟩ := ih hmem
        refine ⟨o', ?_, List.mem_cons_of_mem _ hm'⟩
        rw [extGet, List.find?_cons_of_neg _ (by simpa using hek)]
        exact ho'

theorem extGet_extDelete_ne {m : Extraneous} {k k' : EntKey} (h : ¬ k' = k) :
    extGet (extDelete m k) k' = extGet m k' := by
  induction m with
  | nil => rfl
  | cons e rest ih =>
    by_cases hek : e.1 = k
    · have h1 : extDelete (e :: rest) k = extDelete rest k := by
        rw [extDelete, extDelete, List.filter_cons_of_neg (by simpa using hek)]
      have h2 : extGet (e :: rest) k' = extGet rest k' := by
        rw [extGet, extGet, List.find?_cons_of_neg]
        simp only [decide_eq_true_eq]
        intro hc
        exact h (by rw [← hc, hek])
      rw [h1, h2]
      exact ih
    · have h1 : extDelete (e :: rest) k = e :: extDelete rest k := by
        rw [extDelete, extDelete, List.filter_cons_of_pos (by simpa using hek)]
      by_cases hek' : e.1 = k'
      · rw [h1, extGet, extGet,
          List.find?_cons_of_pos _ (by simpa using hek'),
          List.find?_cons_of_pos _ (by simpa using hek')]
      · rw [h1, extGet, extGet,
          List.find?_cons_of_neg _ (by simpa using hek'),
          List.find?_cons_of_neg _ (by simpa using hek')]
        exact ih

/-- The directory walk never stops with an error when every non-dot
`@`-entry's listing succeeds. -/
theorem expandEntries_ok {sub : Seg → Except FsErrorCode (List (Seg × FsObj))}
    {entries : List (Seg × FsObj)} (acc : Extraneous)
    (h : ∀ n o, (n, o) ∈ entries → startsWithChar n '.' = false →
      startsWithChar n '@' = true → ∃ ch, sub n = .ok ch) :
    (expandEntries sub entries acc).2 = none := by
  induction entries generalizing acc with
  | nil => rfl
  | cons ent rest ih =>
    obtain ⟨name, obj⟩ := ent
    cases hdot : startsWithChar name '.' with
    | true =>
      rw [expandEntries_cons_dot hdot]
      exact ih _ (fun n o hm => h n o (List.mem_cons_of_mem _ hm))
    | false =>
      cases hat : startsWithChar name '@' with
      | true =>
        obtain ⟨ch, hch⟩ := h name obj (List.mem_cons_self _ _) hdot hat
        rw [expandEntries_cons_scope_ok hdot hat hch]
        exact ih _ (fun n o hm => h n o (List.mem_cons_of_mem _ hm))
      | false =>
        rw [expandEntries_cons_plain hdot hat]
        exact ih _ (fun n o hm => h n o (List.mem_cons_of_mem _ hm))

theorem dotSafeUnder_prefix {nmP p q : Path} (h : dotSafeUnder nmP p = true)
    (hpre : q <+: p) : dotSafeUnder nmP q = true := by
  rw [dotSafeUnder] at h ⊢
  by_cases hl : leadsTo nmP q = true
  · have hq1 := (leadsTo_iff.mp hl).length_le
    by_cases hlen : q.length = nmP.length
    · simp [hlen]
    · have hlt : nmP.length < q.length := by omega
      have hlp : leadsTo nmP p = true :=
        leadsTo_iff.mpr ((leadsTo_iff.mp hl).trans hpre)
      have hplen : ¬ p.length = nmP.length := by
        have := hpre.length_le
        omega
      simp only [Bool.or_eq_true, Bool.not_eq_true', decide_eq_true_eq] at h
      rcases h with (h | h) | h
      · rw [hlp] at h
        exact absurd h (by simp)
      · exact absurd h hplen
      · obtain ⟨t, rfl⟩ := hpre
        rw [List.get?_append hlt] at h
        simp only [Bool.or_eq_true]
        exact Or.inr h
  · simp only [Bool.or_eq_true, Bool.not_eq_true']
    exact Or.inl (Or.inl (by simpa using hl))

/-! ## Registration is checked for every processed dependency -/

theorem foldDeps_lookups {st : InstallerState} {nm : Path} {deps : List (Descriptor × Locator)}
    {fs : Fs} {ext : Extraneous} {log : Log} {r : Fs × Extraneous × Log}
    (hok : foldDeps st nm deps fs ext log = .ok r) :
    ∀ d ∈ deps, (lookupLoc st.locations (targetDependencyOf st d.2)).isSome = true := by
  induction deps generalizing fs ext log with
  | nil =>
    intro d hd
    exact absurd hd (List.not_mem_nil _)
  | cons dl rest ih =>
    obtain ⟨d, l⟩ := dl
    rw [foldDeps] at hok
    cases hpd : processDep st nm fs ext log d l with
    | error e => rw [hpd] at hok; exact absurd hok (by simp)
    | ok r₁ =>
      rw [hpd] at hok
      obtain ⟨fs₁, ext₁, log₁⟩ := r₁
      dsimp only at hok
      intro d' hd'
      rcases List.mem_cons.mp hd' with rfl | hd''
      · show (lookupLoc st.locations (targetDependencyOf st l)).isSome = true
        rw [processDep] at hpd
        cases hl : lookupLoc st.locations (targetDependencyOf st l) with
        | none => rw [hl] at hpd; exact absurd hpd (by simp)
        | some p => rfl
      · exact ih hok d' hd''

theorem reconcileDependent_lookups {st : InstallerState} {fs : Fs} {loc : Locator}
    {deps : List (Descriptor × Locator)} {r : Fs × Log}
    (hok : reconcileDependent st fs loc deps = .ok r)
    (hcompat : isPnpmVirtualCompatible st loc = true) :
    (lookupLoc st.locations loc).isSome = true ∧
    ∀ d ∈ deps, (lookupLoc st.locations (targetDependencyOf st d.2)).isSome = true := by
  rw [reconcileDependent, hcompat] at hok
  rw [if_neg (by simp)] at hok
  cases hlook : lookupLoc st.locations loc with
  | none => rw [hlook] at hok; exact absurd hok (by simp)
  | some pkgPath =>
    rw [hlook] at hok
    dsimp only at hok
    refine ⟨rfl, ?_⟩
    cases hmk : mkdirp fs (pkgPath ++ ["node_modules"]) with
    | error e => rw [hmk] at hok; exact absurd hok (by simp)
    | ok r₀ =>
      rw [hmk] at hok
      obtain ⟨fs₀, created⟩ := r₀
      dsimp only at hok
      cases hbe : buildExtraneous (readdirEnts fs₀ (pkgPath ++ ["node_modules"]))
          (fun n => readdirEnts fs₀ (pkgPath ++ ["node_modules"] ++ [n])) with
      | error e => rw [hbe] at hok; exact absurd hok (by simp)
      | ok ext =>
        rw [hbe] at hok
        dsimp only at hok
        cases hfd : foldDeps st (pkgPath ++ ["node_modules"]) deps fs₀ ext
            (created.map (fun p => (Phase.reconcile, WriteOp.mkdir p))) with
        | error e => rw [hfd] at hok; exact absurd hok (by simp)
        | ok r₂ => exact foldDeps_lookups hfd

/-! ## The reconcile no-op (all entries already as desired) -/

theorem foldDeps_noop {st : InstallerState} {nm : Path} {deps : List (Descriptor × Locator)}
    {fs : Fs} (ext : Extraneous) (log : Log)
    (hnodup : (desiredKeys deps).Nodup)
    (h : ∀ d ∈ deps, ∃ src, lookupLoc st.locations (targetDependencyOf st d.2) = some src ∧
      extGet ext (identSegs d.1.ident) =
        some (.symlink (relSegs (nm ++ identSegs d.1.ident).dropLast src)) ∧
      getObj fs (nm ++ identSegs d.1.ident) =
        some (.symlink (relSegs (nm ++ identSegs d.1.ident).dropLast src))) :
    foldDeps st nm deps fs ext log =
      .ok (fs, ext.filter (fun e => !(decide (e.1 ∈ desiredKeys deps))), log) := by
  induction deps generalizing ext with
  | nil =>
    rw [foldDeps]
    have hf : ext.filter
        (fun e => !(decide (e.1 ∈ desiredKeys ([] : List (Descriptor × Locator))))) = ext :=
      List.filter_eq_self.mpr (by intro a _; simp [desiredKeys])
    rw [hf]
  | cons dl rest ih =>
    obtain ⟨d, l⟩ := dl
    obtain ⟨src, hsrc, hget, hobj⟩ := h (d, l) (List.mem_cons_self _ _)
    have hsrc' : lookupLoc st.locations (targetDependencyOf st l) = some src := hsrc
    have hget' : extGet ext (identSegs d.ident) =
        some (.symlink (relSegs (nm ++ identSegs d.ident).dropLast src)) := hget
    have hobj' : getObj fs (nm ++ identSegs d.ident) =
        some (.symlink (relSegs (nm ++ identSegs d.ident).dropLast src)) := hobj
    rw [foldDeps, processDep, hsrc']
    dsimp only
    rw [hget']
    dsimp only
    rw [readlink_ok_iff.mpr hobj']
    dsimp only
    rw [if_pos rfl]
    dsimp only
    have hnodup' := hnodup
    rw [show desiredKeys ((d, l) :: rest) = identSegs d.ident :: desiredKeys rest
      from rfl] at hnodup'
    have hknotin := (List.nodup_cons.mp hnodup').1
    have hrest : ∀ d' ∈ rest, ∃ src',
        lookupLoc st.locations (targetDependencyOf st d'.2) = some src' ∧
        extGet (extDelete ext (identSegs d.ident)) (identSegs d'.1.ident) =
          some (.symlink (relSegs (nm ++ identSegs d'.1.ident).dropLast src')) ∧
        getObj fs (nm ++ identSegs d'.1.ident) =
          some (.symlink (relSegs (nm ++ identSegs d'.1.ident).dropLast src')) := by
      intro d' hd'
      obtain ⟨src', h1, h2, h3⟩ := h d' (List.mem_cons_of_mem _ hd')
      refine ⟨src', h1, ?_, h3⟩
      rw [extGet_extDelete_ne]
      · exact h2
      · intro heq
        apply hknotin
        rw [← heq]
        exact List.mem_map.mpr ⟨d', hd', rfl⟩
    rw [ih _ ((List.nodup_cons.mp hnodup').2) hrest, extDelete_filter]
    rfl

theorem reconcileDependent_noop {st : InstallerState} {fs : Fs} {loc : Locator}
    {deps : List (Descriptor × Locator)} {pkgPath : Path}
    (hnd : nodupKeys fs)
    (hlook : lookupLoc st.locations loc = some pkgPath)
    (hvalid : ∀ d ∈ deps, validIdent d.1.ident = true)
    (hnodup : (desiredKeys deps).Nodup)
    (hclean : cleanFor st fs pkgPath deps) :
    reconcileDependent st fs loc deps = .ok (fs, []) := by
  obtain ⟨hchain, hsym, hexact⟩ := hclean
  by_cases hcompat : isPnpmVirtualCompatible st loc = true
  case neg =>
    have hc : isPnpmVirtualCompatible st loc = false := by
      revert hcompat
      cases isPnpmVirtualCompatible st loc <;> simp
    rw [reconcileDependent, if_pos (by rw [hc]; rfl)]
  case pos =>
    rw [reconcileDependent, if_neg (by rw [hcompat]; simp), hlook]
    dsimp only
    rw [mkdirp, mkdirpGo_noop hchain]
    dsimp only
    have hnmdir : getObj fs (pkgPath ++ ["node_modules"]) = some FsObj.dir :=
      hchain _ (mem_chainOf_nil_iff.mpr ⟨List.prefix_refl _, by simp⟩)
    have hlist : readdirEnts fs (pkgPath ++ ["node_modules"]) =
        .ok (childEnts fs (pkgPath ++ ["node_modules"])) :=
      readdirEnts_ok_iff.mpr ⟨hnmdir, rfl⟩
    have hexp : (expandEntries (fun n => readdirEnts fs (pkgPath ++ ["node_modules"] ++ [n]))
        (childEnts fs (pkgPath ++ ["node_modules"])) []).2 = none := by
      refine expandEntries_ok _ ?_
      intro n o hm hdot hat
      have hno := (mem_childEnts_iff hnd).mp hm
      have hdir := ((hexact n o hno hdot).2 hat).1
      refine ⟨childEnts fs (pkgPath ++ ["node_modules"] ++ [n]),
        readdirEnts_ok_iff.mpr ⟨?_, rfl⟩⟩
      rw [← hdir]
      exact hno
    have hbe : buildExtraneous (readdirEnts fs (pkgPath ++ ["node_modules"]))
        (fun n => readdirEnts fs (pkgPath ++ ["node_modules"] ++ [n])) = .ok
        (expandEntries (fun n => readdirEnts fs (pkgPath ++ ["node_modules"] ++ [n]))
          (childEnts fs (pkgPath ++ ["node_modules"])) []).1 := by
      rw [hlist, buildExtraneous]
      cases hx : expandEntries (fun n => readdirEnts fs (pkgPath ++ ["node_modules"] ++ [n]))
          (childEnts fs (pkgPath ++ ["node_modules"])) [] with
      | mk acc err =>
        rw [hx] at hexp
        have herr : err = none := hexp
        subst herr
        rfl
    rw [hbe]
    dsimp only
    have hfacts := buildExtraneous_fs_facts hnd hbe
    have hcomp := buildExtraneous_fs_complete hnd hnmdir hbe
    have hsyms : ∀ d ∈ deps, ∃ src,
        lookupLoc st.locations (targetDependencyOf st d.2) = some src ∧
        extGet (expandEntries (fun n => readdirEnts fs (pkgPath ++ ["node_modules"] ++ [n]))
            (childEnts fs (pkgPath ++ ["node_modules"])) []).1 (identSegs d.1.ident) =
          some (.symlink
            (relSegs (pkgPath ++ ["node_modules"] ++ identSegs d.1.ident).dropLast src)) ∧
        getObj fs (pkgPath ++ ["node_modules"] ++ identSegs d.1.ident) =
          some (.symlink
            (relSegs (pkgPath ++ ["node_modules"] ++ identSegs d.1.ident).dropLast src)) := by
      intro d hd
      obtain ⟨src, h1, h2, h3⟩ := hsym d hd
      refine ⟨src, h1, ?_, h2⟩
      have hmemext : (identSegs d.1.ident,
          FsObj.symlink
            (relSegs (pkgPath ++ ["node_modules"] ++ identSegs d.1.ident).dropLast src)) ∈
          (expandEntries (fun n => readdirEnts fs (pkgPath ++ ["node_modules"] ++ [n]))
            (childEnts fs (pkgPath ++ ["node_modules"])) []).1 := by
        rcases identSegs_shape (hvalid d hd) with
            ⟨m, hm', hmd, hma, -⟩ | ⟨s, m, hm', hsa, hsd⟩
        · rw [hm']
          rw [hm'] at h2
          exact (hcomp m _ h2 hmd).1 hma
        · rw [hm']
          rw [hm'] at h2
          have hdir := h3 ("@" ++ s) m hm'
          exact ((hcomp ("@" ++ s) _ hdir hsd).2 hsa).2 m _ h2
      obtain ⟨o', ho', hm'⟩ := extGet_some_of_mem hmemext
      rw [ho']
      have hv := (hfacts _ _ hm').1
      rw [h2] at hv
      rw [← Option.some_inj.mp hv]
    rw [foldDeps_noop _ _ hnodup hsyms]
    dsimp only
    have hfilter : (expandEntries (fun n => readdirEnts fs (pkgPath ++ ["node_modules"] ++ [n]))
        (childEnts fs (pkgPath ++ ["node_modules"])) []).1.filter
          (fun e => !(decide (e.1 ∈ desiredKeys deps))) = [] := by
      refine List.filter_eq_nil_iff.mpr ?_
      intro e he
      obtain ⟨hobj, hsh⟩ := hfacts e.1 e.2 he
      simp only [Bool.not_eq_true', decide_eq_false_iff_not, Decidable.not_not]
      rcases hsh with ⟨n, hk, hdot, hat⟩ | ⟨n, c, hk, hat, hdot, hdir⟩
      · rw [hk] at hobj ⊢
        exact (hexact n e.2 hobj hdot).1 hat
      · rw [hk] at hobj ⊢
        exact ((hexact n FsObj.dir hdir hdot).2 hat).2 c e.2 hobj
    rw [hfilter]
    rfl

/-! ## Copy tasks leave every slot ready -/

theorem copyOne_ready {fs : Fs} {dst rel : Path} {c : String} {fs' : Fs} {w : List WriteOp}
    (hok : copyOne fs dst rel c = .ok (fs', w)) (hrel : ¬ rel = []) :
    (∀ q ∈ chainOf ([] : Path) (dst ++ rel.dropLast), getObj fs' q = some FsObj.dir) ∧
    (getObj fs' (dst ++ rel)).isSome = true := by
  rw [copyOne] at hok
  cases hmk : mkdirp fs (dst ++ rel.dropLast) with
  | error e => rw [hmk] at hok; exact absurd hok (by simp)
  | ok r =>
    rw [hmk] at hok
    obtain ⟨fs₁, created⟩ := r
    dsimp only at hok
    rw [mkdirp] at hmk
    obtain ⟨m1, m2, m3, m4⟩ := mkdirpGo_spec hmk
    cases hget : getObj fs₁ (dst ++ rel) with
    | some o =>
      rw [hget] at hok
      simp only [Except.ok.injEq, Prod.mk.injEq] at hok
      obtain ⟨rfl, rfl⟩ := hok
      exact ⟨m4, by rw [hget]; rfl⟩
    | none =>
      rw [hget] at hok
      simp only [Except.ok.injEq, Prod.mk.injEq] at hok
      obtain ⟨rfl, rfl⟩ := hok
      refine ⟨?_, ?_⟩
      · intro q hq
        rw [getObj_setObj, if_neg ?_]
        · exact m4 q hq
        · intro heq
          have h1 := (mem_chainOf_nil_iff.mp hq).1.length_le
          rw [heq, List.length_append, List.length_append, List.length_dropLast] at h1
          have h2 : 0 < rel.length := List.length_pos.mpr hrel
          omega
      · rw [getObj_setObj, if_pos rfl]
        rfl

theorem copyFiles_ready {fs : Fs} {dst : Path} {files : List (Path × String)}
    {fs' : Fs} {w : List WriteOp} (hok : copyFiles fs dst files = .ok (fs', w))
    (hrel : ∀ f ∈ files, ¬ f.1 = []) :
    ∀ f ∈ files,
      (∀ q ∈ chainOf ([] : Path) (dst ++ f.1.dropLast), getObj fs' q = some FsObj.dir) ∧
      (getObj fs' (dst ++ f.1)).isSome = true := by
  induction files generalizing fs w with
  | nil =>
    intro f hf
    exact absurd hf (List.not_mem_nil _)
  | cons f rest ih =>
    obtain ⟨rel, c⟩ := f
    rw [copyFiles] at hok
    cases h1 : copyOne fs dst rel c with
    | error e => rw [h1] at hok; exact absurd hok (by simp)
    | ok r1 =>
      rw [h1] at hok
      obtain ⟨fs₁, w₁⟩ := r1
      dsimp only at hok
      cases h2 : copyFiles fs₁ dst rest with
      | error e => rw [h2] at hok; exact absurd hok (by simp)
      | ok r2 =>
        rw [h2] at hok
        obtain ⟨fs₂, w₂⟩ := r2
        simp only [Except.ok.injEq, Prod.mk.injEq] at hok
        obtain ⟨rfl, rfl⟩ := hok
        obtain ⟨d1, d2, d3, d4, d5⟩ := copyFiles_spec h2
        intro g hg
        rcases List.mem_cons.mp hg with rfl | hg'
        · obtain ⟨r1, r2⟩ := copyOne_ready h1 (hrel (rel, c) (List.mem_cons_self _ _))
          refine ⟨fun q hq => d1 q _ (r1 q hq), ?_⟩
          show (getObj fs₂ (dst ++ rel)).isSome = true
          cases hs1 : getObj fs₁ (dst ++ rel) with
          | none => rw [hs1] at r2; simp at r2
          | some o =>
            rw [d1 _ _ hs1]
            rfl
        · exact ih h2 (fun f hf => hrel f (List.mem_cons_of_mem _ hf)) g hg'

theorem runCopyTask_ready {fs : Fs} {t : CopyTask} {fs' : Fs} {w : List WriteOp}
    (hok : runCopyTask fs t = .ok (fs', w)) (hrel : ∀ f ∈ t.files, ¬ f.1 = []) :
    taskReady t fs' := by
  rw [runCopyTask] at hok
  cases h1 : mkdirp fs t.dst with
  | error e => rw [h1] at hok; exact absurd hok (by simp)
  | ok r1 =>
    rw [h1] at hok
    obtain ⟨fs₁, created⟩ := r1
    dsimp only at hok
    cases h2 : copyFiles fs₁ t.dst t.files with
    | error e => rw [h2] at hok; exact absurd hok (by simp)
    | ok r2 =>
      rw [h2] at hok
      obtain ⟨fs₂, w₂⟩ := r2
      simp only [Except.ok.injEq, Prod.mk.injEq] at hok
      obtain ⟨rfl, rfl⟩ := hok
      rw [mkdirp] at h1
      obtain ⟨m1, m2, m3, m4⟩ := mkdirpGo_spec h1
      obtain ⟨d1, d2, d3, d4, d5⟩ := copyFiles_spec h2
      exact ⟨fun q hq => d1 q _ (m4 q hq), copyFiles_ready h2 hrel⟩

theorem runTasks_ready {fs : Fs} {tasks : List CopyTask} {fs' : Fs} {w : List WriteOp}
    (hok : runTasks fs tasks = .ok (fs', w))
    (hrel : ∀ t ∈ tasks, ∀ f ∈ t.files, ¬ f.1 = []) :
    ∀ t ∈ tasks, taskReady t fs' := by
  induction tasks generalizing fs w with
  | nil =>
    intro t ht
    exact absurd ht (List.not_mem_nil _)
  | cons t rest ih =>
    rw [runTasks] at hok
    cases h1 : runCopyTask fs t with
    | error e => rw [h1] at hok; exact absurd hok (by simp)
    | ok r1 =>
      rw [h1] at hok
      obtain ⟨fs₁, w₁⟩ := r1
      dsimp only at hok
      cases h2 : runTasks fs₁ rest with
      | error e => rw [h2] at hok; exact absurd hok (by simp)
      | ok r2 =>
        rw [h2] at hok
        obtain ⟨fs₂, w₂⟩ := r2
        simp only [Except.ok.injEq, Prod.mk.injEq] at hok
        obtain ⟨rfl, rfl⟩ := hok
        obtain ⟨d1, d2, d3, d4, d5⟩ := runTasks_spec h2
        intro g hg
        rcases List.mem_cons.mp hg with rfl | hg'
        · obtain ⟨r1, r2⟩ := runCopyTask_ready h1 (hrel g (List.mem_cons_self _ _))
          refine ⟨fun q hq => d1 q _ (r1 q hq), ?_⟩
          intro f hf
          obtain ⟨rf1, rf2⟩ := r2 f hf
          refine ⟨fun q hq => d1 q _ (rf1 q hq), ?_⟩
          cases hs1 : getObj fs₁ (g.dst ++ f.1) with
          | none => rw [hs1] at rf2; simp at rf2
          | some o =>
            rw [d1 _ _ hs1]
            rfl
        · exact ih h2 (fun t ht => hrel t (List.mem_cons_of_mem _ ht)) g hg'

theorem installPackage_copiesDone (st : InstallerState) (pkg : Package)
    (fetch : FetchResult) :
    (installPackage st pkg fetch).1.copiesDone = st.copiesDone := by
  obtain ⟨ploc, plt⟩ := pkg
  cases plt <;> rfl

theorem runInstallPackages_copiesDone (st : InstallerState)
    (pkgs : List (Package × FetchResult)) :
    (runInstallPackages st pkgs).copiesDone = st.copiesDone := by
  induction pkgs generalizing st with
  | nil => rfl
  | cons pf rest ih =>
    obtain ⟨pkg, fetch⟩ := pf
    rw [runInstallPackages, ih]
    exact installPackage_copiesDone st pkg fetch

theorem dotSafeUnder_of_not_leadsTo {nmP q : Path} (h : ¬ leadsTo nmP q = true) :
    dotSafeUnder nmP q = true := by
  rw [dotSafeUnder]
  simp only [Bool.or_eq_true, Bool.not_eq_true']
  exact Or.inl (Or.inl (by simpa using h))

theorem dotSafeUnder_cases {nmP q : Path} (h : dotSafeUnder nmP q = true) :
    ¬ leadsTo nmP q = true ∨ q = nmP ∨
    (∃ s, q.get? nmP.length = some s ∧ startsWithChar s '.' = true) := by
  rw [dotSafeUnder] at h
  simp only [Bool.or_eq_true, Bool.not_eq_true', decide_eq_true_eq] at h
  rcases h with (h | h) | h
  · exact Or.inl (by simp [h])
  · by_cases hl : leadsTo nmP q = true
    · refine Or.inr (Or.inl ?_)
      exact ((leadsTo_iff.mp hl).eq_of_length (by omega)).symm
    · exact Or.inl hl
  · cases hg : q.get? nmP.length with
    | none =>
      rw [hg] at h
      simp at h
    | some s =>
      rw [hg] at h
      dsimp only at h
      exact Or.inr (Or.inr ⟨s, rfl, h⟩)

/-- A clean dependency directory stays clean under later edits that leave
everything strictly below it untouched and keep its chain directories. -/
theorem cleanFor_mono {st : InstallerState} {fs fs' : Fs} {pkgPath : Path}
    {deps : List (Descriptor × Locator)}
    (hclean : cleanFor st fs pkgPath deps)
    (hEq : ∀ q, pkgPath ++ ["node_modules"] <+: q → ¬ q = pkgPath ++ ["node_modules"] →
      getObj fs' q = getObj fs q)
    (hChain : ∀ q ∈ chainOf ([] : Path) (pkgPath ++ ["node_modules"]),
      getObj fs' q = getObj fs q ∨ getObj fs' q = some FsObj.dir) :
    cleanFor st fs' pkgPath deps := by
  obtain ⟨hchain, hsym, hexact⟩ := hclean
  have hEq' : ∀ (k : Path), ¬ k = [] →
      getObj fs' (pkgPath ++ ["node_modules"] ++ k) =
        getObj fs (pkgPath ++ ["node_modules"] ++ k) := by
    intro k hk
    refine hEq _ ⟨k, rfl⟩ ?_
    intro heq
    have hlen := congrArg List.length heq
    rw [List.length_append] at hlen
    exact hk (List.eq_nil_of_length_eq_zero (by omega))
  refine ⟨?_, ?_, ?_⟩
  · intro q hq
    rcases hChain q hq with he | he
    · rw [he]
      exact hchain q hq
    · exact he
  · intro d hd
    obtain ⟨src, h1, h2, h3⟩ := hsym d hd
    refine ⟨src, h1, ?_, ?_⟩
    · rw [hEq' _ (identSegs_ne_nil _)]
      exact h2
    · intro hd' c hkey
      rw [hEq' [hd'] (by simp)]
      exact h3 hd' c hkey
  · intro n o hno hdot
    rw [hEq' [n] (by simp)] at hno
    refine ⟨fun hat => (hexact n o hno hdot).1 hat, fun hat => ?_⟩
    obtain ⟨hdir, hch⟩ := (hexact n o hno hdot).2 hat
    refine ⟨hdir, ?_⟩
    intro c o' hco
    rw [hEq' [n, c] (by simp)] at hco
    exact hch c o' hco

/-- Run-level analysis of the reconcile phase (after the copy barrier):
every compatible dependent ends clean, and paths outside (or dot-protected
inside) every dependency directory keep their objects. -/
theorem runAttaches_spec {st : InstallerState} {fs : Fs}
    {attaches : List (Locator × List (Descriptor × Locator))}
    {st' : InstallerState} {fs' : Fs} {log : Log}
    (hok : runAttaches st fs attaches = .ok (st', fs', log))
    (hflag : st.copiesDone = true)
    (hnd : nodupKeys fs) (hcl : parentsClosed fs)
    (hvalid : ∀ a ∈ attaches, ∀ d ∈ a.2, validIdent d.1.ident = true)
    (hnodup : ∀ a ∈ attaches, (desiredKeys a.2).Nodup)
    (hpair : List.Pairwise (nmDisjoint st) attaches) :
    st' = st ∧ nodupKeys fs' ∧ parentsClosed fs' ∧
    (∀ a ∈ attaches, isPnpmVirtualCompatible st a.1 = true →
      ∃ p, lookupLoc st.locations a.1 = some p ∧ cleanFor st fs' p a.2) ∧
    (∀ q, (∀ a ∈ attaches, ∀ p, lookupLoc st.locations a.1 = some p →
        ¬ leadsTo (p ++ ["node_modules"]) q = true ∧
        ¬ q ∈ chainOf ([] : Path) (p ++ ["node_modules"])) →
      getObj fs' q = getObj fs q) ∧
    (∀ q, (∀ a ∈ attaches, ∀ p, lookupLoc st.locations a.1 = some p →
        dotSafeUnder (p ++ ["node_modules"]) q = true) →
      getObj fs' q = getObj fs q ∨ getObj fs' q = some FsObj.dir) := by
  induction attaches generalizing fs st' fs' log with
  | nil =>
    rw [runAttaches] at hok
    simp only [Except.ok.injEq, Prod.mk.injEq] at hok
    obtain ⟨rfl, rfl, rfl⟩ := hok
    exact ⟨rfl, hnd, hcl, fun a ha => absurd ha (List.not_mem_nil _),
      fun q _ => rfl, fun q _ => Or.inl rfl⟩
  | cons a rest ih =>
    obtain ⟨loc, deps⟩ := a
    rw [runAttaches] at hok
    cases hat : attachInternalDependencies st fs loc deps with
    | error e => rw [hat] at hok; exact absurd hok (by simp)
    | ok r1 =>
      rw [hat] at hok
      obtain ⟨stB, fsB, logB⟩ := r1
      dsimp only at hok
      cases hra : runAttaches stB fsB rest with
      | error e => rw [hra] at hok; exact absurd hok (by simp)
      | ok r2 =>
        rw [hra] at hok
        obtain ⟨st₂, fs₂, log₂⟩ := r2
        simp only [Except.ok.injEq, Prod.mk.injEq] at hok
        obtain ⟨rfl, rfl, rfl⟩ := hok
        rw [attachInternalDependencies] at hat
        cases haw : awaitPendingCopies st fs with
        | error e => rw [haw] at hat; exact absurd hat (by simp)
        | ok rw1 =>
          rw [haw] at hat
          obtain ⟨stA, fsA, logA⟩ := rw1
          dsimp only at hat
          cases hrc : reconcileDependent stA fsA loc deps with
          | error e => rw [hrc] at hat; exact absurd hat (by simp)
          | ok rc =>
            rw [hrc] at hat
            obtain ⟨fsC, logC⟩ := rc
            simp only [Except.ok.injEq, Prod.mk.injEq] at hat
            obtain ⟨rfl, rfl, rfl⟩ := hat
            rw [awaitPendingCopies, if_pos hflag] at haw
            simp only [Except.ok.injEq, Prod.mk.injEq] at haw
            obtain ⟨rfl, rfl, rfl⟩ := haw
            obtain ⟨hhead, hrest⟩ := List.pairwise_cons.mp hpair
            by_cases hcompat : isPnpmVirtualCompatible st loc = true
            case neg =>
              have hc : isPnpmVirtualCompatible st loc = false := by
                revert hcompat
                cases isPnpmVirtualCompatible st loc <;> simp
              rw [reconcileDependent, if_pos (by rw [hc]; rfl)] at hrc
              simp only [Except.ok.injEq, Prod.mk.injEq] at hrc
              obtain ⟨rfl, rfl⟩ := hrc
              obtain ⟨rfl, i2, i3, i4, i5, i6⟩ :=
                ih hra hnd hcl (fun a ha => hvalid a (List.mem_cons_of_mem _ ha))
                  (fun a ha => hnodup a (List.mem_cons_of_mem _ ha)) hrest
              refine ⟨rfl, i2, i3, ?_, ?_, ?_⟩
              · intro a ha hacompat
                rcases List.mem_cons.mp ha with rfl | ha'
                · exact absurd hacompat hcompat
                · exact i4 a ha' hacompat
              · intro q hq
                exact i5 q (fun a ha => hq a (List.mem_cons_of_mem _ ha))
              · intro q hq
                exact i6 q (fun a ha => hq a (List.mem_cons_of_mem _ ha))
            case pos =>
              have hvd : ∀ d ∈ deps, validIdent d.1.ident = true :=
                hvalid (loc, deps) (List.mem_cons_self _ _)
              have hnodupD : (desiredKeys deps).Nodup :=
                hnodup (loc, deps) (List.mem_cons_self _ _)
              obtain ⟨p, hlook, s1, s2, s3, s4, s5, s6, s7⟩ :=
                reconcileDependent_spec hrc hcompat hnd hcl hvd hnodupD
              obtain ⟨hst2, i2, i3, i4, i5, i6⟩ :=
                ih hra s1 s2 (fun a ha => hvalid a (List.mem_cons_of_mem _ ha))
                  (fun a ha => hnodup a (List.mem_cons_of_mem _ ha)) hrest
              have hdisj : ∀ a' ∈ rest, ∀ p', lookupLoc st.locations a'.1 = some p' →
                  ¬ leadsTo (p ++ ["node_modules"]) (p' ++ ["node_modules"]) = true ∧
                  ¬ leadsTo (p' ++ ["node_modules"]) (p ++ ["node_modules"]) = true := by
                intro a' ha' p' hp'
                exact hhead a' ha' p p' hlook hp'
              refine ⟨hst2, i2, i3, ?_, ?_, ?_⟩
              · intro a ha hacompat
                rcases List.mem_cons.mp ha with rfl | ha'
                · refine ⟨p, hlook, ?_⟩
                  refine cleanFor_mono ⟨s3, s4, s5⟩ ?_ ?_
                  · intro q hpre hne
                    refine i5 q ?_
                    intro a' ha' p' hp'
                    obtain ⟨hd1, hd2⟩ := hdisj a' ha' p' hp'
                    constructor
                    · intro hl
                      rcases List.prefix_or_prefix_of_prefix (leadsTo_iff.mp hl) hpre with
                          h1 | h1
                      · exact hd2 (leadsTo_iff.mpr h1)
                      · exact hd1 (leadsTo_iff.mpr h1)
                    · intro hmem
                      have h1 := (mem_chainOf_nil_iff.mp hmem).1
                      exact hd1 (leadsTo_iff.mpr (hpre.trans h1))
                  · intro q hq
                    refine i6 q ?_
                    intro a' ha' p' hp'
                    obtain ⟨hd1, hd2⟩ := hdisj a' ha' p' hp'
                    refine dotSafeUnder_of_not_leadsTo ?_
                    intro hl
                    have h1 := (mem_chainOf_nil_iff.mp hq).1
                    exact hd2 (leadsTo_iff.mpr ((leadsTo_iff.mp hl).trans h1))
                · exact i4 a ha' hacompat
              · intro q hq
                have hqh := hq (loc, deps) (List.mem_cons_self _ _) p hlook
                have h1 := i5 q (fun a ha => hq a (List.mem_cons_of_mem _ ha))
                rw [h1]
                rcases s6 q hqh.1 with he | ⟨hmem, -, -⟩
                · exact he
                · exact absurd hmem hqh.2
              · intro q hq
                have hqh := hq (loc, deps) (List.mem_cons_self _ _) p hlook
                have hC : getObj fsC q = getObj fs q ∨ getObj fsC q = some FsObj.dir := by
                  rcases dotSafeUnder_cases hqh with hnl | heq | ⟨s, hgs, hds⟩
                  · rcases s6 q hnl with he | ⟨-, -, hdir⟩
                    · exact Or.inl he
                    · exact Or.inr hdir
                  · subst heq
                    refine Or.inr (s3 _ ?_)
                    exact mem_chainOf_nil_iff.mpr ⟨List.prefix_refl _, by simp⟩
                  · exact Or.inl (s7 q s hgs hds)
                rcases i6 q (fun a ha => hq a (List.mem_cons_of_mem _ ha)) with he | he
                · rcases hC with h2 | h2
                  · exact Or.inl (he.trans h2)
                  · exact Or.inr (he.trans h2)
                · exact Or.inr he

/-- After the copy barrier has run, a plan whose dependents are all already
clean is reattached without a single write. -/
theorem runAttaches_noop_of_done {st : InstallerState} {fs : Fs}
    {attaches : List (Locator × List (Descriptor × Locator))}
    (hflag : st.copiesDone = true)
    (hrec : ∀ a ∈ attaches, reconcileDependent st fs a.1 a.2 = .ok (fs, [])) :
    runAttaches st fs attaches = .ok (st, fs, []) := by
  induction attaches with
  | nil => rfl
  | cons a rest ih =>
    obtain ⟨loc, deps⟩ := a
    rw [runAttaches, attachInternalDependencies, awaitPendingCopies, if_pos hflag]
    dsimp only
    rw [hrec (loc, deps) (List.mem_cons_self _ _)]
    dsimp only
    rw [ih (fun a ha => hrec a (List.mem_cons_of_mem _ ha))]
    rfl

/-! ## Reconciliation only reads the location table and the options -/

theorem targetDependencyOf_congr {st st' : InstallerState} (ho : st'.opts = st.opts)
    (dep : Locator) : targetDependencyOf st' dep = targetDependencyOf st dep := by
  rw [targetDependencyOf, targetDependencyOf, isPnpmVirtualCompatible,
    isPnpmVirtualCompatible, ho]

theorem processDep_congr {st st' : InstallerState} (hl : st'.locations = st.locations)
    (ho : st'.opts = st.opts) (nm : Path) (fs : Fs) (ext : Extraneous) (log : Log)
    (d : Descriptor) (l : Locator) :
    processDep st' nm fs ext log d l = processDep st nm fs ext log d l := by
  rw [processDep, processDep, targetDependencyOf_congr ho, hl]

theorem foldDeps_congr {st st' : InstallerState} (hl : st'.locations = st.locations)
    (ho : st'.opts = st.opts) (nm : Path) (deps : List (Descriptor × Locator))
    (fs : Fs) (ext : Extraneous) (log : Log) :
    foldDeps st' nm deps fs ext log = foldDeps st nm deps fs ext log := by
  induction deps generalizing fs ext log with
  | nil => rfl
  | cons dl rest ih =>
    obtain ⟨d, l⟩ := dl
    rw [foldDeps, foldDeps, processDep_congr hl ho]
    cases processDep st nm fs ext log d l with
    | error e => rfl
    | ok r =>
      obtain ⟨fs₁, ext₁, log₁⟩ := r
      dsimp only
      exact ih fs₁ ext₁ log₁

theorem reconcileDependent_congr {st st' : InstallerState}
    (hl : st'.locations = st.locations) (ho : st'.opts = st.opts)
    (fs : Fs) (loc : Locator) (deps : List (Descriptor × Locator)) :
    reconcileDependent st' fs loc deps = reconcileDependent st fs loc deps := by
  rw [reconcileDependent, reconcileDependent, isPnpmVirtualCompatible,
    isPnpmVirtualCompatible, ho, hl]
  cases lookupLoc st.locations loc with
  | none => rfl
  | some p =>
    dsimp only
    cases mkdirp fs (p ++ ["node_modules"]) with
    | error e => rfl
    | ok r =>
      obtain ⟨fs₀, created⟩ := r
      dsimp only
      cases buildExtraneous (readdirEnts fs₀ (p ++ ["node_modules"]))
          (fun n => readdirEnts fs₀ (p ++ ["node_modules"] ++ [n])) with
      | error e => rfl
      | ok ext =>
        dsimp only
        rw [foldDeps_congr hl ho]

/-! ## Dot-protected paths survive a reconciliation -/

theorem dotSafe_preserved {fs fsC : Fs} {nmP : Path} (hnm : ¬ nmP = [])
    (s3 : ∀ q ∈ chainOf ([] : Path) nmP, getObj fsC q = some FsObj.dir)
    (s6 : ∀ q, ¬ leadsTo nmP q = true →
      (getObj fsC q = getObj fs q ∨
       (q ∈ chainOf ([] : Path) nmP ∧ getObj fs q = none ∧
         getObj fsC q = some FsObj.dir)))
    (s7 : ∀ q s, q.get? nmP.length = some s → startsWithChar s '.' = true →
      getObj fsC q = getObj fs q)
    {q : Path} (h : dotSafeUnder nmP q = true) :
    getObj fsC q = getObj fs q ∨ getObj fsC q = some FsObj.dir := by
  rcases dotSafeUnder_cases h with hnl | heq | ⟨s, hgs, hds⟩
  · rcases s6 q hnl with he | ⟨-, -, hd⟩
    · exact Or.inl he
    · exact Or.inr hd
  · subst heq
    exact Or.inr (s3 _ (mem_chainOf_nil_iff.mpr ⟨List.prefix_refl _, hnm⟩))
  · exact Or.inl (s7 q s hgs hds)

theorem taskReady_of_safe {t : CopyTask} {fs fs' : Fs} (hr : taskReady t fs)
    (hpres : ∀ q, (q <+: t.dst ∨ ∃ f ∈ t.files, q <+: t.dst ++ f.1) →
      getObj fs' q = getObj fs q ∨ getObj fs' q = some FsObj.dir) :
    taskReady t fs' := by
  obtain ⟨h1, h2⟩ := hr
  refine ⟨?_, ?_⟩
  · intro q hq
    rcases hpres q (Or.inl (mem_chainOf_nil_iff.mp hq).1) with he | he
    · rw [he]
      exact h1 q hq
    · exact he
  · intro f hf
    obtain ⟨hf1, hf2⟩ := h2 f hf
    refine ⟨?_, ?_⟩
    · intro q hq
      have hql : q <+: t.dst ++ f.1 := by
        refine (mem_chainOf_nil_iff.mp hq).1.trans ?_
        exact (List.prefix_append_right_inj t.dst).mpr (List.dropLast_prefix _)
      rcases hpres q (Or.inr ⟨f, hf, hql⟩) with he | he
      · rw [he]
        exact hf1 q hq
      · exact he
    · rcases hpres (t.dst ++ f.1) (Or.inr ⟨f, hf, List.prefix_refl _⟩) with he | he
      · rw [he]
        exact hf2
      · rw [he]
        rfl

/-- C5: install is idempotent.  If a full install pass (register all
packages, run the copy barrier, reconcile every dependent) succeeds on
`fs0` producing `fs1`, then running the same install again over `fs1`
performs zero filesystem writes: the copy tasks find every slot populated
and refuse to overwrite, every dependency entry is already the desired
symlink so the skip branch is taken, and the run returns `fs1` unchanged
with an empty write log.  The side conditions say the resolved plan is
well-formed: fetched files have nonempty relative paths, dependency idents
are regular and duplicate-free per dependent, distinct dependents own
unrelated dependency directories, and store slots sit outside the
dependency directories except through dot-named entries (as with the
`.store` folder). -/
theorem c5_install_idempotent
    {proj : Project} {pkgs : List (Package × FetchResult)}
    {attaches : List (Locator × List (Descriptor × Locator))}
    {fs0 : Fs} {st₁ : InstallerState} {fs1 : Fs} {log1 : Log}
    (h1 : runInstall proj pkgs attaches fs0 = .ok (st₁, fs1, log1))
    (hnd : nodupKeys fs0) (hcl : parentsClosed fs0)
    (hfiles : ∀ t ∈ (runInstallPackages (makeInstaller proj) pkgs).pendingCopies,
      ∀ f ∈ t.files, ¬ f.1 = [])
    (hvalid : ∀ a ∈ attaches, ∀ d ∈ a.2, validIdent d.1.ident = true)
    (hnodup : ∀ a ∈ attaches, (desiredKeys a.2).Nodup)
    (hpair : List.Pairwise
      (nmDisjoint (runInstallPackages (makeInstaller proj) pkgs)) attaches)
    (hsafe : ∀ a ∈ attaches, ∀ p,
      lookupLoc (runInstallPackages (makeInstaller proj) pkgs).locations a.1 = some p →
      ∀ t ∈ (runInstallPackages (makeInstaller proj) pkgs).pendingCopies,
        dotSafeUnder (p ++ ["node_modules"]) t.dst = true ∧
        ∀ f ∈ t.files, dotSafeUnder (p ++ ["node_modules"]) (t.dst ++ f.1) = true) :
    ∃ st₂, runInstall proj pkgs attaches fs1 = .ok (st₂, fs1, []) := by
  rw [runInstall] at h1 ⊢
  set st₀ := runInstallPackages (makeInstaller proj) pkgs with hst₀
  have hflag0 : st₀.copiesDone = false := by
    rw [hst₀, runInstallPackages_copiesDone]
    rfl
  cases attaches with
  | nil => exact ⟨st₀, rfl⟩
  | cons a rest =>
    obtain ⟨loc, deps⟩ := a
    rw [runAttaches] at h1
    cases hat : attachInternalDependencies st₀ fs0 loc deps with
    | error e => rw [hat] at h1; exact absurd h1 (by simp)
    | ok r1 =>
      rw [hat] at h1
      obtain ⟨stB, fsB1, logB⟩ := r1
      dsimp only at h1
      cases hra : runAttaches stB fsB1 rest with
      | error e => rw [hra] at h1; exact absurd h1 (by simp)
      | ok r2 =>
        rw [hra] at h1
        obtain ⟨st₂, fs₂, log₂⟩ := r2
        simp only [Except.ok.injEq, Prod.mk.injEq] at h1
        obtain ⟨rfl, rfl, rfl⟩ := h1
        rw [attachInternalDependencies] at hat
        cases haw : awaitPendingCopies st₀ fs0 with
        | error e => rw [haw] at hat; exact absurd hat (by simp)
        | ok rw1 =>
          rw [haw] at hat
          obtain ⟨stA, fsA, logA⟩ := rw1
          dsimp only at hat
          cases hrc : reconcileDependent stA fsA loc deps with
          | error e => rw [hrc] at hat; exact absurd hat (by simp)
          | ok rc =>
            rw [hrc] at hat
            obtain ⟨fsC, logC⟩ := rc
            simp only [Except.ok.injEq, Prod.mk.injEq] at hat
            obtain ⟨rfl, rfl, rfl⟩ := hat
            rw [awaitPendingCopies, if_neg (by simp [hflag0])] at haw
            cases hrt : runTasks fs0 st₀.pendingCopies with
            | error e => rw [hrt] at haw; exact absurd haw (by simp)
            | ok rt =>
              rw [hrt] at haw
              obtain ⟨fsB, w⟩ := rt
              dsimp only at haw
              simp only [Except.ok.injEq, Prod.mk.injEq] at haw
              obtain ⟨rfl, rfl, rfl⟩ := haw
              obtain ⟨t1, t2, t3, t4, t5⟩ := runTasks_spec hrt
              have hndB : nodupKeys fsB := t4 hnd
              have hclB : parentsClosed fsB := t5 hfiles hcl
              have hreadyB : ∀ t ∈ st₀.pendingCopies, taskReady t fsB :=
                runTasks_ready hrt hfiles
              have hcongr := @reconcileDependent_congr st₀
                { st₀ with copiesDone := true } rfl rfl
              rw [hcongr] at hrc
              have hheadrel : ∀ a' ∈ rest, nmDisjoint st₀ (loc, deps) a' :=
                (List.pairwise_cons.mp hpair).1
              have hpairA : List.Pairwise
                  (nmDisjoint { st₀ with copiesDone := true }) rest :=
                (List.pairwise_cons.mp hpair).2
              have hvalidR : ∀ a ∈ rest, ∀ d ∈ a.2, validIdent d.1.ident = true :=
                fun a ha => hvalid a (List.mem_cons_of_mem _ ha)
              have hnodupR : ∀ a ∈ rest, (desiredKeys a.2).Nodup :=
                fun a ha => hnodup a (List.mem_cons_of_mem _ ha)
              have hvd : ∀ d ∈ deps, validIdent d.1.ident = true :=
                hvalid (loc, deps) (List.mem_cons_self _ _)
              have hnodupD : (desiredKeys deps).Nodup :=
                hnodup (loc, deps) (List.mem_cons_self _ _)
              by_cases hcompat : isPnpmVirtualCompatible st₀ loc = true
              case pos =>
                obtain ⟨p, hlook, s1, s2, s3, s4, s5, s6, s7⟩ :=
                  reconcileDependent_spec hrc hcompat hndB hclB hvd hnodupD
                obtain ⟨-, j2, j3, j4, j5, j6⟩ :=
                  runAttaches_spec hra rfl s1 s2 hvalidR hnodupR hpairA
                have hcleanHead : cleanFor st₀ fs₂ p deps := by
                  refine cleanFor_mono ⟨s3, s4, s5⟩ ?_ ?_
                  · intro q hpre hne
                    refine j5 q ?_
                    intro a' ha' p' hp'
                    obtain ⟨hd1, hd2⟩ := hheadrel a' ha' p p' hlook hp'
                    constructor
                    · intro hl
                      rcases List.prefix_or_prefix_of_prefix (leadsTo_iff.mp hl) hpre with
                          h1 | h1
                      · exact hd2 (leadsTo_iff.mpr h1)
                      · exact hd1 (leadsTo_iff.mpr h1)
                    · intro hmem
                      exact hd1 (leadsTo_iff.mpr
                        (hpre.trans (mem_chainOf_nil_iff.mp hmem).1))
                  · intro q hq
                    refine j6 q ?_
                    intro a' ha' p' hp'
                    obtain ⟨hd1, hd2⟩ := hheadrel a' ha' p p' hlook hp'
                    refine dotSafeUnder_of_not_leadsTo ?_
                    intro hl
                    exact hd2 (leadsTo_iff.mpr
                      ((leadsTo_iff.mp hl).trans (mem_chainOf_nil_iff.mp hq).1))
                have hsafeHead := hsafe (loc, deps) (List.mem_cons_self _ _) p hlook
                have hreadyC : ∀ t ∈ st₀.pendingCopies, taskReady t fsC := by
                  intro t ht
                  refine taskReady_of_safe (hreadyB t ht) ?_
                  intro q hq
                  have hdq : dotSafeUnder (p ++ ["node_modules"]) q = true := by
                    rcases hq with hq | ⟨f, hf, hq⟩
                    · exact dotSafeUnder_prefix (hsafeHead t ht).1 hq
                    · exact dotSafeUnder_prefix ((hsafeHead t ht).2 f hf) hq
                  exact dotSafe_preserved (by simp) s3 s6 s7 hdq
                have hready1 : ∀ t ∈ st₀.pendingCopies, taskReady t fs₂ := by
                  intro t ht
                  refine taskReady_of_safe (hreadyC t ht) ?_
                  intro q hq
                  refine j6 q ?_
                  intro a' ha' p' hp'
                  have hsafeA := hsafe a' (List.mem_cons_of_mem _ ha') p' hp'
                  rcases hq with hq | ⟨f, hf, hq⟩
                  · exact dotSafeUnder_prefix (hsafeA t ht).1 hq
                  · exact dotSafeUnder_prefix ((hsafeA t ht).2 f hf) hq
                have hnoop : reconcileDependent st₀ fs₂ loc deps = .ok (fs₂, []) :=
                  reconcileDependent_noop j2 hlook hvd hnodupD hcleanHead
                have hrec : ∀ a' ∈ rest, reconcileDependent
                    { st₀ with copiesDone := true } fs₂ a'.1 a'.2 = .ok (fs₂, []) := by
                  intro a' ha'
                  rw [hcongr]
                  by_cases hca : isPnpmVirtualCompatible st₀ a'.1 = true
                  · obtain ⟨p', hp', hclean'⟩ := j4 a' ha' hca
                    exact reconcileDependent_noop j2 hp' (hvalidR a' ha')
                      (hnodupR a' ha') hclean'
                  · have hc : isPnpmVirtualCompatible st₀ a'.1 = false := by
                      revert hca
                      cases isPnpmVirtualCompatible st₀ a'.1 <;> simp
                    rw [reconcileDependent, if_pos (by rw [hc]; rfl)]
                refine ⟨{ st₀ with copiesDone := true }, ?_⟩
                rw [runAttaches, attachInternalDependencies, awaitPendingCopies,
                  if_neg (by simp [hflag0]),
                  runTasks_noop (fun t ht => hready1 t ht)]
                dsimp only
                rw [hcongr, hnoop]
                dsimp only
                rw [runAttaches_noop_of_done rfl hrec]
                rfl
              case neg =>
                have hc : isPnpmVirtualCompatible st₀ loc = false := by
                  revert hcompat
                  cases isPnpmVirtualCompatible st₀ loc <;> simp
                rw [reconcileDependent, if_pos (by rw [hc]; rfl)] at hrc
                simp only [Except.ok.injEq, Prod.mk.injEq] at hrc
                obtain ⟨rfl, rfl⟩ := hrc
                obtain ⟨-, j2, j3, j4, j5, j6⟩ :=
                  runAttaches_spec hra rfl hndB hclB hvalidR hnodupR hpairA
                have hready1 : ∀ t ∈ st₀.pendingCopies, taskReady t fs₂ := by
                  intro t ht
                  refine taskReady_of_safe (hreadyB t ht) ?_
                  intro q hq
                  refine j6 q ?_
                  intro a' ha' p' hp'
                  have hsafeA := hsafe a' (List.mem_cons_of_mem _ ha') p' hp'
                  rcases hq with hq | ⟨f, hf, hq⟩
                  · exact dotSafeUnder_prefix (hsafeA t ht).1 hq
                  · exact dotSafeUnder_prefix ((hsafeA t ht).2 f hf) hq
                have hrec : ∀ a' ∈ rest, reconcileDependent
                    { st₀ with copiesDone := true } fs₂ a'.1 a'.2 = .ok (fs₂, []) := by
                  intro a' ha'
                  rw [hcongr]
                  by_cases hca : isPnpmVirtualCompatible st₀ a'.1 = true
                  · obtain ⟨p', hp', hclean'⟩ := j4 a' ha' hca
                    exact reconcileDependent_noop j2 hp' (hvalidR a' ha')
                      (hnodupR a' ha') hclean'
                  · have hc' : isPnpmVirtualCompatible st₀ a'.1 = false := by
                      revert hca
                      cases isPnpmVirtualCompatible st₀ a'.1 <;> simp
                    rw [reconcileDependent, if_pos (by rw [hc']; rfl)]
                refine ⟨{ st₀ with copiesDone := true }, ?_⟩
                rw [runAttaches, attachInternalDependencies, awaitPendingCopies,
                  if_neg (by simp [hflag0]),
                  runTasks_noop (fun t ht => hready1 t ht)]
                dsimp only
                rw [hcongr, reconcileDependent, if_pos (by rw [hc]; rfl)]
                dsimp only
                rw [runAttaches_noop_of_done rfl hrec]
                rfl

theorem awaitPendingCopies_customData (st : InstallerState) (cd : String) (fs : Fs) :
    awaitPendingCopies { st with customData := cd } fs =
      (awaitPendingCopies st fs).map (fun r => ({ r.1 with customData := cd }, r.2)) := by
  simp only [awaitPendingCopies]
  by_cases h : st.copiesDone = true
  · simp [h, Except.map]
  · simp only [Bool.not_eq_true] at h
    simp only [h, Bool.false_eq_true, if_false]
    cases hr : runTasks fs st.pendingCopies with
    | error e => simp [Except.map]
    | ok r => simp [Except.map]

theorem processDep_customData (st : InstallerState) (cd : String) (nmPath : Path)
    (fs : Fs) (ext : Extraneous) (log : Log) (d : Descriptor) (l : Locator) :
    processDep { st with customData := cd } nmPath fs ext log d l =
      processDep st nmPath fs ext log d l := rfl

theorem foldDeps_customData (st : InstallerState) (cd : String) (nmPath : Path)
    (deps : List (Descriptor × Locator)) (fs : Fs) (ext : Extraneous) (log : Log) :
    foldDeps { st with customData := cd } nmPath deps fs ext log =
      foldDeps st nmPath deps fs ext log := by
  induction deps generalizing fs ext log with
  | nil => rfl
  | cons d rest ih =>
    simp only [foldDeps, processDep_customData]
    cases processDep st nmPath fs ext log d.1 d.2 with
    | error e => rfl
    | ok r => exact ih r.1 r.2.1 r.2.2

theorem reconcileDependent_customData (st : InstallerState) (cd : String) (fs : Fs)
    (loc : Locator) (deps : List (Descriptor × Locator)) :
    reconcileDependent { st with customData := cd } fs loc deps =
      reconcileDependent st fs loc deps := by
  unfold reconcileDependent
  rw [show isPnpmVirtualCompatible { st with customData := cd } loc =
      isPnpmVirtualCompatible st loc from rfl]
  rw [show ({ st with customData := cd } : InstallerState).locations = st.locations from rfl]
  simp only [foldDeps_customData]

theorem attachInternalDependencies_customData (st : InstallerState) (cd : String)
    (fs : Fs) (loc : Locator) (deps : List (Descriptor × Locator)) :
    attachInternalDependencies { st with customData := cd } fs loc deps =
      (attachInternalDependencies st fs loc deps).map
        (fun r => ({ r.1 with customData := cd }, r.2)) := by
  unfold attachInternalDependencies
  rw [awaitPendingCopies_customData]
  cases awaitPendingCopies st fs with
  | error e => rfl
  | ok r =>
    obtain ⟨st₁, fs₁, log₀⟩ := r
    simp only [Except.map]
    rw [reconcileDependent_customData]
    cases reconcileDependent st₁ fs₁ loc deps with
    | error e => rfl
    | ok r => rfl

/-! ## Claim theorems -/

/-- C9: `attachExternalDependents` fails unconditionally with the
"not implemented for this strategy" error, for every locator and every list
of dependent paths, and returns no modified state. -/
theorem c9_external_dependents_always_fail (st : InstallerState) (fs : Fs)
    (locator : Locator) (dependentPaths : List Path) :
    attachExternalDependents st fs locator dependentPaths =
      .error .externalNotImplemented := rfl

/-- C10: attached custom data has no observable effect: for any two attached
values, `installPackage`, `attachInternalDependencies`,
`attachExternalDependents` and `finalizeInstall` return identical results and
perform identical filesystem edits (states compared up to the stored
customData field, which nothing ever reads). -/
theorem c10_custom_data_inert (st : InstallerState) (cd₁ cd₂ : String)
    (pkg : Package) (fetch : FetchResult) (fs : Fs) (loc : Locator)
    (deps : List (Descriptor × Locator)) (dPaths : List Path) :
    (installPackage (attachCustomData st cd₁) pkg fetch).2 =
        (installPackage (attachCustomData st cd₂) pkg fetch).2 ∧
    eraseCustomData (installPackage (attachCustomData st cd₁) pkg fetch).1 =
        eraseCustomData (installPackage (attachCustomData st cd₂) pkg fetch).1 ∧
    (attachInternalDependencies (attachCustomData st cd₁) fs loc deps).map
        (fun r => (eraseCustomData r.1, r.2)) =
      (attachInternalDependencies (attachCustomData st cd₂) fs loc deps).map
        (fun r => (eraseCustomData r.1, r.2)) ∧
    attachExternalDependents (attachCustomData st cd₁) fs loc dPaths =
        attachExternalDependents (attachCustomData st cd₂) fs loc dPaths ∧
    finalizeInstall (attachCustomData st cd₁) = finalizeInstall (attachCustomData st cd₂) := by
  obtain ⟨plo, plt⟩ := pkg
  refine ⟨?_, ?_, ?_, rfl, rfl⟩
  · cases plt <;> rfl
  · cases plt <;> rfl
  · have h₁ := attachInternalDependencies_customData st cd₁ fs loc deps
    have h₂ := attachInternalDependencies_customData st cd₂ fs loc deps
    simp only [attachCustomData] at *
    rw [h₁, h₂]
    cases attachInternalDependencies st fs loc deps with
    | error e => rfl
    | ok r => rfl

/-- C1 (claim refuted by the code): the claim says a virtual dependency that
is *not* a workspace is devirtualized for storage, and one that *is* a
workspace keeps its own registered path.  The code's
`isPnpmVirtualCompatible` (line 162) does the opposite: at the concrete
virtual non-workspace locator `cVirtual` the chosen target is `cVirtual`
itself (its own registered path `root/vdir`, not the devirtualized locator's
`root/cdir`), while the virtual workspace locator `cWsVirtual` *is*
devirtualized. -/
theorem c1_virtual_resolution_inverted :
    isVirtualLocator cVirtual = true ∧
    tryWorkspaceByLocator cProject cVirtual = false ∧
    targetDependencyOf cState cVirtual = cVirtual ∧
    ¬ devirtualizeLocator cVirtual = cVirtual ∧
    lookupLoc cState.locations (targetDependencyOf cState cVirtual) =
      some ["root", "vdir"] ∧
    lookupLoc cState.locations (devirtualizeLocator cVirtual) =
      some ["root", "cdir"] ∧
    isVirtualLocator cWsVirtual = true ∧
    tryWorkspaceByLocator cProject cWsVirtual = true ∧
    targetDependencyOf cState cWsVirtual = devirtualizeLocator cWsVirtual := by
  decide

/-- C7: while building the existing-entry set, a "directory does not exist"
(ENOENT) error on the dependency directory's listing is treated as the empty
set and reconciliation proceeds, while any other filesystem error — from the
listing itself or from a scope child's listing encountered during the walk —
is propagated unchanged (a propagated error is never ENOENT, and always is
exactly an error some underlying `readdir` returned). -/
theorem c7_enoent_empty_other_errors_propagated
    (sub : Seg → Except FsErrorCode (List (Seg × FsObj)))
    (entries : List (Seg × FsObj)) (e e' : FsErrorCode) (h : ¬ e = .ENOENT) :
    buildExtraneous (.error .ENOENT) sub = .ok [] ∧
    buildExtraneous (.error e) sub = .error e ∧
    (buildExtraneous (.ok entries) sub = .error e' →
      ¬ e' = .ENOENT ∧ ∃ n, sub n = .error e') := by
  refine ⟨rfl, ?_, ?_⟩
  · rw [buildExtraneous, if_neg h]
  · intro herr
    rw [buildExtraneous] at herr
    cases hx : expandEntries sub entries [] with
    | mk acc err =>
      rw [hx] at herr
      cases err with
      | none => simp at herr
      | some e₂ =>
        dsimp only at herr
        by_cases he₂ : e₂ = FsErrorCode.ENOENT
        · subst he₂
          rw [if_pos rfl] at herr
          simp at herr
        · rw [if_neg he₂] at herr
          simp only [Except.error.injEq] at herr
          subst herr
          exact ⟨he₂, expandEntries_error_source hx⟩

/-- Witness for C7 at concrete inputs: an ENOTDIR listing error propagates,
and an ENOTDIR raised by the scope child listing of `@s` propagates out of a
successful top-level listing. -/
theorem c7_witness :
    buildExtraneous (.error .ENOENT) (fun _ => .error .ENOTDIR) = .ok [] ∧
    buildExtraneous (.error .ENOTDIR) (fun _ => .error .ENOTDIR) = .error .ENOTDIR ∧
    (buildExtraneous (.ok [("@s", .dir)]) (fun _ => .error .ENOTDIR) = .error .ENOTDIR →
      ¬ FsErrorCode.ENOTDIR = .ENOENT ∧
      ∃ n, (fun (_ : Seg) => (.error .ENOTDIR : Except FsErrorCode (List (Seg × FsObj)))) n =
        .error .ENOTDIR) :=
  c7_enoent_empty_other_errors_propagated (fun _ => .error .ENOTDIR)
    [("@s", .dir)] .ENOTDIR .ENOTDIR (by decide)

/-- C2 (claim refuted by the code): the claim says reconciliation is skipped
exactly for dependents that are virtual with a non-workspace identity.  The
code skips exactly the virtual *workspace* dependents instead: on the
unregistered virtual workspace locator `cWsVirtual` it returns successfully
without touching anything (silent skip), while on the unregistered virtual
non-workspace locator `cVirtual` it proceeds and hits the registration
assertion. -/
theorem c2_skip_condition_inverted :
    attachInternalDependencies cStateEmpty [] cWsVirtual [] =
        .ok (cStateEmpty, [], []) ∧
    attachInternalDependencies cStateEmpty [] cVirtual [] =
        .error (.unregistered cVirtual) := by
  constructor <;> rfl

/-- C3 (counterexample): the claim's "no extra entries remain" is false as
stated.  Attaching a registered dependent with zero declared dependencies
succeeds without touching the filesystem, yet its dependency directory
still contains the dot-named entry `.bin` — one entry instead of the
claimed exactly-zero. -/
theorem c3_counterexample_dotfile_survives :
    attachInternalDependencies cStateDot cFsDot cLocApp [] =
      .ok (cStateDot, cFsDot, []) ∧
    getObj cFsDot ["root", "app", "node_modules", ".bin"] = some (.file "x") ∧
    desiredKeys ([] : List (Descriptor × Locator)) = [] :=
  ⟨rfl, rfl, rfl⟩

/-- C3 (amended): after a compatible dependent is attached, its dependency
directory holds a symlink for every declared dependency ident, each
resolving to the registered store path of the (possibly devirtualized)
dependency locator, and every surviving enumerable entry — every entry
except dot-named ones, which the reconciler ignores — is a declared one
(a scope directory containing only declared entries counts as such). -/
theorem c3_entry_set_exact_modulo_dotfiles
    {st : InstallerState} {fs : Fs} {loc : Locator} {deps : List (Descriptor × Locator)}
    {st' : InstallerState} {fs' : Fs} {log : Log}
    (hok : attachInternalDependencies st fs loc deps = .ok (st', fs', log))
    (hcompat : isPnpmVirtualCompatible st loc = true)
    (hnd : nodupKeys fs) (hcl : parentsClosed fs)
    (hfiles : ∀ t ∈ st.pendingCopies, ∀ f ∈ t.files, ¬ f.1 = [])
    (hvalid : ∀ d ∈ deps, validIdent d.1.ident = true)
    (hnodup : (desiredKeys deps).Nodup)
    (hwf : ∀ l p, (l, p) ∈ st.locations → wfPath p = true) :
    ∃ pkgPath, lookupLoc st.locations loc = some pkgPath ∧
      (∀ d ∈ deps, ∃ src, lookupLoc st.locations (targetDependencyOf st d.2) = some src ∧
        getObj fs' (pkgPath ++ ["node_modules"] ++ identSegs d.1.ident) =
          some (.symlink
            (relSegs (pkgPath ++ ["node_modules"] ++ identSegs d.1.ident).dropLast src)) ∧
        resolveRel (pkgPath ++ ["node_modules"] ++ identSegs d.1.ident).dropLast
          (relSegs (pkgPath ++ ["node_modules"] ++ identSegs d.1.ident).dropLast src) =
          src) ∧
      (∀ n o, getObj fs' (pkgPath ++ ["node_modules"] ++ [n]) = some o →
        startsWithChar n '.' = false →
        (startsWithChar n '@' = false → [n] ∈ desiredKeys deps) ∧
        (startsWithChar n '@' = true → o = FsObj.dir ∧
          ∀ c o', getObj fs' (pkgPath ++ ["node_modules"] ++ [n, c]) = some o' →
            [n, c] ∈ desiredKeys deps)) := by
  rw [attachInternalDependencies] at hok
  cases haw : awaitPendingCopies st fs with
  | error e => rw [haw] at hok; exact absurd hok (by simp)
  | ok rw1 =>
    rw [haw] at hok
    obtain ⟨stB, fsB, logB⟩ := rw1
    dsimp only at hok
    cases hrc : reconcileDependent stB fsB loc deps with
    | error e => rw [hrc] at hok; exact absurd hok (by simp)
    | ok rc =>
      rw [hrc] at hok
      obtain ⟨fsC, logC⟩ := rc
      simp only [Except.ok.injEq, Prod.mk.injEq] at hok
      obtain ⟨rfl, rfl, rfl⟩ := hok
      obtain ⟨hloc, hopts, -, hndB, hclB⟩ := awaitPendingCopies_inv haw
      have hcompatB : isPnpmVirtualCompatible stB loc = true := by
        rw [isPnpmVirtualCompatible, hopts]
        exact hcompat
      obtain ⟨p, hlook, s1, s2, s3, s4, s5, s6, s7⟩ :=
        reconcileDependent_spec hrc hcompatB (hndB hnd) (hclB hfiles hcl) hvalid hnodup
      refine ⟨p, by rw [← hloc]; exact hlook, ?_, s5⟩
      intro d hd
      obtain ⟨src, hsrc, hsym, -⟩ := s4 d hd
      have hsrc' : lookupLoc st.locations (targetDependencyOf st d.2) = some src := by
        rw [← hloc, ← targetDependencyOf_congr hopts]
        exact hsrc
      refine ⟨src, hsrc', hsym, ?_⟩
      obtain ⟨l', hl'⟩ := lookupLoc_mem hsrc'
      exact resolveRel_relSegs _ _ (hwf l' src hl')

/-- Witness for C3: the amended exact-entry-set property at a concrete
attach of `app` with one dependency `b`. -/
theorem c3_witness :
    ∃ pkgPath, lookupLoc cStateRich.locations cLocApp = some pkgPath ∧
      (∀ d ∈ [(cDescB, cLocB)], ∃ src,
        lookupLoc cStateRich.locations (targetDependencyOf cStateRich d.2) = some src ∧
        getObj cFsRichOut (pkgPath ++ ["node_modules"] ++ identSegs d.1.ident) =
          some (.symlink
            (relSegs (pkgPath ++ ["node_modules"] ++ identSegs d.1.ident).dropLast src)) ∧
        resolveRel (pkgPath ++ ["node_modules"] ++ identSegs d.1.ident).dropLast
          (relSegs (pkgPath ++ ["node_modules"] ++ identSegs d.1.ident).dropLast src) =
          src) ∧
      (∀ n o, getObj cFsRichOut (pkgPath ++ ["node_modules"] ++ [n]) = some o →
        startsWithChar n '.' = false →
        (startsWithChar n '@' = false → [n] ∈ desiredKeys [(cDescB, cLocB)]) ∧
        (startsWithChar n '@' = true → o = FsObj.dir ∧
          ∀ c o', getObj cFsRichOut (pkgPath ++ ["node_modules"] ++ [n, c]) = some o' →
            [n, c] ∈ desiredKeys [(cDescB, cLocB)])) :=
  @c3_entry_set_exact_modulo_dotfiles cStateRich cFsRich cLocApp [(cDescB, cLocB)]
    cStateRich cFsRichOut cLogRich rfl rfl (by rw [nodupKeys]; decide)
    (parentsClosed_of_B (by decide))
    (fun t ht => absurd ht (List.not_mem_nil _))
    (by decide) (by decide)
    (by
      intro l p h
      have h' : (l, p) ∈ [(cLocApp, (["root", "app"] : Path)),
          (cLocB, ["root", "store", "b"])] := h
      simp only [List.mem_cons, List.not_mem_nil, or_false] at h'
      rcases h' with h' | h' <;>
        (rw [Prod.mk.injEq] at h'
         obtain ⟨-, rfl⟩ := h'
         decide))

/-- C6 (counterexample): an unregistered dependent is not always fatal.
The virtual workspace locator `cWsVirtual` has no entry in the (empty)
location table, yet `attachInternalDependencies` silently succeeds because
the compatibility guard skips it before the registration assertion. -/
theorem c6_counterexample_silent_skip_unregistered :
    attachInternalDependencies cStateEmpty [] cWsVirtual [] =
      .ok (cStateEmpty, [], []) ∧
    lookupLoc cStateEmpty.locations cWsVirtual = none :=
  ⟨rfl, rfl⟩

/-- C6 (amended): for dependents that pass the compatibility guard, a
successful `attachInternalDependencies` guarantees the dependent and every
dependency's (possibly devirtualized) target locator are registered in the
location table — an unregistered one would have raised the assertion
(modelled as the `unregistered` error).  Dependents skipped by the guard
are returned silently without the check. -/
theorem c6_unregistered_fatal_within_compatible
    {st : InstallerState} {fs : Fs} {loc : Locator} {deps : List (Descriptor × Locator)}
    {st' : InstallerState} {fs' : Fs} {log : Log}
    (hok : attachInternalDependencies st fs loc deps = .ok (st', fs', log))
    (hcompat : isPnpmVirtualCompatible st loc = true) :
    (lookupLoc st.locations loc).isSome = true ∧
    ∀ d ∈ deps, (lookupLoc st.locations (targetDependencyOf st d.2)).isSome = true := by
  rw [attachInternalDependencies] at hok
  cases haw : awaitPendingCopies st fs with
  | error e => rw [haw] at hok; exact absurd hok (by simp)
  | ok rw1 =>
    rw [haw] at hok
    obtain ⟨stB, fsB, logB⟩ := rw1
    dsimp only at hok
    cases hrc : reconcileDependent stB fsB loc deps with
    | error e => rw [hrc] at hok; exact absurd hok (by simp)
    | ok rc =>
      obtain ⟨hloc, hopts, -, -, -⟩ := awaitPendingCopies_inv haw
      have hcompatB : isPnpmVirtualCompatible stB loc = true := by
        rw [isPnpmVirtualCompatible, hopts]
        exact hcompat
      obtain ⟨r1, r2⟩ := reconcileDependent_lookups hrc hcompatB
      constructor
      · rw [← hloc]
        exact r1
      · intro d hd
        have h := r2 d hd
        rw [hloc, targetDependencyOf_congr hopts] at h
        exact h

/-- Witness for C6: at the concrete attach of `app` with dependency `b`,
both lookups are populated. -/
theorem c6_witness :
    (lookupLoc cStateRich.locations cLocApp).isSome = true ∧
    ∀ d ∈ [(cDescB, cLocB)], (lookupLoc cStateRich.locations
      (targetDependencyOf cStateRich d.2)).isSome = true :=
  @c6_unregistered_fatal_within_compatible cStateRich cFsRich cLocApp
    [(cDescB, cLocB)] cStateRich cFsRichOut cLogRich rfl rfl

/-- C8: during enumeration, dot-named entries are ignored — never recorded
(every recorded key has a non-dot head) and never deleted (every path
entering the dependency directory through a dot-named entry keeps its
object through reconciliation) — and `@`-named scope entries are expanded
one level: a scope is never recorded as a single opaque key, and each of
its children is recorded (hence evaluated for extraneous cleanup)
individually. -/
theorem c8_dot_ignored_scopes_expanded :
    (∀ (listing : Except FsErrorCode (List (Seg × FsObj)))
       (sub : Seg → Except FsErrorCode (List (Seg × FsObj))) (ext : Extraneous),
       buildExtraneous listing sub = .ok ext →
       ∀ k o, (k, o) ∈ ext → ∃ hd tl, k = hd :: tl ∧ startsWithChar hd '.' = false) ∧
    (∀ (listing : Except FsErrorCode (List (Seg × FsObj)))
       (sub : Seg → Except FsErrorCode (List (Seg × FsObj))) (ext : Extraneous),
       buildExtraneous listing sub = .ok ext →
       ∀ n, startsWithChar n '@' = true → ∀ o : FsObj, ¬ ([n], o) ∈ ext) ∧
    (∀ (fs : Fs) (nm : Path) (ext : Extraneous), nodupKeys fs →
       buildExtraneous (readdirEnts fs nm) (fun n => readdirEnts fs (nm ++ [n])) =
         .ok ext →
       getObj fs nm = some FsObj.dir →
       ∀ n o, getObj fs (nm ++ [n]) = some o → startsWithChar n '.' = false →
         startsWithChar n '@' = true →
         ∀ c o', getObj fs (nm ++ [n, c]) = some o' → ([n, c], o') ∈ ext) ∧
    (∀ (st : InstallerState) (fs : Fs) (loc : Locator)
       (deps : List (Descriptor × Locator)) (fs' : Fs) (log' : Log) (pkgPath : Path),
       reconcileDependent st fs loc deps = .ok (fs', log') →
       isPnpmVirtualCompatible st loc = true →
       nodupKeys fs → parentsClosed fs →
       (∀ d ∈ deps, validIdent d.1.ident = true) → (desiredKeys deps).Nodup →
       lookupLoc st.locations loc = some pkgPath →
       ∀ q s, q.get? (pkgPath ++ ["node_modules"]).length = some s →
         startsWithChar s '.' = true → getObj fs' q = getObj fs q) := by
  refine ⟨?_, ?_, ?_, ?_⟩
  · intro listing sub ext h
    exact buildExtraneous_keys_not_dot h
  · intro listing sub ext h n hat o hmem
    rcases buildExtraneous_ok_inv h with ⟨-, rfl⟩ | ⟨entries, -, hx | hx⟩
    · exact absurd hmem (List.not_mem_nil _)
    · have hmem' : ([n], o) ∈ (expandEntries sub entries []).1 := by
        rw [hx]
        exact hmem
      exact expandEntries_no_scope_key hat
        (fun o' h' => absurd h' (List.not_mem_nil _)) o hmem'
    · have hmem' : ([n], o) ∈ (expandEntries sub entries []).1 := by
        rw [hx]
        exact hmem
      exact expandEntries_no_scope_key hat
        (fun o' h' => absurd h' (List.not_mem_nil _)) o hmem'
  · intro fs nm ext hnd hbe hdir n o hno hdot hat c o' hco
    exact ((buildExtraneous_fs_complete hnd hdir hbe n o hno hdot).2 hat).2 c o' hco
  · intro st fs loc deps fs' log' pkgPath hok hcompat hnd hcl hvalid hnodup hlook q s hq hs
    obtain ⟨p', hp', -, -, -, -, -, -, s7⟩ :=
      reconcileDependent_spec hok hcompat hnd hcl hvalid hnodup
    rw [hp'] at hlook
    obtain rfl := Option.some_inj.mp hlook
    exact s7 q s hq hs

/-- Witness for C8: the dot-named `.bin` entry is not enumerated (the
extraneous set is empty) and reconciliation preserved it. -/
theorem c8_witness :
    (∀ k o, (k, o) ∈ ([] : Extraneous) →
      ∃ hd tl, k = hd :: tl ∧ startsWithChar hd '.' = false) ∧
    (∀ q s, q.get? 3 = some s → startsWithChar s '.' = true →
      getObj cFsDot q = getObj cFsDot q) := by
  have h := c8_dot_ignored_scopes_expanded
  constructor
  · exact h.1 (readdirEnts cFsDot ["root", "app", "node_modules"])
      (fun n => readdirEnts cFsDot (["root", "app", "node_modules"] ++ [n])) [] rfl
  · intro q s hq hs
    exact h.2.2.2 cStateDot cFsDot cLocApp [] cFsDot [] ["root", "app"] rfl rfl
      (by rw [nodupKeys]; decide) (parentsClosed_of_B (by decide))
      (fun d hd => absurd hd (List.not_mem_nil _)) (by decide) rfl q s hq hs

/-- C4: the copy barrier precedes reconciliation.  `attachInternalDependencies`
first awaits all pending copy tasks; when the barrier actually fires
(`copiesDone = false`) every scheduled task is completed in the filesystem
the reconciler then reads, and — provided the store slots sit outside the
dependency directory except through dot-named entries — they are still
completed when the attach finishes, so no dependency entry ever points at
an unpopulated slot. -/
theorem c4_barrier_before_reconcile
    {st : InstallerState} {fs : Fs} {loc : Locator} {deps : List (Descriptor × Locator)}
    {st' : InstallerState} {fs' : Fs} {log : Log}
    (hok : attachInternalDependencies st fs loc deps = .ok (st', fs', log))
    (hnd : nodupKeys fs) (hcl : parentsClosed fs)
    (hfiles : ∀ t ∈ st.pendingCopies, ∀ f ∈ t.files, ¬ f.1 = [])
    (hvalid : ∀ d ∈ deps, validIdent d.1.ident = true)
    (hnodup : (desiredKeys deps).Nodup)
    (hsafe : ∀ p, lookupLoc st.locations loc = some p → ∀ t ∈ st.pendingCopies,
      dotSafeUnder (p ++ ["node_modules"]) t.dst = true ∧
      ∀ f ∈ t.files, dotSafeUnder (p ++ ["node_modules"]) (t.dst ++ f.1) = true) :
    ∃ stB fsB logB, awaitPendingCopies st fs = .ok (stB, fsB, logB) ∧
      (st.copiesDone = false → ∀ t ∈ st.pendingCopies, taskCompleted t fsB) ∧
      (∃ logR, reconcileDependent stB fsB loc deps = .ok (fs', logR)) ∧
      (st.copiesDone = false → ∀ t ∈ st.pendingCopies, taskCompleted t fs') := by
  rw [attachInternalDependencies] at hok
  cases haw : awaitPendingCopies st fs with
  | error e => rw [haw] at hok; exact absurd hok (by simp)
  | ok rw1 =>
    rw [haw] at hok
    obtain ⟨stB, fsB, logB⟩ := rw1
    dsimp only at hok
    cases hrc : reconcileDependent stB fsB loc deps with
    | error e => rw [hrc] at hok; exact absurd hok (by simp)
    | ok rc =>
      rw [hrc] at hok
      obtain ⟨fsC, logC⟩ := rc
      simp only [Except.ok.injEq, Prod.mk.injEq] at hok
      obtain ⟨rfl, rfl, rfl⟩ := hok
      have hbar : st.copiesDone = false → ∀ t ∈ st.pendingCopies, taskReady t fsB := by
        intro hflag
        rw [awaitPendingCopies, if_neg (by simp [hflag])] at haw
        cases hrt : runTasks fs st.pendingCopies with
        | error e => rw [hrt] at haw; exact absurd haw (by simp)
        | ok rt =>
          rw [hrt] at haw
          obtain ⟨fsB', w⟩ := rt
          dsimp only at haw
          simp only [Except.ok.injEq, Prod.mk.injEq] at haw
          obtain ⟨-, h2, -⟩ := haw
          exact fun t ht => h2 ▸ runTasks_ready hrt hfiles t ht
      refine ⟨stB, fsB, logB, rfl, ?_, ⟨logC, hrc⟩, ?_⟩
      · intro hflag t ht f hf
        exact ((hbar hflag t ht).2 f hf).2
      · intro hflag t ht
        have hready := hbar hflag t ht
        obtain ⟨hloc, hopts, -, hndB, hclB⟩ := awaitPendingCopies_inv haw
        by_cases hcompat : isPnpmVirtualCompatible stB loc = true
        · obtain ⟨p, hlook, s1, s2, s3, s4, s5, s6, s7⟩ :=
            reconcileDependent_spec hrc hcompat (hndB hnd) (hclB hfiles hcl) hvalid hnodup
          have hlook' : lookupLoc st.locations loc = some p := by
            rw [← hloc]
            exact hlook
          have hsafe' := hsafe p hlook' t ht
          have hreadyC : taskReady t fsC := by
            refine taskReady_of_safe hready ?_
            intro q hqm
            have hdq : dotSafeUnder (p ++ ["node_modules"]) q = true := by
              rcases hqm with hqm | ⟨f, hf, hqm⟩
              · exact dotSafeUnder_prefix hsafe'.1 hqm
              · exact dotSafeUnder_prefix (hsafe'.2 f hf) hqm
            exact dotSafe_preserved (by simp) s3 s6 s7 hdq
          intro f hf
          exact (hreadyC.2 f hf).2
        · have hc : isPnpmVirtualCompatible stB loc = false := by
            revert hcompat
            cases isPnpmVirtualCompatible stB loc <;> simp
          rw [reconcileDependent, if_pos (by rw [hc]; rfl)] at hrc
          simp only [Except.ok.injEq, Prod.mk.injEq] at hrc
          obtain ⟨rfl, -⟩ := hrc
          intro f hf
          exact ((hready.2 f hf)).2

/-- Witness for C4: a concrete attach with one genuinely pending copy task,
run from `copiesDone = false`. -/
theorem c4_witness :
    ∃ stB fsB logB, awaitPendingCopies cStateC4 cFsC4 = .ok (stB, fsB, logB) ∧
      (cStateC4.copiesDone = false →
        ∀ t ∈ cStateC4.pendingCopies, taskCompleted t fsB) ∧
      (∃ logR, reconcileDependent stB fsB cLocApp [(cDescB, cLocB)] =
        .ok (cFsC4Out, logR)) ∧
      (cStateC4.copiesDone = false →
        ∀ t ∈ cStateC4.pendingCopies, taskCompleted t cFsC4Out) :=
  @c4_barrier_before_reconcile cStateC4 cFsC4 cLocApp [(cDescB, cLocB)]
    cStC4Out cFsC4Out cLogC4 rfl (by rw [nodupKeys]; decide)
    (parentsClosed_of_B (by decide)) (by decide) (by decide) (by decide)
    (by
      intro p hp t ht
      have hp' : some (["root", "app"] : Path) = some p := hp
      obtain rfl := Option.some_inj.mp hp'
      have ht' : t ∈ [cTask] := ht
      simp only [List.mem_singleton] at ht'
      subst ht'
      exact ⟨by decide, by decide⟩)

/-- Witness for C5: the two-package plan (soft workspace `app` depending on
hard package `b`), run once over the bare tree and then rerun over its own
output: the second run writes nothing. -/
theorem c5_witness :
    ∃ st₂, runInstall cProject cPkgs cAttaches cFs1 = .ok (st₂, cFs1, []) :=
  @c5_install_idempotent cProject cPkgs cAttaches cFs0 cSt1 cFs1 cLog1
    rfl (by rw [nodupKeys]; decide) (parentsClosed_of_B (by decide))
    (by decide) (by decide) (by decide)
    (List.Pairwise.cons (fun b hb => absurd hb (List.not_mem_nil _))
      List.Pairwise.nil)
    (by
      intro a ha p hp t ht
      have ha' : a ∈ [(cLocApp, [(cDescB, cLocB)])] := ha
      simp only [List.mem_singleton] at ha'
      subst ha'
      have hp' : some (["root", "app"] : Path) = some p := hp
      obtain rfl := Option.some_inj.mp hp'
      have ht' : t ∈ [CopyTask.mk ["root", "node_modules", ".store", "b-npm:2.0.0"]
          [(["index.js"], "codeB")]] := ht
      simp only [List.mem_singleton] at ht'
      subst ht'
      exact ⟨by decide, by decide⟩)

end PnpmSpec

